import Mathlib

/-!
Verification of the clade-table-to-tree conversion in `wikipedia2phylo.py`.

The HTML shape consumed by `build_tree` is embedded as the mutual inductive
family `Table` / `Row` / `LeafCell`.  A `Table` abstracts a `<table
class="clade">` element: its optional direct `tbody` child and that body's
direct `tr` rows.  A `Row` abstracts the first direct `td` cell of a `tr`
(its class list, its `style` attribute, its text content) together with the
next sibling `td` of class `clade-leaf` when one exists (`cladeleaf`).  A
leaf cell either holds a nested clade table (`LeafCell.table`) or terminal
leaf content (`LeafCell.content`): its text, its descendant anchors in
document order and its descendant images in document order.

`ete3.TreeNode` objects, as used by the source, are embedded as `PNode`:
name, support, the `info` feature, the `wikipedia_page_depth` feature, the
optional `link` feature, the optional pair of `imgs` / `imgsizes` features
(`Media`, which records whether the attributes currently hold the list form
produced by `build_tree`, the flattened string form produced by the nhx
output path of `main`, or the reparsed form produced when `main` reloads an
nhx file), and the child list.

Python exceptions are embedded as `Except BErr`; an uncaught exception in
the source corresponds to an `.error` result here.
-/

/-- Decidable equality for `Except` results, so that concrete runs of the
embedded functions can be checked by `decide`. -/
instance {e a : Type} [DecidableEq e] [DecidableEq a] : DecidableEq (Except e a)
  | .error x, .error y =>
    match decEq x y with
    | isTrue h => isTrue (by rw [h])
    | isFalse h => isFalse fun he => by injection he with h1; exact h h1
  | .error _, .ok _ => isFalse fun h => Except.noConfusion h
  | .ok _, .error _ => isFalse fun h => Except.noConfusion h
  | .ok x, .ok y =>
    match decEq x y with
    | isTrue h => isTrue (by rw [h])
    | isFalse h => isFalse fun he => by injection he with h1; exact h h1

/-- The rational 0.5, written in normal form so that it evaluates inside
the kernel (`1 / 2` does not). -/
def halfRat : Rat := ⟨1, 2, by norm_num, by norm_num⟩

theorem halfRat_eq_half : halfRat = 1 / 2 := by
  apply Rat.ext <;> norm_num [halfRat]

/-- Does `pat` occur as a leading segment of `l`? -/
def listHasLead : List Char → List Char → Bool
  | [], _ => true
  | _ :: _, [] => false
  | p :: ps, c :: cs => p = c && listHasLead ps cs

/-- Does `l` contain `pat` as a contiguous run? -/
def listHasInfix (l pat : List Char) : Bool :=
  match l with
  | [] => pat.isEmpty
  | _ :: rest => listHasLead pat l || listHasInfix rest pat

/-- Case-sensitive substring test: Python's `pat in s` for strings. -/
def strContains (s pat : String) : Bool :=
  listHasInfix s.toList pat.toList

/-- Python `str.strip()` with no argument: drop leading and trailing
whitespace. -/
def pyStrip (s : String) : String :=
  String.mk
    (((s.toList.dropWhile Char.isWhitespace).reverse.dropWhile
        Char.isWhitespace).reverse)

/-- Python `str.lower()` (ASCII case folding suffices for the names in
scope). -/
def pyLower (s : String) : String :=
  String.mk (s.toList.map Char.toLower)

/-- Case-insensitive substring test; models `re.search` on a single
`re.escape`d pattern compiled with `re.I` (`find_matching_node`). -/
def strContainsCI (s pat : String) : Bool :=
  strContains (pyLower s) (pyLower pat)

/-- Python `str.startswith`. -/
def strStarts (s pat : String) : Bool :=
  listHasLead pat.toList s.toList

/-- Split a character list on a separator character, Python
`str.split(sep)` style: `n` separators yield `n + 1` (possibly empty)
segments. -/
def splitOnChar (sep : Char) : List Char → List (List Char)
  | [] => [[]]
  | c :: rest =>
    if c = sep then [] :: splitOnChar sep rest
    else
      match splitOnChar sep rest with
      | [] => [[c]]
      | seg :: segs => (c :: seg) :: segs

/-- Python `leafname.split('/')`. -/
def pySplitSlash (s : String) : List String :=
  (splitOnChar '/' s.toList).map String.mk

/-- An `<a>` element: its text, its optional `href` attribute and its class
list. -/
structure Anchor where
  atext : String
  href : Option String
  classes : List String
deriving DecidableEq

/-- An `<img>` element: its `src`, `width` and `height` attributes (HTML
attribute values, hence strings). -/
structure Img where
  src : String
  width : String
  height : String
deriving DecidableEq

mutual
/-- A `<table class="clade">` element: the direct `tbody` child, when
present, with its direct `tr` rows in document order
(`tablesoup.findChild('tbody', recursive=False)` /
`tbody.findChildren('tr', recursive=False)`). -/
inductive Table where
  | mk (tbody : Option (List Row))

/-- A direct `tr` row of a clade table body, summarised by the data
`build_tree` reads from it: the class list, `style` attribute and text of
its first direct `td`, and the following sibling `td` of class
`clade-leaf` when present.  (A `tr` with no `td` at all would crash the
source on `cell0.get`; such rows are outside this model.) -/
inductive Row where
  | mk (classes : List String) (style : Option String) (ctext : String)
       (cladeleaf : Option LeafCell)

/-- The content of a `clade-leaf` cell: either a direct child
`<table class="clade">` (`findChild(..., recursive=False)`), or terminal
leaf content. -/
inductive LeafCell where
  | table (t : Table)
  | content (ltext : String) (anchors : List Anchor) (imgs : List Img)
end

mutual
def tableDecEq : (a b : Table) → Decidable (a = b)
  | .mk none, .mk none => isTrue rfl
  | .mk none, .mk (some _) => isFalse fun h => by
      injection h with h1; exact Option.noConfusion h1
  | .mk (some _), .mk none => isFalse fun h => by
      injection h with h1; exact Option.noConfusion h1
  | .mk (some l1), .mk (some l2) =>
    match rowListDecEq l1 l2 with
    | isTrue h => isTrue (by rw [h])
    | isFalse h => isFalse fun he => by
        injection he with h1; injection h1 with h2; exact h h2

def rowListDecEq : (a b : List Row) → Decidable (a = b)
  | [], [] => isTrue rfl
  | [], _ :: _ => isFalse fun h => List.noConfusion h
  | _ :: _, [] => isFalse fun h => List.noConfusion h
  | r1 :: t1, r2 :: t2 =>
    match rowDecEq r1 r2 with
    | isFalse h => isFalse fun he => by injection he with h1 h2; exact h h1
    | isTrue h1 =>
      match rowListDecEq t1 t2 with
      | isTrue h2 => isTrue (by rw [h1, h2])
      | isFalse h2 => isFalse fun he => by injection he with ha hb; exact h2 hb

def rowDecEq : (a b : Row) → Decidable (a = b)
  | .mk c1 s1 x1 o1, .mk c2 s2 x2 o2 =>
    match lcOptDecEq o1 o2 with
    | isFalse h => isFalse fun he => by
        injection he with h1 h2 h3 h4; exact h h4
    | isTrue ho =>
      decidable_of_iff (c1 = c2 ∧ s1 = s2 ∧ x1 = x2)
        (by
          constructor
          · rintro ⟨h1, h2, h3⟩; rw [h1, h2, h3, ho]
          · intro h; injection h with h1 h2 h3 h4; exact ⟨h1, h2, h3⟩)

def lcOptDecEq : (a b : Option LeafCell) → Decidable (a = b)
  | none, none => isTrue rfl
  | none, some _ => isFalse fun h => Option.noConfusion h
  | some _, none => isFalse fun h => Option.noConfusion h
  | some a, some b =>
    match lcDecEq a b with
    | isTrue h => isTrue (by rw [h])
    | isFalse h => isFalse fun he => by injection he with h1; exact h h1

def lcDecEq : (a b : LeafCell) → Decidable (a = b)
  | .table ta, .table tb =>
    match tableDecEq ta tb with
    | isTrue h => isTrue (by rw [h])
    | isFalse h => isFalse fun he => by injection he with h1; exact h h1
  | .table _, .content .. => isFalse fun h => LeafCell.noConfusion h
  | .content .., .table _ => isFalse fun h => LeafCell.noConfusion h
  | .content x1 a1 i1, .content x2 a2 i2 =>
    decidable_of_iff (x1 = x2 ∧ a1 = a2 ∧ i1 = i2)
      (by
        constructor
        · rintro ⟨h1, h2, h3⟩; rw [h1, h2, h3]
        · intro h; injection h with h1 h2 h3; exact ⟨h1, h2, h3⟩)
end

instance : DecidableEq Table := tableDecEq

instance : DecidableEq Row := rowDecEq

instance : DecidableEq LeafCell := lcDecEq

/-- The two string-valued image features of a node.  `build_tree` stores
`imgs` as a list of URLs and `imgsizes` as a list of `(width, height)`
string pairs (`lists`); the nhx output path of `main` overwrites both with
single joined strings (`flat`); reloading an nhx file turns them into a
list of URLs and a list of `(width, height)` integer pairs (`parsed`). -/
inductive Media where
  | lists (imgs : List String) (imgsizes : List (String × String))
  | flat (imgs : String) (imgsizes : String)
  | parsed (imgs : List String) (imgsizes : List (Nat × Nat))
deriving DecidableEq

/-- An `ete3.TreeNode` as produced and consumed by the source: `name`,
`support` (ete3 default 1.0), the `info` list feature, the
`wikipedia_page_depth` feature (absent on implicitly created leaf
children), the optional `link` feature, the optional image features and
the ordered child list. -/
inductive PNode where
  | mk (name : String) (support : Rat) (info : List String)
       (depth : Option Nat) (link : Option String) (media : Option Media)
       (children : List PNode)

mutual
def pnodeDecEq : (a b : PNode) → Decidable (a = b)
  | .mk n1 s1 i1 d1 l1 m1 c1, .mk n2 s2 i2 d2 l2 m2 c2 =>
    match pnodeListDecEq c1 c2 with
    | isFalse h => isFalse fun he => by
        injection he with h1 h2 h3 h4 h5 h6 h7; exact h h7
    | isTrue hc =>
      decidable_of_iff (n1 = n2 ∧ s1 = s2 ∧ i1 = i2 ∧ d1 = d2 ∧ l1 = l2 ∧ m1 = m2)
        (by
          constructor
          · rintro ⟨h1, h2, h3, h4, h5, h6⟩; rw [h1, h2, h3, h4, h5, h6, hc]
          · intro h
            injection h with h1 h2 h3 h4 h5 h6 h7
            exact ⟨h1, h2, h3, h4, h5, h6⟩)

def pnodeListDecEq : (a b : List PNode) → Decidable (a = b)
  | [], [] => isTrue rfl
  | [], _ :: _ => isFalse fun h => List.noConfusion h
  | _ :: _, [] => isFalse fun h => List.noConfusion h
  | n1 :: t1, n2 :: t2 =>
    match pnodeDecEq n1 n2 with
    | isFalse h => isFalse fun he => by injection he with h1 h2; exact h h1
    | isTrue h1 =>
      match pnodeListDecEq t1 t2 with
      | isTrue h2 => isTrue (by rw [h1, h2])
      | isFalse h2 => isFalse fun he => by injection he with ha hb; exact h2 hb
end

instance : DecidableEq PNode := pnodeDecEq

def PNode.name : PNode → String
  | .mk n _ _ _ _ _ _ => n

def PNode.support : PNode → Rat
  | .mk _ s _ _ _ _ _ => s

def PNode.info : PNode → List String
  | .mk _ _ i _ _ _ _ => i

def PNode.depth : PNode → Option Nat
  | .mk _ _ _ d _ _ _ => d

def PNode.link : PNode → Option String
  | .mk _ _ _ _ l _ _ => l

def PNode.media : PNode → Option Media
  | .mk _ _ _ _ _ m _ => m

def PNode.children : PNode → List PNode
  | .mk _ _ _ _ _ _ cs => cs

/-- `nodes[-1].info.append(txt)`: extend the `info` feature. -/
def PNode.addInfo (n : PNode) (txt : String) : PNode :=
  match n with
  | .mk nm s i d l m cs => .mk nm s (i ++ [txt]) d l m cs

/-- Node count of a tree (used as a termination measure and as the
"subtree size" of the spec). -/
def psize : PNode → Nat
  | .mk _ _ _ _ _ _ cs => 1 + psizeList cs
where psizeList : List PNode → Nat
  | [] => 0
  | c :: cs => psize c + psizeList cs

/-- All nodes of a tree in preorder (`tree.traverse()` reachability). -/
def PNode.allNodes : PNode → List PNode
  | .mk n s i d l m cs => .mk n s i d l m cs :: allNodesList cs
where allNodesList : List PNode → List PNode
  | [] => []
  | c :: cs => c.allNodes ++ allNodesList cs

/-- Preorder list of node names. -/
def preNames : PNode → List String
  | .mk n _ _ _ _ _ cs => n :: preNamesList cs
where preNamesList : List PNode → List String
  | [] => []
  | c :: cs => preNames c ++ preNamesList cs

/-- Python exceptions that the source can raise on the inputs modelled
here. -/
inductive BErr where
  /-- `nodes[-1]` on an empty `nodes` list (line 206). -/
  | indexError
  /-- method call on `None`: `cladeleaf.findChild(...)` when no
  `clade-leaf` sibling exists (line 146). -/
  | attributeError
  /-- `leaflink['href']` when the anchor has no `href` attribute
  (line 173). -/
  | keyError
  /-- `'%sx%s' % size` applied to a single character when `imgsizes` is
  already a flattened string (line 288 on a second nhx write). -/
  | typeError
  /-- `int()` on a non-numeric string, or unpacking `split('x', 1)` that
  found no `'x'` (lines 311-312). -/
  | valueError
deriving DecidableEq

/-- True when a pattern of `find_matching_node`'s regex matches the name:
the regex is the `|`-join of `re.escape`d patterns compiled with `re.I`,
so `search` succeeds iff some pattern is a case-insensitive substring. -/
def nodeMatches (pats : List String) (n : PNode) : Bool :=
  pats.any fun p => strContainsCI n.name p

theorem psizeList_append (l1 l2 : List PNode) :
    psize.psizeList (l1 ++ l2) = psize.psizeList l1 + psize.psizeList l2 := by
  induction l1 with
  | nil => simp [psize.psizeList]
  | cons c cs ih => simp [psize.psizeList, ih]; omega

theorem psizeList_children_lt (n : PNode) :
    psize.psizeList n.children < psize n := by
  cases n with
  | mk nm s i d l m cs => simp [psize, PNode.children]

/-- Breadth-first search over a queue of nodes, returning the first node
(levelorder) whose name matches; embeds the `tree.traverse('levelorder')`
loop of `find_matching_node`.  Each iteration removes one node from the
queue and enqueues its children, so the total node count of the queue
strictly decreases; the explicit bound keeps the recursion structural. -/
def bfsAux (pats : List String) : Nat → List PNode → Option PNode
  | _, [] => none
  | 0, _ :: _ => none
  | fuel + 1, n :: queue =>
    if nodeMatches pats n then some n
    else bfsAux pats fuel (queue ++ n.children)

/-- `find_matching_node(tree, *patterns)` (lines 120-124): the node count
of the tree bounds the number of loop iterations. -/
def findMatchingNode (tree : PNode) (pats : List String) : Option PNode :=
  bfsAux pats (psize tree) [tree]

/-- Module constant `WIKIPEDIA_URL`. -/
def WIKIPEDIA_URL : String := "https://en.wikipedia.org"

/-- `'dashed' in cell0.get('style', ())`: with no `style` attribute the
default `()` contains nothing; with one, Python string membership is a
substring test. -/
def styleDashed : Option String → Bool
  | none => false
  | some s => strContains s "dashed"

/-- The support value assigned when a label row's node is created
(lines 138-143): ete3's default 1.0, overwritten with 0.5 when the label
cell's style contains the dashed indicator. -/
def rowSupport (style : Option String) : Rat :=
  if styleDashed style then halfRat else 1

/-- The node made by `nodes[-1].add_child(name=leafname)`: only a name;
ete3 defaults support to 1.0; no features are added to it. -/
def leafChildNode (nm : String) : PNode :=
  PNode.mk nm 1 [] none none none []

/-- Lines 174-176: resolve a relative href against the site root. -/
def resolveHref (href0 : String) : String :=
  if strStarts href0 "https://" then href0 else WIKIPEDIA_URL ++ href0

/-- The node a label row with a true-leaf cell contributes (lines
150-171, plus the children spliced by a successful stitch, lines
195-196): name by the leading-branch rule, the `link` feature from the
first anchor (`leaflink.get('href', '')`), the `imgs`/`imgsizes`
features from the cell's images, and — only when the label text was
non-empty — an implicitly created child bearing the leaf name.  All
features live on this row node itself, not on the implicit child. -/
def contentNode (cladename : String) (sup : Rat) (rc : Nat)
    (leafname : String) (leaflink : Option Anchor) (imgs : List Img)
    (spliced : List PNode) : PNode :=
  PNode.mk (if cladename = "" then leafname else cladename) sup []
    (some rc)
    (leaflink.map fun a => a.href.getD "")
    (some (.lists (imgs.map Img.src) (imgs.map fun i => (i.width, i.height))))
    ((if cladename = "" then [] else [leafChildNode leafname]) ++ spliced)

/-- Inner `for hreftree in build_tree(...)` loop (lines 188-199): scan the
roots of one candidate tree; the first root whose matched node exists and
is not a leaf contributes that node's children; a match that is a leaf is
skipped and the scan continues. -/
def stitchRoots (pats : List String) : List PNode → Option (List PNode)
  | [] => none
  | r :: rest =>
    match findMatchingNode r pats with
    | some m => if m.children.isEmpty then stitchRoots pats rest else some m.children
    | none => stitchRoots pats rest

/-- Outer `for hreftreesoup in hreftreesoups` loop (lines 187-200): try
the candidate tables in order; stop at the first whose roots yield a
successful splice.  `deeper` is the builder used for the linked page's
tables (`build_tree(hreftreesoup, recurs, _recurs_count + 1)`). -/
def stitchTablesGo (deeper : Table → Nat → Except BErr (List PNode)) :
    List Table → Nat → List String → Except BErr (Option (List PNode))
  | [], _, _ => .ok none
  | t :: rest, rc1, pats =>
    match deeper t rc1 with
    | .error e => .error e
    | .ok roots =>
      match stitchRoots pats roots with
      | some cs => .ok (some cs)
      | none => stitchTablesGo deeper rest rc1 pats

/-- The true-leaf branch of a label row (lines 150-203): build the row's
node and, when the stitching trigger fires (`stitchOn`, i.e.
`_recurs_count < recurs`, plus a link that is not a redlink), follow the
link and splice the children found by the first successful match. -/
def processLeafGo (fetch : String → List Table)
    (deeper : Table → Nat → Except BErr (List PNode)) (stitchOn : Bool)
    (cladename : String) (sup : Rat) (rc : Nat) (leafname : String)
    (leaflink : Option Anchor) (imgs : List Img) : Except BErr PNode :=
  if stitchOn then
    match leaflink with
    | none => .ok (contentNode cladename sup rc leafname none imgs [])
    | some a =>
      match a.href with
      | none =>
        -- line 173: `leaflink['href']` raises KeyError
        .error .keyError
      | some href0 =>
        if strContains href0 "redlink=1" then
          .ok (contentNode cladename sup rc leafname (some a) imgs [])
        else if (fetch (resolveHref href0)).isEmpty then
          -- `if hreftreesoups:` false: nothing happens
          .ok (contentNode cladename sup rc leafname (some a) imgs [])
        else
          match stitchTablesGo deeper (fetch (resolveHref href0))
              (rc + 1) (pyStrip a.atext :: pySplitSlash leafname) with
          | .error e => .error e
          | .ok none =>
            -- for-else at line 201: warning, leaf left as-is
            .ok (contentNode cladename sup rc leafname (some a) imgs [])
          | .ok (some cs) =>
            -- lines 195-196: splice the matched node's children
            .ok (contentNode cladename sup rc leafname (some a) imgs cs)
  else
    .ok (contentNode cladename sup rc leafname leaflink imgs [])

mutual
/-- One invocation of `build_tree` (lines 127-210) at a fixed stitching
level: `stitchOn` is the value of the guard `_recurs_count < recurs` at
this level, and `deeper` builds the tables of a linked page (one level
further down the cross-page recursion). -/
def buildTableGo (fetch : String → List Table)
    (deeper : Table → Nat → Except BErr (List PNode)) (stitchOn : Bool)
    (t : Table) (rc : Nat) : Except BErr (List PNode) :=
  match t with
  | .mk none => .ok []
  | .mk (some rows) =>
    match buildRowsGo fetch deeper stitchOn rows rc [] with
    | .error e => .error e
    | .ok acc => .ok acc.reverse

/-- The `for row in tbody.findChildren('tr', recursive=False)` loop.  The
accumulator holds the nodes created so far, most recent first (the source
appends to `nodes` and addresses `nodes[-1]`); `buildTableGo` reverses
the final accumulator back into creation order. -/
def buildRowsGo (fetch : String → List Table)
    (deeper : Table → Nat → Except BErr (List PNode)) (stitchOn : Bool)
    (rows : List Row) (rc : Nat) (acc : List PNode) :
    Except BErr (List PNode) :=
  match rows with
  | [] => .ok acc
  | row :: rest =>
    match processRowGo fetch deeper stitchOn row rc acc with
    | .error e => .error e
    | .ok acc1 => buildRowsGo fetch deeper stitchOn rest rc acc1

/-- One iteration of the row loop (lines 134-209): dispatch on the class
of the row's first cell and return the updated accumulator. -/
def processRowGo (fetch : String → List Table)
    (deeper : Table → Nat → Except BErr (List PNode)) (stitchOn : Bool)
    (row : Row) (rc : Nat) (acc : List PNode) : Except BErr (List PNode) :=
  match row with
  | .mk classes style ctext cladeleaf =>
    if "clade-label" ∈ classes then
      -- lines 136-203: one node is created and appended
      Except.map (fun node => node :: acc)
        (processLabelRow fetch deeper stitchOn style ctext cladeleaf rc)
    else if "clade-slabel" ∈ classes then
      -- lines 205-206: `nodes[-1].info.append(...)`
      match acc with
      | [] => .error .indexError
      | n :: tl => .ok (n.addInfo (pyStrip ctext) :: tl)
    else
      -- lines 207-209: warning only, row skipped
      .ok acc

/-- A label row (lines 136-203): create the row's node — named by the
trimmed label text, support from the dashed-style check, an empty `info`
list and the current page depth — and populate it from the adjacent leaf
cell. -/
def processLabelRow (fetch : String → List Table)
    (deeper : Table → Nat → Except BErr (List PNode)) (stitchOn : Bool)
    (style : Option String) (ctext : String) (cladeleaf : Option LeafCell)
    (rc : Nat) : Except BErr PNode :=
  match cladeleaf with
  | none =>
    -- line 146: `cladeleaf.findChild(...)` with `cladeleaf = None`
    .error .attributeError
  | some (.table ct) =>
    -- lines 147-149: recurse into the nested clade table
    match buildTableGo fetch deeper stitchOn ct rc with
    | .error e => .error e
    | .ok childs =>
      .ok (PNode.mk (pyStrip ctext) (rowSupport style) [] (some rc)
            none none childs)
  | some (.content ltext anchors imgs) =>
    -- lines 150-203: true leaf
    processLeafGo fetch deeper stitchOn (pyStrip ctext) (rowSupport style) rc
      (pyStrip ltext) anchors.head? imgs
end

/-- `build_tree` organised by the remaining cross-page depth budget
`recurs - _recurs_count`: the stitching guard `_recurs_count < recurs` of
line 173 holds exactly when the budget is positive, and the recursive call
of line 188 runs at `_recurs_count + 1`, i.e. with budget one less.  With
budget 0 the `deeper` builder is unreachable (the guard is false), so a
trivial one is supplied. -/
def buildDepth (fetch : String → List Table) : Nat → Table → Nat →
    Except BErr (List PNode)
  | 0, t, rc => buildTableGo fetch (fun _ _ => .ok []) false t rc
  | b + 1, t, rc => buildTableGo fetch (buildDepth fetch b) true t rc

/-- `build_tree(tablesoup, recurs, _recurs_count)` (lines 127-210).
`fetch` is the Document Source + Locator collaborator used for stitching
(`get_wiki_tree(url=href)`): it maps an absolute URL to the candidate
clade tables of the linked page. -/
def build_tree (fetch : String → List Table) (recurs : Nat) (t : Table)
    (rc : Nat) : Except BErr (List PNode) :=
  buildDepth fetch (recurs - rc) t rc

/-- Python `str.isdigit` on a character list (the digits that occur in
practice are ASCII). -/
def strIsDigitL (l : List Char) : Bool :=
  !l.isEmpty && l.all Char.isDigit

/-- Python `int` on a string of decimal digits. -/
def digitsToNat (l : List Char) : Nat :=
  l.foldl (fun a c => a * 10 + (c.toNat - 48)) 0

/-- `term.rsplit('#', 1)[-1]`: the segment after the last `'#'`, or the
whole term when it has none. -/
def afterLastHash (l : List Char) : List Char :=
  (l.reverse.takeWhile fun c => c ≠ '#').reverse

/-- First component of `term.rpartition('#')`: everything before the last
`'#'`, or the empty string when the term has none. -/
def beforeLastHash (l : List Char) : List Char :=
  if '#' ∈ l then ((l.reverse.dropWhile fun c => c ≠ '#').drop 1).reverse
  else []

/-- Lines 48-51 of `get_wiki_tree`: strip a trailing `#N` suffix from the
search term into a 1-based table index. -/
def parseSearchTerm (term : String) : String × Option Nat :=
  let l := term.toList
  let lastSeg := afterLastHash l
  if strIsDigitL lastSeg then
    (String.mk (beforeLastHash l), some (digitsToNat lastSeg))
  else (term, none)

/-- The one uncaught exception the locator can raise on the inputs
modelled here: `tablesoups[-1]` on an empty list (line 92). -/
inductive LocErr where
  | indexError
deriving DecidableEq

/-- Last element of a table list (`tablesoups[-1]`). -/
def lastOf : List Table → Option Table
  | [] => none
  | [t] => some t
  | _ :: rest => lastOf rest

/-- The scanning loop of `get_wiki_tree` (lines 66-74) over the top-level
clade tables of the document in the scan order that the
skip-past-last-descendant step produces.  The loop breaks as soon as the
accumulated count equals a requested index.  (The `IndexError` break for
a clade table with no descendants at all is not modelled: every table in
scope here renders with at least a `tbody` descendant.) -/
def scanTables (idx : Option Nat) (acc : List Table) : List Table → List Table
  | [] => acc
  | t :: rest =>
    let acc1 := acc ++ [t]
    if idx = some acc1.length then acc1 else scanTables idx acc1 rest

/-- `get_wiki_tree(term)` (lines 46-93), with the fetched document
abstracted by the list of its top-level clade tables in scan order.
With a truthy `tree_index` the function returns `[tablesoups[-1]]`
(line 92); otherwise all scanned tables. -/
def getWikiTree (term : String) (docTables : List Table) :
    Except LocErr (List Table) :=
  let idx := (parseSearchTerm term).2
  let scanned := scanTables idx [] docTables
  match idx with
  | some n =>
    if n ≠ 0 then
      match lastOf scanned with
      | some t => .ok [t]
      | none => .error .indexError
    else .ok scanned
  | none => .ok scanned

def Row.classes : Row → List String
  | .mk cs _ _ _ => cs

def Row.style : Row → Option String
  | .mk _ st _ _ => st

def Row.ctext : Row → String
  | .mk _ _ tx _ => tx

def Row.cladeleaf : Row → Option LeafCell
  | .mk _ _ _ cl => cl

mutual
/-- Well-formedness of a clade table, as the spec's edge-case policies
require for clean processing: every label row has an adjacent leaf cell,
no sister/annotation row precedes the first node of its own table body,
and nested tables are well-formed in turn. -/
def wfTableB : Table → Bool
  | .mk none => true
  | .mk (some rows) => wfRowsB false rows

/-- Row-list well-formedness; `seen` records whether a node has already
been created when this row is reached (the accumulator is non-empty). -/
def wfRowsB : Bool → List Row → Bool
  | _, [] => true
  | seen, .mk classes _ _ cl :: rest =>
    if "clade-label" ∈ classes then
      (match cl with
       | none => false
       | some (.table ct) => wfTableB ct
       | some (.content _ _ _) => true) && wfRowsB true rest
    else if "clade-slabel" ∈ classes then
      seen && wfRowsB seen rest
    else
      wfRowsB seen rest
end

/-- Number of label rows among the direct rows of a row list (one root
node is created per top-level label row). -/
def labelCountRows : List Row → Nat
  | [] => 0
  | r :: rest => (if "clade-label" ∈ r.classes then 1 else 0) + labelCountRows rest

/-- The spec's "well-formed single-table input": well-formed throughout
and with exactly one top-level label row, hence exactly one root. -/
def wellFormedTable : Table → Bool
  | .mk none => false
  | .mk (some rows) => wfRowsB false rows && (labelCountRows rows = 1)

mutual
/-- Number of label rows of a table, nested clade tables included. -/
def labelRowsTable : Table → Nat
  | .mk none => 0
  | .mk (some rows) => labelRowsRows rows

def labelRowsRows : List Row → Nat
  | [] => 0
  | .mk classes _ _ cl :: rest =>
    (if "clade-label" ∈ classes then
      1 + (match cl with
           | some (.table ct) => labelRowsTable ct
           | _ => 0)
     else 0) + labelRowsRows rest
end

mutual
/-- Number of label rows (nested tables included) whose trimmed label
text is non-empty and whose leaf cell is a true leaf: each such row gives
rise to one extra implicitly created leaf child. -/
def namedLeafTable : Table → Nat
  | .mk none => 0
  | .mk (some rows) => namedLeafRows rows

def namedLeafRows : List Row → Nat
  | [] => 0
  | .mk classes _ ctext cl :: rest =>
    (if "clade-label" ∈ classes then
      match cl with
      | some (.table ct) => namedLeafTable ct
      | some (.content _ _ _) => if pyStrip ctext = "" then 0 else 1
      | none => 0
     else 0) + namedLeafRows rest
end

mutual
/-- The node names a table contributes, read off the rows in document
order: each label row contributes its own node's name followed by the
names below it (the nested table's rows come textually inside the row;
an implicitly created leaf child is named within the same row). -/
def docNamesTable : Table → List String
  | .mk none => []
  | .mk (some rows) => docNamesRows rows

def docNamesRows : List Row → List String
  | [] => []
  | .mk classes _ ctext cl :: rest =>
    (if "clade-label" ∈ classes then
      match cl with
      | some (.table ct) => pyStrip ctext :: docNamesTable ct
      | some (.content ltext _ _) =>
        if pyStrip ctext = "" then [pyStrip ltext]
        else [pyStrip ctext, pyStrip ltext]
      | none => []
     else []) ++ docNamesRows rest
end

mutual
/-- Reference builder: the total function that `build_tree` computes on
well-formed input with stitching disabled.  It is structurally identical
to the `buildTableGo` family with `stitchOn = false`, except that the two
error cases cannot arise and are mapped to "skip the row". -/
def buildRefTable : Table → Nat → List PNode
  | .mk none, _ => []
  | .mk (some rows), rc => (buildRefRows rows rc []).reverse

def buildRefRows : List Row → Nat → List PNode → List PNode
  | [], _, acc => acc
  | row :: rest, rc, acc => buildRefRows rest rc (processRefRow row rc acc)

def processRefRow : Row → Nat → List PNode → List PNode
  | .mk classes style ctext cladeleaf, rc, acc =>
    if "clade-label" ∈ classes then
      match cladeleaf with
      | none => acc
      | some (.table ct) =>
        PNode.mk (pyStrip ctext) (rowSupport style) [] (some rc) none none
          (buildRefTable ct rc) :: acc
      | some (.content ltext anchors imgs) =>
        contentNode (pyStrip ctext) (rowSupport style) rc (pyStrip ltext)
          anchors.head? imgs [] :: acc
    else if "clade-slabel" ∈ classes then
      match acc with
      | [] => acc
      | n :: tl => n.addInfo (pyStrip ctext) :: tl
    else acc
end

/-- `' '.join(strings)` (line 287). -/
def joinSpace : List String → String
  | [] => ""
  | [s] => s
  | s :: rest => s ++ " " ++ joinSpace rest

/-- `'%sx%s' % (width, height)` (line 288). -/
def sizeTok (p : String × String) : String :=
  p.1 ++ "x" ++ p.2

/-- `' '.join` applied to a string iterates its characters (what a second
nhx write does to the already-flattened `imgs` attribute). -/
def spacedChars (s : String) : String :=
  String.mk (s.toList.intersperse ' ')

mutual
/-- The in-place mutation that the nhx output path of `main` performs on
the tree before writing (lines 284-288): for every node with an `imgs`
feature, both image features are overwritten with joined strings.  On a
node whose features are already flattened strings, `' '.join(node.imgs)`
space-separates the characters and `'%sx%s' % size` over the characters
of `imgsizes` raises a TypeError unless the string is empty.  On a
reloaded tree (`parsed` form) the joins succeed again. -/
def nhxFlattenNode : PNode → Except BErr PNode
  | .mk n s i d l m cs =>
    match nhxFlattenList cs with
    | .error e => .error e
    | .ok cs1 =>
      match m with
      | none => .ok (.mk n s i d l none cs1)
      | some (.lists us szs) =>
        .ok (.mk n s i d l
          (some (.flat (joinSpace us) (joinSpace (szs.map sizeTok)))) cs1)
      | some (.flat us szs) =>
        if szs = "" then .ok (.mk n s i d l (some (.flat (spacedChars us) "")) cs1)
        else .error .typeError
      | some (.parsed us szs) =>
        .ok (.mk n s i d l
          (some (.flat (joinSpace us)
            (joinSpace (szs.map fun p => toString p.1 ++ "x" ++ toString p.2)))) cs1)

def nhxFlattenList : List PNode → Except BErr (List PNode)
  | [] => .ok []
  | c :: cs =>
    match nhxFlattenNode c with
    | .error e => .error e
    | .ok c1 =>
      match nhxFlattenList cs with
      | .error e => .error e
      | .ok cs1 => .ok (c1 :: cs1)
end

mutual
/-- The flattening of `nhxFlattenNode`, as a total map (its value on
trees whose image features are in the list form produced by
`build_tree`). -/
def flatSpec : PNode → PNode
  | .mk n s i d l m cs =>
    .mk n s i d l
      (match m with
       | none => none
       | some (.lists us szs) =>
         some (.flat (joinSpace us) (joinSpace (szs.map sizeTok)))
       | some x => some x)
      (flatSpecList cs)

def flatSpecList : List PNode → List PNode
  | [] => []
  | c :: cs => flatSpec c :: flatSpecList cs
end

/-- Is an image feature in the list form produced by `build_tree`? -/
def isListsMedia : Option Media → Bool
  | some (.lists _ _) => true
  | _ => false

/-!
The Tree Serializer.  Modelled from the spec: the source delegates
serialization and parsing to the `ete3` library (`tree.write(...)` with
`format=8, quoted_node_names=True, format_root_node=True` and the feature
list `['support', 'info', 'link', 'imgs', 'imgsizes']`, and
`ete3.Tree(file, format=8, quoted_node_names=True)`), which is not part
of this repository.  Following §6 of the spec: a recursive parenthesized
representation `(child1,child2,...)name`, terminated by `;` at the root,
names quoted whenever they contain structurally significant characters,
and a bracketed per-node annotation comment carrying the `support`,
`info`, `link` and image fields as key/value text, list-valued fields
joined by a fixed separator (`|` for annotations, space for images) and
re-split on read. -/

/-- Characters that are structurally significant in the interchange
format. -/
def structChars : List Char :=
  ['(', ')', ',', ':', ';', '[', ']', '\'', ' ', '\t', '\n']

/-- Modelled from the spec: quoting is applied whenever a name contains
characters that would otherwise be structurally significant. -/
def needsQuote (n : String) : Bool :=
  n.toList.any fun c => structChars.contains c

/-- Modelled from the spec: render a node name, quoted when needed. -/
def serName (n : String) : List Char :=
  if needsQuote n then '\'' :: (n.toList ++ ['\'']) else n.toList

/-- Modelled from the spec: the textual form of the two support values
the Builder produces. -/
def supStr (s : Rat) : List Char :=
  if s = halfRat then ( "0.5").toList else ( "1.0").toList

/-- Join character lists with the fixed annotation separator `|`. -/
def joinBarL : List (List Char) → List Char
  | [] => []
  | [x] => x
  | x :: xs => x ++ '|' :: joinBarL xs

/-- Modelled from the spec: the bracketed key/value annotation comment of
one node.  `support` and the annotation list are always present; `link`
and the image fields only when the node carries them. -/
def serFields (sup : Rat) (info : List String) (link : Option String)
    (media : Option Media) : List Char :=
  ( "[&&NHX:support=").toList ++ supStr sup
  ++ ( ":info=").toList ++ joinBarL (info.map String.toList)
  ++ (match link with
      | none => []
      | some lv => ( ":link=").toList ++ lv.toList)
  ++ (match media with
      | none => []
      | some (.flat us szs) =>
        ( ":imgs=").toList ++ us.toList ++ ( ":imgsizes=").toList ++ szs.toList
      | some (.lists us szs) =>
        ( ":imgs=").toList ++ (joinSpace us).toList
        ++ ( ":imgsizes=").toList ++ (joinSpace (szs.map sizeTok)).toList
      | some (.parsed us szs) =>
        ( ":imgs=").toList ++ (joinSpace us).toList
        ++ ( ":imgsizes=").toList
        ++ (joinSpace (szs.map fun p => toString p.1 ++ "x" ++ toString p.2)).toList)
  ++ ( "]").toList

mutual
/-- Modelled from the spec: serialize one node — children in parentheses
when there are any, then the name, then the annotation comment. -/
def serNode : PNode → List Char
  | .mk n s i _ l m cs =>
    (if cs.isEmpty then [] else '(' :: (serChildren cs ++ [')']))
    ++ serName n ++ serFields s i l m

/-- Serialize a non-empty child list, comma-separated. -/
def serChildren : List PNode → List Char
  | [] => []
  | [c] => serNode c
  | c :: cs => serNode c ++ ',' :: serChildren cs
end

/-- Modelled from the spec: the serialized tree is the root's rendering
terminated by `;`. -/
def serTree (t : PNode) : List Char :=
  serNode t ++ [';']

/-- Strip an expected literal from the head of the input. -/
def stripLit : List Char → List Char → Option (List Char)
  | [], l => some l
  | _ :: _, [] => none
  | c :: cs, d :: ds => if c = d then stripLit cs ds else none

/-- Does a character end a key/value field value? -/
def isValueStop (c : Char) : Bool :=
  c = ':' || c = ']'

/-- Modelled from the spec: read a field value, up to the next field or
the end of the annotation comment. -/
def parseValue (l : List Char) : List Char × List Char :=
  (l.takeWhile (fun c => !isValueStop c), l.dropWhile (fun c => !isValueStop c))

/-- Modelled from the spec: read a node name, quoted or bare. -/
def parseName : List Char → Option (String × List Char)
  | '\'' :: rest =>
    (match rest.dropWhile (fun c => c ≠ '\'') with
     | '\'' :: r => some (String.mk (rest.takeWhile (fun c => c ≠ '\'')), r)
     | _ => none)
  | l =>
    some (String.mk (l.takeWhile (fun c => !structChars.contains c)),
          l.dropWhile (fun c => !structChars.contains c))

/-- Split on the fixed annotation separator, inverting `joinBarL`; an
empty value denotes the empty list. -/
def splitBarAux : List Char → List Char → List (List Char)
  | [], cur => [cur.reverse]
  | c :: rest, cur =>
    if c = '|' then cur.reverse :: splitBarAux rest []
    else splitBarAux rest (c :: cur)

/-- Modelled from the spec: re-split the annotation list on read. -/
def splitBarVal (l : List Char) : List String :=
  if l.isEmpty then [] else (splitBarAux l []).map String.mk

/-- Modelled from the spec: read back a support value. -/
def parseSupportVal (v : List Char) : Option Rat :=
  if v = ( "0.5").toList then some halfRat
  else if v = ( "1.0").toList then some 1
  else none

/-- Modelled from the spec: parse one bracketed annotation comment,
returning support, annotations, optional link, optional image features
(as the flattened strings in which they are stored) and the remaining
input. -/
def parseNHX (l : List Char) :
    Option (Rat × List String × Option String × Option Media × List Char) :=
  match stripLit ( "[&&NHX:support=").toList l with
  | none => none
  | some l1 =>
    match parseSupportVal (parseValue l1).1 with
    | none => none
    | some sup =>
      match stripLit ( ":info=").toList (parseValue l1).2 with
      | none => none
      | some l3 =>
        match (match stripLit ( ":link=").toList (parseValue l3).2 with
               | some l4a => (some (String.mk (parseValue l4a).1), (parseValue l4a).2)
               | none => (none, (parseValue l3).2) :
                 Option String × List Char) with
        | (link, l5) =>
          match stripLit ( ":imgs=").toList l5 with
          | some l5a =>
            (match stripLit ( ":imgsizes=").toList (parseValue l5a).2 with
             | none => none
             | some l5c =>
               match stripLit ( "]").toList (parseValue l5c).2 with
               | none => none
               | some rest =>
                 some (sup, splitBarVal (parseValue l3).1, link,
                   some (.flat (String.mk (parseValue l5a).1)
                     (String.mk (parseValue l5c).1)), rest))
          | none =>
            match stripLit ( "]").toList l5 with
            | none => none
            | some rest => some (sup, splitBarVal (parseValue l3).1, link, none, rest)

mutual
/-- Modelled from the spec: recursive-descent parser for the serialized
node form.  The fuel argument bounds the recursion depth; each recursive
step consumes input, so the input length suffices. -/
def parseNodeF : Nat → List Char → Option (PNode × List Char)
  | 0, _ => none
  | fuel + 1, l =>
    match l with
    | '(' :: rest =>
      (match parseChildrenF fuel rest with
       | none => none
       | some (cs, r1) =>
         match parseName r1 with
         | none => none
         | some (nm, r2) =>
           match parseNHX r2 with
           | none => none
           | some (sup, info, link, media, r3) =>
             some (.mk nm sup info none link media cs, r3))
    | _ =>
      match parseName l with
      | none => none
      | some (nm, r2) =>
        match parseNHX r2 with
        | none => none
        | some (sup, info, link, media, r3) =>
          some (.mk nm sup info none link media [], r3)

/-- Parse a comma-separated child list up to the closing parenthesis. -/
def parseChildrenF : Nat → List Char → Option (List PNode × List Char)
  | 0, _ => none
  | fuel + 1, l =>
    match parseNodeF fuel l with
    | none => none
    | some (c, r) =>
      match r with
      | ',' :: r1 =>
        (match parseChildrenF fuel r1 with
         | none => none
         | some (cs, r2) => some (c :: cs, r2))
      | ')' :: r1 => some ([c], r1)
      | _ => none
end

/-- Modelled from the spec: parse a whole serialized tree. -/
def parseTree (l : List Char) : Option PNode :=
  match parseNodeF l.length l with
  | none => none
  | some (t, rest) => if rest = [';'] then some t else none

/-- Python `str.split()` with no argument (line 308): split on whitespace
runs, discarding empty tokens. -/
def wsSplitAux : List Char → List Char → List (List Char)
  | [], cur => if cur.isEmpty then [] else [cur.reverse]
  | c :: rest, cur =>
    if c.isWhitespace then
      if cur.isEmpty then wsSplitAux rest []
      else cur.reverse :: wsSplitAux rest []
    else wsSplitAux rest (c :: cur)

def pySplitWs (s : String) : List String :=
  (wsSplitAux s.toList []).map String.mk

/-- Lines 311-312: `w, h = size_txt.split('x', 1)` then `int(w), int(h)`.
A token without `'x'` fails the unpacking; a non-numeric part fails
`int` (the model accepts exactly decimal-digit strings). -/
def parseSizeTok (tok : String) : Except BErr (Nat × Nat) :=
  match tok.toList.dropWhile (fun c => c ≠ 'x') with
  | 'x' :: h =>
    if strIsDigitL (tok.toList.takeWhile (fun c => c ≠ 'x')) && strIsDigitL h then
      .ok (digitsToNat (tok.toList.takeWhile (fun c => c ≠ 'x')), digitsToNat h)
    else .error .valueError
  | _ => .error .valueError

/-- The size-token loop of lines 309-312. -/
def parseSizes : List String → Except BErr (List (Nat × Nat))
  | [] => .ok []
  | tok :: rest =>
    match parseSizeTok tok with
    | .error e => .error e
    | .ok p =>
      match parseSizes rest with
      | .error e => .error e
      | .ok ps => .ok (p :: ps)

mutual
/-- The reload loop of `main` (lines 306-313): on a freshly parsed tree,
a node whose `imgs` string is non-empty has `imgs` re-split on
whitespace and `imgsizes` re-split into integer pairs; an empty or
absent `imgs` is left untouched (`getattr(node, 'imgs', None)` is
falsy).  A node whose `imgs` attribute still holds a list (which cannot
arise from parsing) would fail the `.split()` call. -/
def reconstructNode : PNode → Except BErr PNode
  | .mk n s i d l m cs =>
    match reconstructList cs with
    | .error e => .error e
    | .ok cs1 =>
      match m with
      | some (.flat us szs) =>
        if us = "" then .ok (.mk n s i d l (some (.flat us szs)) cs1)
        else
          (match parseSizes (pySplitWs szs) with
           | .error e => .error e
           | .ok zs => .ok (.mk n s i d l (some (.parsed (pySplitWs us) zs)) cs1))
      | some (.lists us szs) =>
        if us.isEmpty then .ok (.mk n s i d l (some (.lists us szs)) cs1)
        else .error .attributeError
      | some (.parsed us szs) =>
        if us.isEmpty then .ok (.mk n s i d l (some (.parsed us szs)) cs1)
        else .error .attributeError
      | none => .ok (.mk n s i d l none cs1)

def reconstructList : List PNode → Except BErr (List PNode)
  | [] => .ok []
  | c :: cs =>
    match reconstructNode c with
    | .error e => .error e
    | .ok c1 =>
      match reconstructList cs with
      | .error e => .error e
      | .ok cs1 => .ok (c1 :: cs1)
end

/-- Numeric value of a decimal-digit string. -/
def natOfDigits (s : String) : Nat :=
  digitsToNat s.toList

/-- Are an original image feature (as built) and a reloaded one
equivalent as sequences of `(url, width, height)` triples?  A reloaded
feature holds the URLs and integer size pairs; a node that had no images
keeps empty flattened strings on reload. -/
def mediaEquiv : Option Media → Option Media → Bool
  | none, none => true
  | some (.lists us szs), some (.parsed us2 zs2) =>
    decide (us = us2) &&
    decide (szs.map (fun p => (natOfDigits p.1, natOfDigits p.2)) = zs2)
  | some (.lists us szs), some (.flat fs zs) =>
    us.isEmpty && szs.isEmpty && decide (fs = "") && decide (zs = "")
  | _, _ => false

mutual
/-- Equivalence of a built tree with its round-tripped form: same names,
support values, annotation lists and link, the image features equivalent
as triples, children pairwise equivalent.  (The `wikipedia_page_depth`
feature is not among the serialized features and is not compared.) -/
def equivNode : PNode → PNode → Bool
  | .mk n s i _ l m cs, .mk n2 s2 i2 _ l2 m2 cs2 =>
    decide (n = n2) && decide (s = s2) && decide (i = i2) && decide (l = l2)
    && mediaEquiv m m2 && equivList cs cs2

def equivList : List PNode → List PNode → Bool
  | [], [] => true
  | c :: cs, c2 :: cs2 => equivNode c c2 && equivList cs cs2
  | _, _ => false
end

/-- May a string appear as a field value? (It must not contain the
characters that end a value.) -/
def valOK (s : String) : Bool :=
  s.toList.all fun c => !isValueStop c

/-- May a string appear as an entry of the annotation list? (Non-empty,
no value-stopping characters, no separator.) -/
def annOK (s : String) : Bool :=
  !s.isEmpty && s.toList.all fun c => !(isValueStop c || c = '|')

/-- May a string appear as an image URL? (Non-empty, no value-stopping
characters, no whitespace — URLs are split on whitespace on reload.) -/
def urlOK (s : String) : Bool :=
  !s.isEmpty && s.toList.all fun c => !(isValueStop c || c.isWhitespace)

/-- May a pair appear as an image size? (Both components non-empty
decimal-digit strings, as `int()` requires on reload.) -/
def szOK (p : String × String) : Bool :=
  strIsDigitL p.1.toList && strIsDigitL p.2.toList

mutual
/-- The conditions under which the annotated serialization of a built
tree round-trips: a shape condition that `build_tree` guarantees (image
features in list form, URL and size lists of one node equally long,
support one of the two produced values) together with the quoting and
escaping constraints of the format on the stored strings. -/
def nhxRoundOK : PNode → Bool
  | .mk n s i _ l m cs =>
    !(n.toList.contains '\'') &&
    (decide (s = 1) || decide (s = halfRat)) &&
    i.all annOK &&
    (match l with
     | none => true
     | some lv => valOK lv) &&
    (match m with
     | none => true
     | some (.lists us szs) =>
       us.all urlOK && szs.all szOK && decide (us.length = szs.length)
     | some _ => false) &&
    nhxRoundOKList cs

def nhxRoundOKList : List PNode → Bool
  | [] => true
  | c :: cs => nhxRoundOK c && nhxRoundOKList cs
end

mutual
/-- The expected result of parsing the serialization of the flattened
form of a built tree: depth feature gone, image features as the joined
strings, all else kept. -/
def pexpNode : PNode → PNode
  | .mk n s i _ l m cs =>
    .mk n s i none l
      (match m with
       | some (.lists us szs) =>
         some (.flat (joinSpace us) (joinSpace (szs.map sizeTok)))
       | _ => none)
      (pexpList cs)

def pexpList : List PNode → List PNode
  | [] => []
  | c :: cs => pexpNode c :: pexpList cs
end

mutual
/-- A fuel bound sufficient for `parseNodeF` on a serialized node. -/
def serFuel : PNode → Nat
  | .mk _ _ _ _ _ _ cs => 1 + serFuelList cs

def serFuelList : List PNode → Nat
  | [] => 0
  | c :: cs => 1 + serFuel c + serFuelList cs
end

/-! Concrete instances used by the witnesses and counterexamples. -/

/-- A Document Source that finds no clade tables on any page. -/
def exFetch0 : String → List Table := fun _ => []

/-- A label row with non-empty label text `Y` whose leaf cell holds leaf
text `X`, a link and one image. -/
def exRowYX : Row :=
  Row.mk [ "clade-label"] none " Y "
    (some (.content " X " [Anchor.mk "X" (some "/wiki/X") []]
      [Img.mk "img1.png" "50" "40"]))

def exTableYX : Table := Table.mk (some [exRowYX])

/-- The node `build_tree` produces for `exTableYX` without stitching. -/
def exNodeYX : PNode :=
  PNode.mk "Y" 1 [] (some 0) (some "/wiki/X")
    (some (.lists [ "img1.png"] [( "50", "40")]))
    [leafChildNode "X"]

/-- A page whose single clade table builds to a root named `X` having
one child also named `X`. -/
def exPageXX : Table :=
  Table.mk (some [Row.mk [ "clade-label"] none "X"
    (some (.table (Table.mk (some [Row.mk [ "clade-label"] none ""
      (some (.content "X" [] []))]))))])

/-- A Document Source serving `exPageXX` for the page linked from
`exRowYX`. -/
def exFetchXX : String → List Table := fun u =>
  if u = "https://en.wikipedia.org/wiki/X" then [exPageXX] else []

/-- A sister/annotation row. -/
def exSlabelRow : Row := Row.mk [ "clade-slabel"] none " 690 Mya " none

/-- A table whose first row is a sister/annotation row (no preceding
node). -/
def exTableSlabelFirst : Table := Table.mk (some [exSlabelRow])

/-- A table whose label row has no adjacent `clade-leaf` cell. -/
def exTableNoLeaf : Table :=
  Table.mk (some [Row.mk [ "clade-label"] none "Y" none])

/-- The stitching-success example of the spec: a leading-branch leaf row
named `Felidae` carrying a link and an image. -/
def exRowFelidae : Row :=
  Row.mk [ "clade-label"] none ""
    (some (.content "Felidae" [Anchor.mk "Felidae" (some "/wiki/Felidae") []]
      [Img.mk "cat.png" "60" "30"]))

def exTableFelidae : Table := Table.mk (some [exRowFelidae])

/-- The linked page: one clade table building to a root named `Felidae`
with children `Pantherinae` and `Felinae`. -/
def exPageFelidae : Table :=
  Table.mk (some [Row.mk [ "clade-label"] none "Felidae"
    (some (.table (Table.mk (some [
      Row.mk [ "clade-label"] none "" (some (.content "Pantherinae" [] [])),
      Row.mk [ "clade-label"] none "" (some (.content "Felinae" [] []))]))))])

def exFetchFelidae : String → List Table := fun u =>
  if u = "https://en.wikipedia.org/wiki/Felidae" then [exPageFelidae] else []

/-- A two-row table whose first label row carries the dashed style
indicator and whose second does not. -/
def exTableDashed : Table :=
  Table.mk (some [
    Row.mk [ "clade-label"] (some "border-left: 1px dashed black;") "A"
      (some (.content "B" [] [])),
    Row.mk [ "clade-label"] (some "border-left: 1px solid black;") ""
      (some (.content "C" [] []))])

/-- Three distinguishable top-level tables for the locator examples. -/
def exDocTables : List Table :=
  [Table.mk none, exTableYX, Table.mk (some [])]

/-- The builder used for pages linked from depth 0 when one stitching
level remains (`build_tree(..., recurs, 1)`, i.e. budget 0). -/
def exDeeperFelidae : Table → Nat → Except BErr (List PNode) :=
  buildDepth exFetchFelidae 0

def exNodePantherinae : PNode :=
  PNode.mk "Pantherinae" 1 [] (some 1) none (some (.lists [] [])) []

def exNodeFelinae : PNode :=
  PNode.mk "Felinae" 1 [] (some 1) none (some (.lists [] [])) []

def exNodeFelidaeRoot : PNode :=
  PNode.mk "Felidae" 1 [] (some 1) none none [exNodePantherinae, exNodeFelinae]

/-- The invariant `build_tree` maintains on every node it ever creates:
support is one of the two produced values, and the image features are
either absent or in list form with as many sizes as URLs. -/
def builtOK (n : PNode) : Prop :=
  ∀ m ∈ n.allNodes, (m.support = 1 ∨ m.support = halfRat) ∧
    (m.media = none ∨ ∃ us szs, m.media = some (.lists us szs) ∧
      us.length = szs.length)

/-- `builtOK` holds of every root a `buildTableGo` run returns. -/
def BOKtable (fetch : String → List Table)
    (deeper : Table → Nat → Except BErr (List PNode)) (stitchOn : Bool)
    (t : Table) (rc : Nat) : Prop :=
  ∀ nodes, buildTableGo fetch deeper stitchOn t rc = .ok nodes →
    ∀ r ∈ nodes, builtOK r

/-- `builtOK` is preserved by the row loop. -/
def BOKrows (fetch : String → List Table)
    (deeper : Table → Nat → Except BErr (List PNode)) (stitchOn : Bool)
    (rows : List Row) (rc : Nat) (acc : List PNode) : Prop :=
  (∀ r ∈ acc, builtOK r) →
  ∀ out, buildRowsGo fetch deeper stitchOn rows rc acc = .ok out →
    ∀ r ∈ out, builtOK r

/-- `builtOK` is preserved by one row step. -/
def BOKrow (fetch : String → List Table)
    (deeper : Table → Nat → Except BErr (List PNode)) (stitchOn : Bool)
    (row : Row) (rc : Nat) (acc : List PNode) : Prop :=
  (∀ r ∈ acc, builtOK r) →
  ∀ out, processRowGo fetch deeper stitchOn row rc acc = .ok out →
    ∀ r ∈ out, builtOK r

/-- `builtOK` holds of the node a label row creates. -/
def BOKlabel (fetch : String → List Table)
    (deeper : Table → Nat → Except BErr (List PNode)) (stitchOn : Bool)
    (style : Option String) (ctext : String) (cladeleaf : Option LeafCell)
    (rc : Nat) : Prop :=
  ∀ node, processLabelRow fetch deeper stitchOn style ctext cladeleaf rc
    = .ok node → builtOK node

/-- The shape of every node with an image feature when stitching is
disabled: an unresolved leaf (no children) or a node whose sole child is
the implicitly created leaf child. -/
def leafShapeOK (n : PNode) : Prop :=
  ∀ m ∈ n.allNodes, m.media.isSome = true →
    m.children = [] ∨ ∃ nm, m.children = [leafChildNode nm]

/-- With stitching off, `buildTableGo` does not depend on the Document
Source (nor on the deeper builder). -/
def FItable (fetch : String → List Table)
    (deeper : Table → Nat → Except BErr (List PNode))
    (t : Table) (rc : Nat) : Prop :=
  ∀ (g : String → List Table) (d' : Table → Nat → Except BErr (List PNode)),
    buildTableGo fetch deeper false t rc = buildTableGo g d' false t rc

def FIrows (fetch : String → List Table)
    (deeper : Table → Nat → Except BErr (List PNode))
    (rows : List Row) (rc : Nat) (acc : List PNode) : Prop :=
  ∀ (g : String → List Table) (d' : Table → Nat → Except BErr (List PNode)),
    buildRowsGo fetch deeper false rows rc acc = buildRowsGo g d' false rows rc acc

def FIrow (fetch : String → List Table)
    (deeper : Table → Nat → Except BErr (List PNode))
    (row : Row) (rc : Nat) (acc : List PNode) : Prop :=
  ∀ (g : String → List Table) (d' : Table → Nat → Except BErr (List PNode)),
    processRowGo fetch deeper false row rc acc = processRowGo g d' false row rc acc

def FIlabel (fetch : String → List Table)
    (deeper : Table → Nat → Except BErr (List PNode))
    (style : Option String) (ctext : String) (cladeleaf : Option LeafCell)
    (rc : Nat) : Prop :=
  ∀ (g : String → List Table) (d' : Table → Nat → Except BErr (List PNode)),
    processLabelRow fetch deeper false style ctext cladeleaf rc
      = processLabelRow g d' false style ctext cladeleaf rc

def LStable (fetch : String → List Table)
    (deeper : Table → Nat → Except BErr (List PNode))
    (t : Table) (rc : Nat) : Prop :=
  ∀ nodes, buildTableGo fetch deeper false t rc = .ok nodes →
    ∀ r ∈ nodes, leafShapeOK r

def LSrows (fetch : String → List Table)
    (deeper : Table → Nat → Except BErr (List PNode))
    (rows : List Row) (rc : Nat) (acc : List PNode) : Prop :=
  (∀ r ∈ acc, leafShapeOK r) →
  ∀ out, buildRowsGo fetch deeper false rows rc acc = .ok out →
    ∀ r ∈ out, leafShapeOK r

def LSrow (fetch : String → List Table)
    (deeper : Table → Nat → Except BErr (List PNode))
    (row : Row) (rc : Nat) (acc : List PNode) : Prop :=
  (∀ r ∈ acc, leafShapeOK r) →
  ∀ out, processRowGo fetch deeper false row rc acc = .ok out →
    ∀ r ∈ out, leafShapeOK r

def LSlabel (fetch : String → List Table)
    (deeper : Table → Nat → Except BErr (List PNode))
    (style : Option String) (ctext : String) (cladeleaf : Option LeafCell)
    (rc : Nat) : Prop :=
  ∀ node, processLabelRow fetch deeper false style ctext cladeleaf rc
    = .ok node → leafShapeOK node

/-- Well-formedness of a label row's adjacent leaf cell: it exists, and a
nested clade table is well-formed in turn. -/
def wfCellB : Option LeafCell → Bool
  | none => false
  | some (.table ct) => wfTableB ct
  | some (.content _ _ _) => true

/-- The head clause of `wfRowsB` for a single row. -/
def wfRowB (seen : Bool) : Row → Bool
  | .mk classes _ _ cl =>
    if "clade-label" ∈ classes then wfCellB cl
    else if "clade-slabel" ∈ classes then seen
    else true

/-- Whether a node exists after this row has been processed, given
whether one existed before (a label row always creates one). -/
def seenAfter (seen : Bool) : Row → Bool
  | .mk classes _ _ _ => if "clade-label" ∈ classes then true else seen

/-- Number of top-level label rows of a table (one root node each). -/
def labelCountTable : Table → Nat
  | .mk none => 0
  | .mk (some rows) => labelCountRows rows

/-- The node the reference builder creates for a label row (the `none`
cell case is unreachable on well-formed input). -/
def refLabelNode (style : Option String) (ctext : String) :
    Option LeafCell → Nat → PNode
  | none, rc => PNode.mk "" 1 [] (some rc) none none []
  | some (.table ct), rc =>
    PNode.mk (pyStrip ctext) (rowSupport style) [] (some rc) none none
      (buildRefTable ct rc)
  | some (.content ltext anchors imgs), rc =>
    contentNode (pyStrip ctext) (rowSupport style) rc (pyStrip ltext)
      anchors.head? imgs []

/-- With stitching off, `buildTableGo` computes the reference builder on
well-formed tables. -/
def SIMtable (fetch : String → List Table)
    (deeper : Table → Nat → Except BErr (List PNode))
    (t : Table) (rc : Nat) : Prop :=
  wfTableB t = true →
    buildTableGo fetch deeper false t rc = .ok (buildRefTable t rc)

def SIMrows (fetch : String → List Table)
    (deeper : Table → Nat → Except BErr (List PNode))
    (rows : List Row) (rc : Nat) (acc : List PNode) : Prop :=
  wfRowsB (!acc.isEmpty) rows = true →
    buildRowsGo fetch deeper false rows rc acc = .ok (buildRefRows rows rc acc)

def SIMrow (fetch : String → List Table)
    (deeper : Table → Nat → Except BErr (List PNode))
    (row : Row) (rc : Nat) (acc : List PNode) : Prop :=
  wfRowB (!acc.isEmpty) row = true →
    processRowGo fetch deeper false row rc acc = .ok (processRefRow row rc acc)

def SIMlabel (fetch : String → List Table)
    (deeper : Table → Nat → Except BErr (List PNode))
    (style : Option String) (ctext : String) (cladeleaf : Option LeafCell)
    (rc : Nat) : Prop :=
  wfCellB cladeleaf = true →
    processLabelRow fetch deeper false style ctext cladeleaf rc
      = .ok (refLabelNode style ctext cladeleaf rc)

/-- Counting and naming facts about the reference builder, table level:
node count = label rows (nested included) + implicitly created leaf
children, root count = top-level label rows, preorder names = document
order. -/
def REFtable (t : Table) (rc : Nat) : Prop :=
  wfTableB t = true →
    psize.psizeList (buildRefTable t rc)
      = labelRowsTable t + namedLeafTable t ∧
    (buildRefTable t rc).length = labelCountTable t ∧
    preNames.preNamesList (buildRefTable t rc) = docNamesTable t

def REFrows (rows : List Row) (rc : Nat) (acc : List PNode) : Prop :=
  wfRowsB true rows = true →
    psize.psizeList (buildRefRows rows rc acc)
      = labelRowsRows rows + namedLeafRows rows + psize.psizeList acc ∧
    (buildRefRows rows rc acc).length = labelCountRows rows + acc.length ∧
    preNames.preNamesList (buildRefRows rows rc acc).reverse
      = preNames.preNamesList acc.reverse ++ docNamesRows rows

def REFrow (row : Row) (rc : Nat) (acc : List PNode) : Prop :=
  wfRowB true row = true →
    psize.psizeList (processRefRow row rc acc)
      = labelRowsRows [row] + namedLeafRows [row] + psize.psizeList acc ∧
    (processRefRow row rc acc).length = labelCountRows [row] + acc.length ∧
    preNames.preNamesList (processRefRow row rc acc).reverse
      = preNames.preNamesList acc.reverse ++ docNamesRows [row]

/-- A well-formed table with nesting and a sister-annotation row, used to
witness C9: Root > (A > B, annotated "12 My"; C as unlabeled leaf row). -/
def exTableWFInner : Table :=
  Table.mk (some
    [Row.mk [ "clade-label"] none " A " (some (.content " B " [] [])),
     Row.mk [ "clade-slabel"] none " 12 My " none,
     Row.mk [ "clade-label"] none "  " (some (.content " C " [] []))])

def exRowWFRoot : Row :=
  Row.mk [ "clade-label"] none " Root " (some (.table exTableWFInner))

def exTableWF : Table := Table.mk (some [exRowWFRoot])

/-- Every node of the tree carries its image feature in the list form
produced by `build_tree` (or none): the shape on which a first nhx write
operates. -/
def listsShape (n : PNode) : Prop :=
  ∀ m ∈ n.allNodes, m.media = none ∨ ∃ us szs, m.media = some (.lists us szs)

/-- A first nhx write on a list-shaped tree succeeds and performs exactly
the `flatSpec` mutation. -/
def FLnode (n : PNode) : Prop :=
  listsShape n → nhxFlattenNode n = .ok (flatSpec n)

def FLlist (cs : List PNode) : Prop :=
  (∀ m ∈ PNode.allNodes.allNodesList cs,
    m.media = none ∨ ∃ us szs, m.media = some (.lists us szs)) →
  nhxFlattenList cs = .ok (flatSpecList cs)

/-- After the flatten, every image feature is a pair of flattened
strings. -/
def FFnode (n : PNode) : Prop :=
  listsShape n → ∀ m ∈ (flatSpec n).allNodes,
    m.media = none ∨ ∃ us szs, m.media = some (.flat us szs)

def FFlist (cs : List PNode) : Prop :=
  (∀ m ∈ PNode.allNodes.allNodesList cs,
    m.media = none ∨ ∃ us szs, m.media = some (.lists us szs)) →
  ∀ m ∈ PNode.allNodes.allNodesList (flatSpecList cs),
    m.media = none ∨ ∃ us szs, m.media = some (.flat us szs)

/-- On an already-flattened tree a second nhx write either raises
TypeError or succeeds (no other exception can arise). -/
def T2node (n : PNode) : Prop :=
  (∀ m ∈ n.allNodes, m.media = none ∨ ∃ us szs, m.media = some (.flat us szs)) →
  nhxFlattenNode n = .error .typeError ∨ ∃ n1, nhxFlattenNode n = .ok n1

def T2list (cs : List PNode) : Prop :=
  (∀ m ∈ PNode.allNodes.allNodesList cs,
    m.media = none ∨ ∃ us szs, m.media = some (.flat us szs)) →
  nhxFlattenList cs = .error .typeError ∨ ∃ cs1, nhxFlattenList cs = .ok cs1

def PARnode (t : PNode) : Prop :=
  nhxRoundOK t = true → ∀ (fuel : Nat) (rest : List Char), serFuel t ≤ fuel →
    parseNodeF fuel (serNode (flatSpec t) ++ rest) = some (pexpNode t, rest)

def PARlist (cs : List PNode) : Prop :=
  nhxRoundOKList cs = true → cs ≠ [] → ∀ (fuel : Nat) (rest : List Char),
    serFuelList cs ≤ fuel →
    parseChildrenF fuel (serChildren (flatSpecList cs) ++ ')' :: rest)
      = some (pexpList cs, rest)

def FBnode (t : PNode) : Prop :=
  serFuel t ≤ (serNode (flatSpec t)).length

def FBlist (cs : List PNode) : Prop :=
  cs ≠ [] → serFuelList cs ≤ (serChildren (flatSpecList cs)).length + 1

def RECnode (t : PNode) : Prop :=
  nhxRoundOK t = true →
    ∃ t3, reconstructNode (pexpNode t) = .ok t3 ∧ equivNode t t3 = true

def REClist (cs : List PNode) : Prop :=
  nhxRoundOKList cs = true →
    ∃ cs3, reconstructList (pexpList cs) = .ok cs3 ∧ equivList cs cs3 = true

def LSHnode (t : PNode) : Prop :=
  nhxRoundOK t = true → listsShape t

def LSHlist (cs : List PNode) : Prop :=
  nhxRoundOKList cs = true →
    ∀ x ∈ PNode.allNodes.allNodesList cs,
      x.media = none ∨ ∃ us szs, x.media = some (.lists us szs)


/-! ## Theorems -/

theorem allNodes_shape (n : PNode) :
    n.allNodes = n :: PNode.allNodes.allNodesList n.children := by
  cases n with
  | mk nm s i d l m cs => rfl

theorem self_mem_allNodes (n : PNode) : n ∈ n.allNodes := by
  rw [allNodes_shape]; exact List.mem_cons_self _ _

theorem mem_allNodesList (m : PNode) (cs : List PNode) :
    m ∈ PNode.allNodes.allNodesList cs ↔ ∃ c ∈ cs, m ∈ c.allNodes := by
  induction cs with
  | nil => simp [PNode.allNodes.allNodesList]
  | cons c rest ih =>
    simp [PNode.allNodes.allNodesList, ih]

theorem psize_le_of_mem (c : PNode) (cs : List PNode) (hc : c ∈ cs) :
    psize c ≤ psize.psizeList cs := by
  induction cs with
  | nil => cases hc
  | cons y ys ih =>
    rcases List.mem_cons.mp hc with he | hms
    · subst he; simp [psize.psizeList]
    · have := ih hms
      simp [psize.psizeList]
      omega

theorem allNodes_trans :
    ∀ (k : Nat) (n : PNode), psize n ≤ k →
    ∀ m ∈ n.allNodes, ∀ x ∈ m.allNodes, x ∈ n.allNodes := by
  intro k
  induction k with
  | zero =>
    intro n hn
    cases n with
    | mk nm s i d l mm cs => simp [psize] at hn
  | succ k ih =>
    intro n hn m hm x hx
    rw [allNodes_shape] at hm
    rcases List.mem_cons.mp hm with he | hm2
    · exact he ▸ hx
    · obtain ⟨c, hc, hmc⟩ := (mem_allNodesList m n.children).mp hm2
      rw [allNodes_shape]
      refine List.mem_cons_of_mem _ ?_
      rw [mem_allNodesList]
      refine ⟨c, hc, ?_⟩
      refine ih c ?_ m hmc x hx
      have h1 : psize.psizeList n.children < psize n := psizeList_children_lt n
      have h2 : psize c ≤ psize.psizeList n.children := psize_le_of_mem c _ hc
      omega

theorem children_sub_allNodes (n : PNode) (c : PNode) (hc : c ∈ n.children) :
    ∀ x ∈ c.allNodes, x ∈ n.allNodes := by
  intro x hx
  rw [allNodes_shape]
  refine List.mem_cons_of_mem _ ?_
  rw [mem_allNodesList]
  exact ⟨c, hc, hx⟩

theorem bfsAux_mem (pats : List String) :
    ∀ (fuel : Nat) (q : List PNode) (m : PNode),
    bfsAux pats fuel q = some m → ∃ r ∈ q, m ∈ r.allNodes := by
  intro fuel
  induction fuel with
  | zero =>
    intro q m h
    cases q with
    | nil => simp [bfsAux] at h
    | cons n rest => simp [bfsAux] at h
  | succ fuel ih =>
    intro q m h
    cases q with
    | nil => simp [bfsAux] at h
    | cons n rest =>
      rw [bfsAux.eq_def] at h
      simp only [] at h
      by_cases hm : nodeMatches pats n = true
      · rw [if_pos hm] at h
        injection h with he
        exact ⟨n, List.mem_cons_self _ _, he ▸ self_mem_allNodes n⟩
      · rw [if_neg hm] at h
        obtain ⟨r, hr, hmr⟩ := ih (rest ++ n.children) m h
        rcases List.mem_append.mp hr with h1 | h1
        · exact ⟨r, List.mem_cons_of_mem _ h1, hmr⟩
        · exact ⟨n, List.mem_cons_self _ _,
            children_sub_allNodes n r h1 m hmr⟩

theorem findMatchingNode_mem (tree : PNode) (pats : List String) (m : PNode)
    (h : findMatchingNode tree pats = some m) : m ∈ tree.allNodes := by
  obtain ⟨r, hr, hmr⟩ := bfsAux_mem pats (psize tree) [tree] m h
  rcases List.mem_singleton.mp hr with rfl
  exact hmr

theorem stitchRoots_sub (pats : List String) :
    ∀ (roots : List PNode) (cs : List PNode),
    stitchRoots pats roots = some cs →
    ∃ r ∈ roots, ∃ m ∈ r.allNodes, cs = m.children := by
  intro roots
  induction roots with
  | nil => intro cs h; simp [stitchRoots] at h
  | cons r rest ih =>
    intro cs h
    rw [stitchRoots.eq_def] at h
    simp only [] at h
    cases hf : findMatchingNode r pats with
    | none =>
      rw [hf] at h
      obtain ⟨r2, hr2, hm⟩ := ih cs h
      exact ⟨r2, List.mem_cons_of_mem _ hr2, hm⟩
    | some m =>
      rw [hf] at h
      simp only [] at h
      by_cases he : m.children.isEmpty
      · rw [if_pos he] at h
        obtain ⟨r2, hr2, hm⟩ := ih cs h
        exact ⟨r2, List.mem_cons_of_mem _ hr2, hm⟩
      · rw [if_neg he] at h
        injection h with hcs
        exact ⟨r, List.mem_cons_self _ _,
          m, findMatchingNode_mem r pats m hf, hcs.symm⟩

theorem builtOK_mk (nm : String) (sp : Rat) (i : List String) (d : Option Nat)
    (l : Option String) (m : Option Media) (cs : List PNode)
    (hsup : sp = 1 ∨ sp = halfRat)
    (hmed : m = none ∨ ∃ us szs, m = some (.lists us szs) ∧ us.length = szs.length)
    (hcs : ∀ c ∈ cs, builtOK c) :
    builtOK (PNode.mk nm sp i d l m cs) := by
  intro x hx
  rw [allNodes_shape] at hx
  rcases List.mem_cons.mp hx with he | hx2
  · subst he
    exact ⟨hsup, hmed⟩
  · obtain ⟨c, hc, hxc⟩ := (mem_allNodesList x _).mp hx2
    exact hcs c hc x hxc

theorem builtOK_addInfo (n : PNode) (s : String) (h : builtOK n) :
    builtOK (n.addInfo s) := by
  cases n with
  | mk nm sp i d l m cs =>
    have hroot := h _ (self_mem_allNodes _)
    refine builtOK_mk nm sp (i ++ [s]) d l m cs hroot.1 hroot.2 ?_
    intro c hc x hx
    exact h x (children_sub_allNodes (PNode.mk nm sp i d l m cs) c hc x hx)

theorem builtOK_leafChild (nm : String) : builtOK (leafChildNode nm) := by
  refine builtOK_mk nm 1 [] none none none [] (Or.inl rfl) (Or.inl rfl) ?_
  intro c hc
  cases hc

theorem builtOK_contentNode (c : String) (sup : Rat) (rc : Nat) (l : String)
    (la : Option Anchor) (imgs : List Img) (spliced : List PNode)
    (hsup : sup = 1 ∨ sup = halfRat)
    (hs : ∀ x ∈ spliced, builtOK x) :
    builtOK (contentNode c sup rc l la imgs spliced) := by
  refine builtOK_mk _ _ _ _ _ _ _ hsup ?_ ?_
  · refine Or.inr ⟨imgs.map Img.src, imgs.map fun i => (i.width, i.height), rfl, ?_⟩
    simp
  · intro x hx
    rcases List.mem_append.mp hx with h1 | h1
    · rcases em (c = "") with he | he
      · rw [if_pos he] at h1; cases h1
      · rw [if_neg he] at h1
        rcases List.mem_singleton.mp h1 with rfl
        exact builtOK_leafChild _
    · exact hs x h1

theorem rowSupport_two (style : Option String) :
    rowSupport style = 1 ∨ rowSupport style = halfRat := by
  unfold rowSupport
  by_cases h : styleDashed style
  · rw [if_pos h]; exact Or.inr rfl
  · rw [if_neg h]; exact Or.inl rfl

theorem stitch_builtOK (deeper : Table → Nat → Except BErr (List PNode))
    (hdeeper : ∀ t rc nodes, deeper t rc = .ok nodes → ∀ r ∈ nodes, builtOK r) :
    ∀ (tables : List Table) (rc1 : Nat) (pats : List String) (cs : List PNode),
    stitchTablesGo deeper tables rc1 pats = .ok (some cs) →
    ∀ x ∈ cs, builtOK x := by
  intro tables
  induction tables with
  | nil => intro rc1 pats cs h; simp [stitchTablesGo] at h
  | cons t rest ih =>
    intro rc1 pats cs h
    rw [stitchTablesGo.eq_def] at h
    simp only [] at h
    cases hd : deeper t rc1 with
    | error e => rw [hd] at h; simp at h
    | ok roots =>
      rw [hd] at h
      simp only [] at h
      cases hsr : stitchRoots pats roots with
      | none => rw [hsr] at h; simp only [] at h; exact ih rc1 pats cs h
      | some cs2 =>
        rw [hsr] at h
        simp only [] at h
        injection h with h2
        injection h2 with h3
        subst h3
        obtain ⟨r, hr, m, hm, hcs⟩ := stitchRoots_sub pats roots cs2 hsr
        subst hcs
        intro x hx
        intro y hy
        have hroot := hdeeper t rc1 roots hd r hr
        exact hroot y (allNodes_trans (psize r) r le_rfl m hm y
          (children_sub_allNodes m x hx y hy))

theorem processLeafGo_builtOK (fetch : String → List Table)
    (deeper : Table → Nat → Except BErr (List PNode))
    (hdeeper : ∀ t rc nodes, deeper t rc = .ok nodes → ∀ r ∈ nodes, builtOK r)
    (stitchOn : Bool) (c : String) (sup : Rat) (rc : Nat) (l : String)
    (la : Option Anchor) (imgs : List Img) (node : PNode)
    (hsup : sup = 1 ∨ sup = halfRat)
    (h : processLeafGo fetch deeper stitchOn c sup rc l la imgs = .ok node) :
    builtOK node := by
  rw [processLeafGo.eq_def] at h
  by_cases hso : stitchOn
  · rw [if_pos hso] at h
    cases la with
    | none =>
      simp only [] at h
      injection h with he
      exact he ▸ builtOK_contentNode _ _ _ _ _ _ _ hsup (by intro x hx; cases hx)
    | some a =>
      simp only [] at h
      cases ha : a.href with
      | none => rw [ha] at h; cases h
      | some href0 =>
        rw [ha] at h
        simp only [] at h
        by_cases hred : strContains href0 "redlink=1"
        · rw [if_pos hred] at h
          injection h with he
          exact he ▸ builtOK_contentNode _ _ _ _ _ _ _ hsup (by intro x hx; cases hx)
        · rw [if_neg hred] at h
          by_cases hemp : (fetch (resolveHref href0)).isEmpty
          · rw [if_pos hemp] at h
            injection h with he
            exact he ▸ builtOK_contentNode _ _ _ _ _ _ _ hsup (by intro x hx; cases hx)
          · rw [if_neg hemp] at h
            cases hst : stitchTablesGo deeper (fetch (resolveHref href0)) (rc + 1)
                (pyStrip a.atext :: pySplitSlash l) with
            | error e => rw [hst] at h; cases h
            | ok o =>
              rw [hst] at h
              cases o with
              | none =>
                simp only [] at h
                injection h with he
                exact he ▸ builtOK_contentNode _ _ _ _ _ _ _ hsup
                  (by intro x hx; cases hx)
              | some cs =>
                simp only [] at h
                injection h with he
                exact he ▸ builtOK_contentNode _ _ _ _ _ _ _ hsup
                  (stitch_builtOK deeper hdeeper _ _ _ _ hst)
  · rw [if_neg hso] at h
    injection h with he
    exact he ▸ builtOK_contentNode _ _ _ _ _ _ _ hsup (by intro x hx; cases hx)

theorem go_builtOK (fetch : String → List Table)
    (deeper : Table → Nat → Except BErr (List PNode)) (stitchOn : Bool)
    (hdeeper : ∀ t rc nodes, deeper t rc = .ok nodes → ∀ r ∈ nodes, builtOK r) :
    ∀ (t : Table) (rc : Nat), BOKtable fetch deeper stitchOn t rc := by
  intro t0 rc0
  induction t0, rc0 using buildTableGo.induct fetch deeper stitchOn
    (motive_2 := BOKrows fetch deeper stitchOn)
    (motive_3 := BOKrow fetch deeper stitchOn)
    (motive_4 := BOKlabel fetch deeper stitchOn) with
  | case1 rc =>
    unfold BOKtable
    intro nodes h r hr
    rw [buildTableGo.eq_def] at h
    injection h with he
    subst he
    cases hr
  | case2 rc rows e herr ih =>
    unfold BOKtable
    intro nodes h
    rw [buildTableGo.eq_def] at h
    simp only [herr] at h
    injection h
  | case3 rc rows roots hok ih =>
    unfold BOKtable
    unfold BOKrows at ih
    intro nodes h
    rw [buildTableGo.eq_def] at h
    simp only [hok] at h
    injection h with he
    subst he
    intro r hr
    exact ih (by intro x hx; cases hx) roots hok r (List.mem_reverse.mp hr)
  | case4 rc acc classes style ctext cladeleaf hmem ih =>
    unfold BOKrow
    unfold BOKlabel at ih
    intro hacc out h
    rw [processRowGo.eq_def] at h
    simp only [if_pos hmem] at h
    cases hp : processLabelRow fetch deeper stitchOn style ctext cladeleaf rc with
    | error e => rw [hp] at h; simp [Except.map] at h
    | ok node =>
      rw [hp] at h
      simp only [Except.map] at h
      injection h with he
      subst he
      intro r hr
      rcases List.mem_cons.mp hr with he | hr2
      · exact he ▸ ih node hp
      · exact hacc r hr2
  | case5 rc classes style ctext cladeleaf hn hmem =>
    unfold BOKrow
    intro hacc out h
    rw [processRowGo.eq_def] at h
    simp only [if_neg hn, if_pos hmem] at h
    cases h
  | case6 rc classes style ctext cladeleaf hn hmem c cs =>
    unfold BOKrow
    intro hacc out h
    rw [processRowGo.eq_def] at h
    simp only [if_neg hn, if_pos hmem] at h
    injection h with he
    subst he
    intro r hr
    rcases List.mem_cons.mp hr with he | hr2
    · exact he ▸ builtOK_addInfo c _ (hacc c (List.mem_cons_self _ _))
    · exact hacc r (List.mem_cons_of_mem _ hr2)
  | case7 rc acc classes style ctext cladeleaf hn1 hn2 =>
    unfold BOKrow
    intro hacc out h
    rw [processRowGo.eq_def] at h
    simp only [if_neg hn1, if_neg hn2] at h
    injection h with he
    subst he
    exact hacc
  | case8 style ctext rc =>
    unfold BOKlabel
    intro node h
    rw [processLabelRow.eq_def] at h
    cases h
  | case9 style ctext rc ct e herr ih =>
    unfold BOKlabel
    intro node h
    rw [processLabelRow.eq_def] at h
    simp only [herr] at h
    injection h
  | case10 style ctext rc ct roots hok ih =>
    unfold BOKlabel
    unfold BOKtable at ih
    intro node h
    rw [processLabelRow.eq_def] at h
    simp only [hok] at h
    injection h with he
    subst he
    exact builtOK_mk _ _ _ _ _ _ _ (rowSupport_two style) (Or.inl rfl)
      (fun c hc => ih roots hok c hc)
  | case11 style ctext rc ltext anchors imgs =>
    unfold BOKlabel
    intro node h
    rw [processLabelRow.eq_def] at h
    exact processLeafGo_builtOK fetch deeper hdeeper stitchOn _ _ rc _ _ _ node
      (rowSupport_two style) h
  | case12 rc acc =>
    unfold BOKrows
    intro hacc out h
    rw [buildRowsGo.eq_def] at h
    injection h with he
    subst he
    exact hacc
  | case13 rc acc row rest e herr ih =>
    unfold BOKrows
    intro hacc out h
    rw [buildRowsGo.eq_def] at h
    simp only [herr] at h
    injection h
  | case14 rc acc row rest roots hok ih1 ih2 =>
    unfold BOKrows
    unfold BOKrow at ih1
    unfold BOKrows at ih2
    intro hacc out h
    rw [buildRowsGo.eq_def] at h
    simp only [hok] at h
    exact ih2 (ih1 hacc roots hok) out h

theorem buildDepth_builtOK (fetch : String → List Table) :
    ∀ (b : Nat) (t : Table) (rc : Nat) (nodes : List PNode),
    buildDepth fetch b t rc = .ok nodes → ∀ r ∈ nodes, builtOK r := by
  intro b
  induction b with
  | zero =>
    exact go_builtOK fetch _ false
      (by intro t rc nodes h r hr; injection h with he; subst he; cases hr)
  | succ b ih =>
    exact go_builtOK fetch _ true ih

theorem build_tree_builtOK (fetch : String → List Table) (recurs : Nat)
    (t : Table) (rc : Nat) (nodes : List PNode)
    (h : build_tree fetch recurs t rc = .ok nodes) :
    ∀ r ∈ nodes, builtOK r :=
  buildDepth_builtOK fetch (recurs - rc) t rc nodes h

/-- Claim C1 (leading-branch rule), as amended: a label row whose
adjacent leaf cell is a true leaf contributes one node built by
`contentNode`; when the trimmed label text is empty the node takes the
leaf text as its own name and no child is created for it; when it is a
non-empty `Y` the node is named `Y` and carries one implicitly created
child named by the leaf text — the only child in the absence of
cross-page stitching (`stitchOn = false`, the `maxDepth = 0` regime);
a successful stitch appends further children after it. -/
theorem claim_C1_amended (fetch : String → List Table)
    (deeper : Table → Nat → Except BErr (List PNode))
    (style : Option String) (ctext ltext : String)
    (anchors : List Anchor) (imgs : List Img) (rc : Nat) :
    processLabelRow fetch deeper false style ctext
        (some (.content ltext anchors imgs)) rc
      = .ok (contentNode (pyStrip ctext) (rowSupport style) rc (pyStrip ltext)
          anchors.head? imgs []) ∧
    (pyStrip ctext = "" →
      (contentNode (pyStrip ctext) (rowSupport style) rc (pyStrip ltext)
          anchors.head? imgs []).name = pyStrip ltext ∧
      (contentNode (pyStrip ctext) (rowSupport style) rc (pyStrip ltext)
          anchors.head? imgs []).children = []) ∧
    (pyStrip ctext ≠ "" →
      (contentNode (pyStrip ctext) (rowSupport style) rc (pyStrip ltext)
          anchors.head? imgs []).name = pyStrip ctext ∧
      (contentNode (pyStrip ctext) (rowSupport style) rc (pyStrip ltext)
          anchors.head? imgs []).children = [leafChildNode (pyStrip ltext)]) := by
  refine ⟨?_, ?_, ?_⟩
  · simp [processLabelRow, processLeafGo]
  · intro h
    simp [contentNode, PNode.name, PNode.children, h]
  · intro h
    simp [contentNode, PNode.name, PNode.children, h]

/-- Claim C1 witness: the amended statement evaluated on a named label
row (`Y` over leaf `X`) and on an empty label row over leaf `X`. -/
theorem claim_C1_witness :
    processLabelRow exFetch0 (fun _ _ => .ok []) false none " Y "
        (some (.content " X " [] [])) 0
      = .ok (contentNode "Y" 1 0 "X" none [] []) ∧
    (contentNode "Y" 1 0 "X" none [] []).name = "Y" ∧
    (contentNode "Y" 1 0 "X" none [] []).children = [leafChildNode "X"] ∧
    processLabelRow exFetch0 (fun _ _ => .ok []) false none "  "
        (some (.content " X " [] [])) 0
      = .ok (contentNode "" 1 0 "X" none [] []) ∧
    (contentNode "" 1 0 "X" none [] []).name = "X" ∧
    (contentNode "" 1 0 "X" none [] []).children = [] := by
  have h1 := claim_C1_amended exFetch0 (fun _ _ => .ok []) none " Y " " X " [] [] 0
  have h2 := claim_C1_amended exFetch0 (fun _ _ => .ok []) none "  " " X " [] [] 0
  exact ⟨h1.1, (h1.2.2 (by decide)).1, (h1.2.2 (by decide)).2,
    h2.1, (h2.2.1 (by decide)).1, (h2.2.1 (by decide)).2⟩

/-- Claim C1 counterexample: with one level of stitching allowed, the
label row with non-empty text `Y` over leaf text `X` yields a node with
two children named `X` — the implicitly created leaf child plus a
spliced child — not exactly one. -/
theorem claim_C1_counterexample :
    build_tree exFetchXX 1 exTableYX 0
      = .ok [PNode.mk "Y" 1 [] (some 0) (some "/wiki/X")
          (some (.lists [ "img1.png"] [( "50", "40")]))
          [leafChildNode "X",
           PNode.mk "X" 1 [] (some 1) none (some (.lists [] [])) []]] ∧
    ((PNode.mk "Y" 1 [] (some 0) (some "/wiki/X")
       (some (.lists [ "img1.png"] [( "50", "40")]))
       [leafChildNode "X",
        PNode.mk "X" 1 [] (some 1) none (some (.lists [] [])) []]).children.map
          PNode.name) = [ "X", "X"] := by
  exact ⟨rfl, rfl⟩

/-- Claim C2 counterexample: for the label row `Y` over leaf `X`, the
implicitly created child carries neither the link nor the images — both
features are attached to the label row's own node. -/
theorem claim_C2_counterexample :
    build_tree exFetch0 0 exTableYX 0 = .ok [exNodeYX] ∧
    exNodeYX.children = [leafChildNode "X"] ∧
    (leafChildNode "X").link = none ∧
    (leafChildNode "X").media = none ∧
    exNodeYX.link = some "/wiki/X" ∧
    exNodeYX.media = some (.lists [ "img1.png"] [( "50", "40")]) := by
  exact ⟨rfl, rfl, rfl, rfl, rfl, rfl⟩

/-- Claim C2, as amended: the label row's own node carries the leaf's
first-anchor link and the image descriptors; the new leaf child carries
only the leaf name (support 1, no features, no children). -/
theorem claim_C2_amended (fetch : String → List Table)
    (deeper : Table → Nat → Except BErr (List PNode))
    (style : Option String) (ctext ltext : String)
    (anchors : List Anchor) (imgs : List Img) (rc : Nat)
    (hn : pyStrip ctext ≠ "") :
    processLabelRow fetch deeper false style ctext
        (some (.content ltext anchors imgs)) rc
      = .ok (contentNode (pyStrip ctext) (rowSupport style) rc (pyStrip ltext)
          anchors.head? imgs []) ∧
    (contentNode (pyStrip ctext) (rowSupport style) rc (pyStrip ltext)
        anchors.head? imgs []).link
      = anchors.head?.map (fun a => a.href.getD "") ∧
    (contentNode (pyStrip ctext) (rowSupport style) rc (pyStrip ltext)
        anchors.head? imgs []).media
      = some (.lists (imgs.map Img.src) (imgs.map fun i => (i.width, i.height))) ∧
    (contentNode (pyStrip ctext) (rowSupport style) rc (pyStrip ltext)
        anchors.head? imgs []).children = [leafChildNode (pyStrip ltext)] ∧
    leafChildNode (pyStrip ltext) = PNode.mk (pyStrip ltext) 1 [] none none none [] := by
  refine ⟨?_, ?_, ?_, ?_, rfl⟩
  · simp [processLabelRow, processLeafGo]
  · simp [contentNode, PNode.link]
  · simp [contentNode, PNode.media]
  · simp [contentNode, PNode.children, hn]

/-- Claim C2 witness: the amended statement evaluated on the `Y`/`X` row
with a link and one image. -/
theorem claim_C2_witness :
    processLabelRow exFetch0 (fun _ _ => .ok []) false none " Y "
        (some (.content " X " [Anchor.mk "X" (some "/wiki/X") []]
          [Img.mk "img1.png" "50" "40"])) 0
      = .ok (contentNode "Y" 1 0 "X" (some (Anchor.mk "X" (some "/wiki/X") []))
          [Img.mk "img1.png" "50" "40"] []) ∧
    (contentNode "Y" 1 0 "X" (some (Anchor.mk "X" (some "/wiki/X") []))
        [Img.mk "img1.png" "50" "40"] []).link = some "/wiki/X" ∧
    (contentNode "Y" 1 0 "X" (some (Anchor.mk "X" (some "/wiki/X") []))
        [Img.mk "img1.png" "50" "40"] []).media
      = some (.lists [ "img1.png"] [( "50", "40")]) ∧
    (contentNode "Y" 1 0 "X" (some (Anchor.mk "X" (some "/wiki/X") []))
        [Img.mk "img1.png" "50" "40"] []).children = [leafChildNode "X"] := by
  have h := claim_C2_amended exFetch0 (fun _ _ => .ok []) none " Y " " X "
    [Anchor.mk "X" (some "/wiki/X") []] [Img.mk "img1.png" "50" "40"] 0 (by decide)
  exact ⟨h.1, h.2.1, h.2.2.1, h.2.2.2.1⟩

/-- Claim C3 counterexample: a sister/annotation row with no preceding
node raises an uncaught IndexError, and a label row with no adjacent
`clade-leaf` cell raises an uncaught AttributeError — `build` aborts
rather than warning and continuing. -/
theorem claim_C3_counterexample :
    build_tree exFetch0 0 exTableSlabelFirst 0 = .error .indexError ∧
    build_tree exFetch0 0 exTableNoLeaf 0 = .error .attributeError := by
  exact ⟨rfl, rfl⟩

/-- Claim C3, as amended: a `clade-slabel` row before any node aborts
the whole build with an IndexError (`nodes[-1]` on an empty list); a
label row without an adjacent `clade-leaf` cell aborts it with an
AttributeError (method call on `None`); only a row whose first cell has
an unrecognized class is skipped with a warning, processing continuing
on the remaining rows. -/
theorem claim_C3_amended :
    (∀ (fetch : String → List Table)
       (deeper : Table → Nat → Except BErr (List PNode)) (stitchOn : Bool)
       (classes : List String) (style : Option String) (ctext : String)
       (cl : Option LeafCell) (rest : List Row) (rc : Nat),
      "clade-label" ∉ classes → "clade-slabel" ∈ classes →
      buildRowsGo fetch deeper stitchOn (Row.mk classes style ctext cl :: rest) rc []
        = .error .indexError) ∧
    (∀ (fetch : String → List Table)
       (deeper : Table → Nat → Except BErr (List PNode)) (stitchOn : Bool)
       (style : Option String) (ctext : String) (rc : Nat),
      processLabelRow fetch deeper stitchOn style ctext none rc
        = .error .attributeError) ∧
    (∀ (fetch : String → List Table)
       (deeper : Table → Nat → Except BErr (List PNode)) (stitchOn : Bool)
       (classes : List String) (style : Option String) (ctext : String)
       (cl : Option LeafCell) (rest : List Row) (rc : Nat) (acc : List PNode),
      "clade-label" ∉ classes → "clade-slabel" ∉ classes →
      buildRowsGo fetch deeper stitchOn (Row.mk classes style ctext cl :: rest) rc acc
        = buildRowsGo fetch deeper stitchOn rest rc acc) := by
  refine ⟨?_, ?_, ?_⟩
  · intro fetch deeper stitchOn classes style ctext cl rest rc h1 h2
    rw [buildRowsGo.eq_def]
    simp [processRowGo, h1, h2]
  · intro fetch deeper stitchOn style ctext rc
    rw [processLabelRow.eq_def]
  · intro fetch deeper stitchOn classes style ctext cl rest rc acc h1 h2
    rw [buildRowsGo.eq_def]
    simp [processRowGo, h1, h2]

/-- Claim C3 witness: the amended statement evaluated on a leading
annotation row, a leafless label row, and an unrecognized row followed
by a normal one. -/
theorem claim_C3_witness :
    buildRowsGo exFetch0 (fun _ _ => .ok []) false [exSlabelRow] 0 []
      = .error .indexError ∧
    processLabelRow exFetch0 (fun _ _ => .ok []) false none "Y" none 0
      = .error .attributeError ∧
    buildRowsGo exFetch0 (fun _ _ => .ok []) false
        (Row.mk [ "mystery"] none "zz" none :: [exRowYX]) 0 []
      = buildRowsGo exFetch0 (fun _ _ => .ok []) false [exRowYX] 0 [] := by
  refine ⟨?_, ?_, ?_⟩
  · exact claim_C3_amended.1 exFetch0 (fun _ _ => .ok []) false [ "clade-slabel"]
      none " 690 Mya " none [] 0 (by decide) (by decide)
  · exact claim_C3_amended.2.1 exFetch0 (fun _ _ => .ok []) false none "Y" 0
  · exact claim_C3_amended.2.2 exFetch0 (fun _ _ => .ok []) false [ "mystery"]
      none "zz" none [exRowYX] 0 [] (by decide) (by decide)

/-- Claim C4: (1) the candidate tables of the linked page are tried in
order and the first successful splice ends the scan (the remaining
candidates do not influence the result); (2) within one candidate, the
first root whose matched node exists and is not a leaf contributes
exactly that node's children; (3) at the row, when the stitch succeeds
the current leaf node receives exactly the matched node's children,
found by matching on the trimmed link text and the slash-separated
tokens of the leaf name; (4) splicing changes only the child list —
name, link and images of the current leaf node are kept, the imported
children following any implicitly created child. -/
theorem claim_C4_stitching :
    (∀ (deeper : Table → Nat → Except BErr (List PNode)) (t : Table)
       (rest : List Table) (rc1 : Nat) (pats : List String)
       (roots cs : List PNode),
      deeper t rc1 = .ok roots → stitchRoots pats roots = some cs →
      stitchTablesGo deeper (t :: rest) rc1 pats = .ok (some cs)) ∧
    (∀ (pats : List String) (r : PNode) (rs : List PNode) (m : PNode),
      findMatchingNode r pats = some m → m.children ≠ [] →
      stitchRoots pats (r :: rs) = some m.children) ∧
    (∀ (fetch : String → List Table)
       (deeper : Table → Nat → Except BErr (List PNode))
       (cladename : String) (sup : Rat) (rc : Nat) (leafname : String)
       (a : Anchor) (imgs : List Img) (href0 : String) (cs : List PNode),
      a.href = some href0 →
      strContains href0 "redlink=1" = false →
      (fetch (resolveHref href0)).isEmpty = false →
      stitchTablesGo deeper (fetch (resolveHref href0)) (rc + 1)
        (pyStrip a.atext :: pySplitSlash leafname) = .ok (some cs) →
      processLeafGo fetch deeper true cladename sup rc leafname (some a) imgs
        = .ok (contentNode cladename sup rc leafname (some a) imgs cs)) ∧
    (∀ (cladename : String) (sup : Rat) (rc : Nat) (leafname : String)
       (la : Option Anchor) (imgs : List Img) (cs : List PNode),
      (contentNode cladename sup rc leafname la imgs cs).name
        = (contentNode cladename sup rc leafname la imgs []).name ∧
      (contentNode cladename sup rc leafname la imgs cs).link
        = (contentNode cladename sup rc leafname la imgs []).link ∧
      (contentNode cladename sup rc leafname la imgs cs).media
        = (contentNode cladename sup rc leafname la imgs []).media ∧
      (contentNode cladename sup rc leafname la imgs cs).children
        = (contentNode cladename sup rc leafname la imgs []).children ++ cs) := by
  refine ⟨?_, ?_, ?_, ?_⟩
  · intro deeper t rest rc1 pats roots cs h1 h2
    rw [stitchTablesGo.eq_def]
    simp [h1, h2]
  · intro pats r rs m h1 h2
    rw [stitchRoots.eq_def]
    simp [h1]
    intro hemp
    exact absurd hemp h2
  · intro fetch deeper cladename sup rc leafname a imgs href0 cs h1 h2 h3 h4
    rw [processLeafGo.eq_def]
    simp [h1, h2, h3, h4]
  · intro cladename sup rc leafname la imgs cs
    refine ⟨rfl, rfl, rfl, ?_⟩
    simp [contentNode, PNode.children]

/-- Claim C4 witness: the spec's `Felidae` example — the leaf named
`Felidae` follows its link, the linked page's tree has an internal node
matching `Felidae` with children `Pantherinae` and `Felinae`, and after
stitching the leaf node has gained exactly those two children while
keeping its own name, link and image. -/
theorem claim_C4_witness :
    stitchTablesGo exDeeperFelidae [exPageFelidae] 1 [ "Felidae", "Felidae"]
      = .ok (some [exNodePantherinae, exNodeFelinae]) ∧
    stitchRoots [ "Felidae", "Felidae"] [exNodeFelidaeRoot]
      = some [exNodePantherinae, exNodeFelinae] ∧
    processLeafGo exFetchFelidae exDeeperFelidae true "" 1 0 "Felidae"
        (some (Anchor.mk "Felidae" (some "/wiki/Felidae") []))
        [Img.mk "cat.png" "60" "30"]
      = .ok (contentNode "" 1 0 "Felidae"
          (some (Anchor.mk "Felidae" (some "/wiki/Felidae") []))
          [Img.mk "cat.png" "60" "30"] [exNodePantherinae, exNodeFelinae]) ∧
    (contentNode "" 1 0 "Felidae"
        (some (Anchor.mk "Felidae" (some "/wiki/Felidae") []))
        [Img.mk "cat.png" "60" "30"] [exNodePantherinae, exNodeFelinae]).children
      = (contentNode "" 1 0 "Felidae"
          (some (Anchor.mk "Felidae" (some "/wiki/Felidae") []))
          [Img.mk "cat.png" "60" "30"] []).children
        ++ [exNodePantherinae, exNodeFelinae] := by
  refine ⟨?_, ?_, ?_, ?_⟩
  · exact claim_C4_stitching.1 exDeeperFelidae exPageFelidae [] 1
      [ "Felidae", "Felidae"] [exNodeFelidaeRoot] [exNodePantherinae, exNodeFelinae]
      rfl rfl
  · exact claim_C4_stitching.2.1 [ "Felidae", "Felidae"] exNodeFelidaeRoot []
      exNodeFelidaeRoot rfl (by simp [exNodeFelidaeRoot, PNode.children])
  · exact claim_C4_stitching.2.2.1 exFetchFelidae exDeeperFelidae "" 1 0 "Felidae"
      (Anchor.mk "Felidae" (some "/wiki/Felidae") []) [Img.mk "cat.png" "60" "30"]
      "/wiki/Felidae" [exNodePantherinae, exNodeFelinae] rfl rfl rfl rfl
  · exact (claim_C4_stitching.2.2.2 "" 1 0 "Felidae"
      (some (Anchor.mk "Felidae" (some "/wiki/Felidae") []))
      [Img.mk "cat.png" "60" "30"] [exNodePantherinae, exNodeFelinae]).2.2.2

theorem takeWhile_append_stop (p : Char → Bool) (l1 : List Char) (d : Char)
    (l2 : List Char) (h1 : ∀ c ∈ l1, p c = true) (h2 : p d = false) :
    (l1 ++ d :: l2).takeWhile p = l1 := by
  induction l1 with
  | nil => simp [List.takeWhile, h2]
  | cons c cs ih =>
    have hc : p c = true := h1 c (by simp)
    simp [List.takeWhile, hc]
    exact ih fun x hx => h1 x (by simp [hx])

theorem dropWhile_append_stop (p : Char → Bool) (l1 : List Char) (d : Char)
    (l2 : List Char) (h1 : ∀ c ∈ l1, p c = true) (h2 : p d = false) :
    (l1 ++ d :: l2).dropWhile p = d :: l2 := by
  induction l1 with
  | nil => simp [List.dropWhile, h2]
  | cons c cs ih =>
    have hc : p c = true := h1 c (by simp)
    simp [List.dropWhile, hc]
    exact ih fun x hx => h1 x (by simp [hx])

theorem afterLastHash_append (l1 l2 : List Char) (h : '#' ∉ l2) :
    afterLastHash (l1 ++ '#' :: l2) = l2 := by
  unfold afterLastHash
  have hrev : (l1 ++ '#' :: l2).reverse = l2.reverse ++ '#' :: l1.reverse := by
    simp
  rw [hrev, takeWhile_append_stop _ _ _ _ ?_ (by simp)]
  · simp
  · intro c hc
    simp only [List.mem_reverse] at hc
    simp
    exact fun he => h (he ▸ hc)

theorem beforeLastHash_append (l1 l2 : List Char) (h : '#' ∉ l2) :
    beforeLastHash (l1 ++ '#' :: l2) = l1 := by
  unfold beforeLastHash
  rw [if_pos (by simp)]
  have hrev : (l1 ++ '#' :: l2).reverse = l2.reverse ++ '#' :: l1.reverse := by
    simp
  rw [hrev, dropWhile_append_stop _ _ _ _ ?_ (by simp)]
  · simp
  · intro c hc
    simp only [List.mem_reverse] at hc
    simp
    exact fun he => h (he ▸ hc)

theorem digit_ne_hash (c : Char) (h : c.isDigit = true) : ¬(c = '#') := by
  intro he
  subst he
  simp [Char.isDigit] at h

theorem string_toList_append (a b : String) :
    (a ++ b).toList = a.toList ++ b.toList := by
  simp [String.toList]

theorem scanTables_take (n : Nat) :
    ∀ (tables acc : List Table), acc.length < n → n ≤ acc.length + tables.length →
    scanTables (some n) acc tables = acc ++ tables.take (n - acc.length) := by
  intro tables
  induction tables with
  | nil =>
    intro acc h1 h2
    simp at h2
    exact absurd h2 (by omega)
  | cons t rest ih =>
    intro acc h1 h2
    rw [scanTables.eq_def]
    simp only []
    by_cases he : n = (acc ++ [t]).length
    · rw [if_pos (by simp [he])]
      have hone : n - acc.length = 1 := by simp at he; omega
      rw [hone]
      simp
    · rw [if_neg (by simp; intro hc; exact he (by simp [hc]))]
      have h1' : (acc ++ [t]).length < n := by simp at he ⊢; omega
      have h2' : n ≤ (acc ++ [t]).length + rest.length := by simp at h2 ⊢; omega
      rw [ih (acc ++ [t]) h1' h2']
      have hl : (acc ++ [t]).length = acc.length + 1 := by simp
      have hn : n - acc.length = (n - (acc.length + 1)) + 1 := by simp at he; omega
      rw [hl, hn, List.take_succ_cons, List.append_assoc]
      rfl

theorem lastOf_cons (t : Table) (l : List Table) (h : l ≠ []) :
    lastOf (t :: l) = lastOf l := by
  cases l with
  | nil => exact absurd rfl h
  | cons y ys => rfl

theorem lastOf_append_single (l : List Table) (x : Table) :
    lastOf (l ++ [x]) = some x := by
  induction l with
  | nil => rfl
  | cons t rest ih =>
    show lastOf (t :: (rest ++ [x])) = some x
    rw [lastOf_cons t (rest ++ [x]) (by simp)]
    exact ih

/-- Claim C6: for a term carrying a 1-based decimal index suffix `#s`
denoting `n ≥ 1`, and a document whose scan order holds at least `n`
top-level clade tables, the locator returns exactly the `n`-th table
(and no other), as a one-element sequence. -/
theorem claim_C6 (base s : String) (n : Nat) (tables : List Table) (tN : Table)
    (h1 : strIsDigitL s.toList = true) (h2 : digitsToNat s.toList = n)
    (h3 : 1 ≤ n) (h4 : tables[n - 1]? = some tN) :
    getWikiTree (base ++ "#" ++ s) tables = .ok [tN] := by
  have hdig : ∀ c ∈ s.toList, c.isDigit = true := by
    have h := h1
    unfold strIsDigitL at h
    simp at h
    exact h.2
  have hnotin : '#' ∉ s.toList := fun hc =>
    digit_ne_hash '#' (hdig '#' hc) rfl
  have hlist : (base ++ "#" ++ s).toList = base.toList ++ '#' :: s.toList := by
    rw [string_toList_append, string_toList_append, List.append_assoc]
    rfl
  have hparse : parseSearchTerm (base ++ "#" ++ s)
      = (String.mk base.toList, some n) := by
    simp only [parseSearchTerm, hlist, afterLastHash_append _ _ hnotin,
      beforeLastHash_append _ _ hnotin, h1, if_true, h2]
  have hlen : n ≤ tables.length := by
    by_contra hcc
    push_neg at hcc
    rw [List.getElem?_eq_none (by omega)] at h4
    cases h4
  have hscan : scanTables (some n) [] tables = tables.take n := by
    rw [scanTables_take n tables [] (by simp; omega) (by simp; omega)]
    simp
  have htake : tables.take n = tables.take (n - 1) ++ [tN] := by
    have hn : n = (n - 1) + 1 := by omega
    conv_lhs => rw [hn, List.take_succ, h4]
    rfl
  simp only [getWikiTree, hparse]
  rw [hscan, htake, if_pos (by omega), lastOf_append_single]

/-- Claim C6 witness: term `Felidae#2` against a three-table document
returns exactly the second table. -/
theorem claim_C6_witness :
    getWikiTree ( "Felidae#2") exDocTables = .ok [exTableYX] := by
  have h := claim_C6 "Felidae" "2" 2 exDocTables exTableYX rfl rfl
    (by omega) rfl
  exact h

theorem processLeafGo_false (fetch : String → List Table)
    (deeper : Table → Nat → Except BErr (List PNode)) (c : String) (sup : Rat)
    (rc : Nat) (l : String) (la : Option Anchor) (imgs : List Img) :
    processLeafGo fetch deeper false c sup rc l la imgs
      = .ok (contentNode c sup rc l la imgs []) := by
  rw [processLeafGo.eq_def]
  simp

theorem go_fetch_indep (fetch : String → List Table)
    (deeper : Table → Nat → Except BErr (List PNode)) :
    ∀ (t : Table) (rc : Nat), FItable fetch deeper t rc := by
  intro t0 rc0
  induction t0, rc0 using buildTableGo.induct fetch deeper false
    (motive_2 := FIrows fetch deeper)
    (motive_3 := FIrow fetch deeper)
    (motive_4 := FIlabel fetch deeper) with
  | case1 rc =>
    unfold FItable
    intro g d'
    rw [buildTableGo.eq_def, buildTableGo.eq_def]
  | case2 rc rows e herr ih =>
    unfold FItable
    unfold FIrows at ih
    intro g d'
    rw [buildTableGo.eq_def, buildTableGo.eq_def]
    simp only []
    rw [← ih g d', herr]
  | case3 rc rows roots hok ih =>
    unfold FItable
    unfold FIrows at ih
    intro g d'
    rw [buildTableGo.eq_def, buildTableGo.eq_def]
    simp only []
    rw [← ih g d', hok]
  | case4 rc acc classes style ctext cladeleaf hmem ih =>
    unfold FIrow
    unfold FIlabel at ih
    intro g d'
    rw [processRowGo.eq_def, processRowGo.eq_def]
    simp only [if_pos hmem]
    rw [ih g d']
  | case5 rc classes style ctext cladeleaf hn hmem =>
    unfold FIrow
    intro g d'
    rw [processRowGo.eq_def, processRowGo.eq_def]
    simp only [if_neg hn, if_pos hmem]
  | case6 rc classes style ctext cladeleaf hn hmem c cs =>
    unfold FIrow
    intro g d'
    rw [processRowGo.eq_def, processRowGo.eq_def]
    simp only [if_neg hn, if_pos hmem]
  | case7 rc acc classes style ctext cladeleaf hn1 hn2 =>
    unfold FIrow
    intro g d'
    rw [processRowGo.eq_def, processRowGo.eq_def]
    simp only [if_neg hn1, if_neg hn2]
  | case8 style ctext rc =>
    unfold FIlabel
    intro g d'
    rw [processLabelRow.eq_def, processLabelRow.eq_def]
  | case9 style ctext rc ct e herr ih =>
    unfold FIlabel
    unfold FItable at ih
    intro g d'
    rw [processLabelRow.eq_def, processLabelRow.eq_def]
    simp only []
    rw [← ih g d', herr]
  | case10 style ctext rc ct roots hok ih =>
    unfold FIlabel
    unfold FItable at ih
    intro g d'
    rw [processLabelRow.eq_def, processLabelRow.eq_def]
    simp only []
    rw [← ih g d', hok]
  | case11 style ctext rc ltext anchors imgs =>
    unfold FIlabel
    intro g d'
    rw [processLabelRow.eq_def, processLabelRow.eq_def]
    simp only []
    rw [processLeafGo_false, processLeafGo_false]
  | case12 rc acc =>
    unfold FIrows
    intro g d'
    rw [buildRowsGo.eq_def, buildRowsGo.eq_def]
  | case13 rc acc row rest e herr ih =>
    unfold FIrows
    unfold FIrow at ih
    intro g d'
    rw [buildRowsGo.eq_def, buildRowsGo.eq_def]
    simp only []
    rw [← ih g d', herr]
  | case14 rc acc row rest roots hok ih1 ih2 =>
    unfold FIrows
    unfold FIrow at ih1
    unfold FIrows at ih2
    intro g d'
    rw [buildRowsGo.eq_def, buildRowsGo.eq_def]
    simp only []
    rw [← ih1 g d', hok]
    exact ih2 g d'

theorem leafShapeOK_mk (nm : String) (sp : Rat) (i : List String)
    (d : Option Nat) (l : Option String) (m : Option Media) (cs : List PNode)
    (hroot : m.isSome = true → cs = [] ∨ ∃ x, cs = [leafChildNode x])
    (hcs : ∀ c ∈ cs, leafShapeOK c) :
    leafShapeOK (PNode.mk nm sp i d l m cs) := by
  intro x hx
  rw [allNodes_shape] at hx
  rcases List.mem_cons.mp hx with he | hx2
  · subst he
    exact hroot
  · obtain ⟨c, hc, hxc⟩ := (mem_allNodesList x _).mp hx2
    exact hcs c hc x hxc

theorem leafShapeOK_contentNode (c : String) (sup : Rat) (rc : Nat)
    (l : String) (la : Option Anchor) (imgs : List Img) :
    leafShapeOK (contentNode c sup rc l la imgs []) := by
  refine leafShapeOK_mk _ _ _ _ _ _ _ ?_ ?_
  · intro _
    rcases em (c = "") with he | he
    · rw [if_pos he]
      simp
    · rw [if_neg he]
      exact Or.inr ⟨l, by simp⟩
  · intro x hx
    rcases em (c = "") with he | he
    · rw [if_pos he] at hx; simp at hx
    · rw [if_neg he] at hx
      simp at hx
      subst hx
      refine leafShapeOK_mk _ _ _ _ _ _ _ (by intro hc; cases hc) ?_
      intro y hy
      cases hy

theorem leafShapeOK_addInfo (n : PNode) (s : String) (h : leafShapeOK n) :
    leafShapeOK (n.addInfo s) := by
  cases n with
  | mk nm sp i d l m cs =>
    have hroot := h _ (self_mem_allNodes _)
    refine leafShapeOK_mk nm sp (i ++ [s]) d l m cs hroot ?_
    intro c hc x hx
    exact h x (children_sub_allNodes (PNode.mk nm sp i d l m cs) c hc x hx)

theorem go_leafShape (fetch : String → List Table)
    (deeper : Table → Nat → Except BErr (List PNode)) :
    ∀ (t : Table) (rc : Nat), LStable fetch deeper t rc := by
  intro t0 rc0
  induction t0, rc0 using buildTableGo.induct fetch deeper false
    (motive_2 := LSrows fetch deeper)
    (motive_3 := LSrow fetch deeper)
    (motive_4 := LSlabel fetch deeper) with
  | case1 rc =>
    unfold LStable
    intro nodes h r hr
    rw [buildTableGo.eq_def] at h
    injection h with he
    subst he
    cases hr
  | case2 rc rows e herr ih =>
    unfold LStable
    intro nodes h
    rw [buildTableGo.eq_def] at h
    simp only [herr] at h
    injection h
  | case3 rc rows roots hok ih =>
    unfold LStable
    unfold LSrows at ih
    intro nodes h
    rw [buildTableGo.eq_def] at h
    simp only [hok] at h
    injection h with he
    subst he
    intro r hr
    exact ih (by intro x hx; cases hx) roots hok r (List.mem_reverse.mp hr)
  | case4 rc acc classes style ctext cladeleaf hmem ih =>
    unfold LSrow
    unfold LSlabel at ih
    intro hacc out h
    rw [processRowGo.eq_def] at h
    simp only [if_pos hmem] at h
    cases hp : processLabelRow fetch deeper false style ctext cladeleaf rc with
    | error e => rw [hp] at h; simp [Except.map] at h
    | ok node =>
      rw [hp] at h
      simp only [Except.map] at h
      injection h with he
      subst he
      intro r hr
      rcases List.mem_cons.mp hr with he | hr2
      · exact he ▸ ih node hp
      · exact hacc r hr2
  | case5 rc classes style ctext cladeleaf hn hmem =>
    unfold LSrow
    intro hacc out h
    rw [processRowGo.eq_def] at h
    simp only [if_neg hn, if_pos hmem] at h
    cases h
  | case6 rc classes style ctext cladeleaf hn hmem c cs =>
    unfold LSrow
    intro hacc out h
    rw [processRowGo.eq_def] at h
    simp only [if_neg hn, if_pos hmem] at h
    injection h with he
    subst he
    intro r hr
    rcases List.mem_cons.mp hr with he | hr2
    · exact he ▸ leafShapeOK_addInfo c _ (hacc c (List.mem_cons_self _ _))
    · exact hacc r (List.mem_cons_of_mem _ hr2)
  | case7 rc acc classes style ctext cladeleaf hn1 hn2 =>
    unfold LSrow
    intro hacc out h
    rw [processRowGo.eq_def] at h
    simp only [if_neg hn1, if_neg hn2] at h
    injection h with he
    subst he
    exact hacc
  | case8 style ctext rc =>
    unfold LSlabel
    intro node h
    rw [processLabelRow.eq_def] at h
    cases h
  | case9 style ctext rc ct e herr ih =>
    unfold LSlabel
    intro node h
    rw [processLabelRow.eq_def] at h
    simp only [herr] at h
    injection h
  | case10 style ctext rc ct roots hok ih =>
    unfold LSlabel
    unfold LStable at ih
    intro node h
    rw [processLabelRow.eq_def] at h
    simp only [hok] at h
    injection h with he
    subst he
    refine leafShapeOK_mk _ _ _ _ _ _ _ ?_ (fun c hc => ih roots hok c hc)
    intro hc
    cases hc
  | case11 style ctext rc ltext anchors imgs =>
    unfold LSlabel
    intro node h
    rw [processLabelRow.eq_def] at h
    simp only [] at h
    rw [processLeafGo_false] at h
    injection h with he
    subst he
    exact leafShapeOK_contentNode _ _ _ _ _ _
  | case12 rc acc =>
    unfold LSrows
    intro hacc out h
    rw [buildRowsGo.eq_def] at h
    injection h with he
    subst he
    exact hacc
  | case13 rc acc row rest e herr ih =>
    unfold LSrows
    intro hacc out h
    rw [buildRowsGo.eq_def] at h
    simp only [herr] at h
    injection h
  | case14 rc acc row rest roots hok ih1 ih2 =>
    unfold LSrows
    unfold LSrow at ih1
    unfold LSrows at ih2
    intro hacc out h
    rw [buildRowsGo.eq_def] at h
    simp only [hok] at h
    exact ih2 (ih1 hacc roots hok) out h

/-- Claim C7. -/
theorem claim_C7_depth_zero :
    (∀ (f g : String → List Table) (t : Table) (rc : Nat),
      build_tree f 0 t rc = build_tree g 0 t rc) ∧
    (∀ (f : String → List Table) (t : Table) (rc : Nat) (nodes : List PNode),
      build_tree f 0 t rc = .ok nodes →
      ∀ r ∈ nodes, ∀ m ∈ r.allNodes, m.media.isSome = true →
        m.children = [] ∨ ∃ nm, m.children = [leafChildNode nm]) := by
  constructor
  · intro f g t rc
    unfold build_tree
    rw [Nat.zero_sub]
    exact go_fetch_indep f _ t rc g _
  · intro f t rc nodes h r hr m hm
    unfold build_tree at h
    rw [Nat.zero_sub] at h
    exact go_leafShape f _ t rc nodes h r hr m hm

theorem processLeafGo_support (fetch : String → List Table)
    (deeper : Table → Nat → Except BErr (List PNode)) (stitchOn : Bool)
    (c : String) (sup : Rat) (rc : Nat) (l : String) (la : Option Anchor)
    (imgs : List Img) (node : PNode)
    (h : processLeafGo fetch deeper stitchOn c sup rc l la imgs = .ok node) :
    node.support = sup := by
  rw [processLeafGo.eq_def] at h
  by_cases hso : stitchOn
  · rw [if_pos hso] at h
    cases la with
    | none =>
      simp only [] at h
      injection h with he
      subst he
      rfl
    | some a =>
      simp only [] at h
      cases ha : a.href with
      | none => rw [ha] at h; simp only [] at h; cases h
      | some href0 =>
        rw [ha] at h
        simp only [] at h
        by_cases hred : strContains href0 "redlink=1"
        · rw [if_pos hred] at h
          injection h with he
          subst he
          rfl
        · rw [if_neg hred] at h
          by_cases hemp : (fetch (resolveHref href0)).isEmpty
          · rw [if_pos hemp] at h
            injection h with he
            subst he
            rfl
          · rw [if_neg hemp] at h
            cases hst : stitchTablesGo deeper (fetch (resolveHref href0)) (rc + 1)
                (pyStrip a.atext :: pySplitSlash l) with
            | error e => rw [hst] at h; cases h
            | ok o =>
              rw [hst] at h
              cases o with
              | none =>
                simp only [] at h
                injection h with he
                subst he
                rfl
              | some cs =>
                simp only [] at h
                injection h with he
                subst he
                rfl
  · rw [if_neg hso] at h
    injection h with he
    subst he
    rfl

theorem processLabelRow_support (fetch : String → List Table)
    (deeper : Table → Nat → Except BErr (List PNode)) (stitchOn : Bool)
    (style : Option String) (ctext : String) (cladeleaf : Option LeafCell)
    (rc : Nat) (node : PNode)
    (h : processLabelRow fetch deeper stitchOn style ctext cladeleaf rc = .ok node) :
    node.support = rowSupport style := by
  rw [processLabelRow.eq_def] at h
  cases cladeleaf with
  | none => cases h
  | some lc =>
    cases lc with
    | table ct =>
      simp only [] at h
      cases hb : buildTableGo fetch deeper stitchOn ct rc with
      | error e => rw [hb] at h; cases h
      | ok childs =>
        rw [hb] at h
        simp only [] at h
        injection h with he
        subst he
        rfl
    | content ltext anchors imgs =>
      simp only [] at h
      exact processLeafGo_support fetch deeper stitchOn _ _ rc _ _ _ node h

/-- Claim C5 (support invariant): every node anywhere in a `build_tree`
result has support 1.0 or 0.5 and nothing else; and the node created for
a label row has support 0.5 exactly when the row's label cell style
carries the dashed indicator, 1.0 exactly when it does not.
(Determinism is inherent: the embedded `build_tree` is a function of its
inputs, so re-running it on the same table yields the same support.) -/
theorem claim_C5_support :
    (∀ (fetch : String → List Table) (recurs : Nat) (t : Table) (rc : Nat)
       (nodes : List PNode),
      build_tree fetch recurs t rc = .ok nodes →
      ∀ r ∈ nodes, ∀ m ∈ r.allNodes, m.support = 1 ∨ m.support = halfRat) ∧
    (∀ (fetch : String → List Table)
       (deeper : Table → Nat → Except BErr (List PNode)) (stitchOn : Bool)
       (style : Option String) (ctext : String) (cladeleaf : Option LeafCell)
       (rc : Nat) (node : PNode),
      processLabelRow fetch deeper stitchOn style ctext cladeleaf rc = .ok node →
      ((node.support = halfRat ↔ styleDashed style = true) ∧
       (node.support = 1 ↔ styleDashed style = false))) := by
  constructor
  · intro fetch recurs t rc nodes h r hr m hm
    exact (build_tree_builtOK fetch recurs t rc nodes h r hr m hm).1
  · intro fetch deeper stitchOn style ctext cladeleaf rc node h
    have hs := processLabelRow_support fetch deeper stitchOn style ctext
      cladeleaf rc node h
    have hne : ¬(halfRat = (1 : Rat)) := by decide
    rw [hs]
    unfold rowSupport
    by_cases hd : styleDashed style
    · rw [if_pos hd]
      constructor
      · simp [hd]
      · constructor
        · intro hc; exact absurd hc hne
        · intro hc; rw [hd] at hc; cases hc
    · rw [if_neg hd]
      constructor
      · constructor
        · intro hc; exact absurd hc.symm hne
        · intro hc
          rw [Bool.not_eq_true] at hd
          rw [hd] at hc
          cases hc
      · simp [hd]

/-- Claim C5 witness: on the two-row table whose first label cell has a
dashed style and whose second does not, the first node gets support 0.5,
the second 1.0, and every support is one of the two values. -/
theorem claim_C5_witness :
    ((contentNode "A" halfRat 0 "B" none [] []).support = 1 ∨
      (contentNode "A" halfRat 0 "B" none [] []).support = halfRat) ∧
    ((contentNode "A" halfRat 0 "B" none [] []).support = halfRat ↔
      styleDashed (some "border-left: 1px dashed black;") = true) ∧
    ((contentNode "" 1 0 "C" none [] []).support = 1 ↔
      styleDashed (some "border-left: 1px solid black;") = false) := by
  refine ⟨?_, ?_, ?_⟩
  · exact claim_C5_support.1 exFetch0 0 exTableDashed 0
      [contentNode "A" halfRat 0 "B" none [] [],
       contentNode "" 1 0 "C" none [] []] rfl
      (contentNode "A" halfRat 0 "B" none [] []) (List.mem_cons_self _ _)
      (contentNode "A" halfRat 0 "B" none [] []) (self_mem_allNodes _)
  · exact (claim_C5_support.2 exFetch0 (fun _ _ => .ok []) false
      (some "border-left: 1px dashed black;") "A"
      (some (.content "B" [] [])) 0
      (contentNode "A" halfRat 0 "B" none [] []) rfl).1
  · exact (claim_C5_support.2 exFetch0 (fun _ _ => .ok []) false
      (some "border-left: 1px solid black;") ""
      (some (.content "C" [] [])) 0
      (contentNode "" 1 0 "C" none [] []) rfl).2

/-- Claim C7 witness: at `maxDepth = 0`, building the `Felidae` table
gives the same result whether the Document Source can serve the linked
page or nothing at all, and the leaf that carries the link remains an
unresolved leaf with no children. -/
theorem claim_C7_witness :
    build_tree exFetchFelidae 0 exTableFelidae 0
      = build_tree exFetch0 0 exTableFelidae 0 ∧
    ((contentNode "" 1 0 "Felidae"
        (some (Anchor.mk "Felidae" (some "/wiki/Felidae") []))
        [Img.mk "cat.png" "60" "30"] []).children = [] ∨
      ∃ nm, (contentNode "" 1 0 "Felidae"
        (some (Anchor.mk "Felidae" (some "/wiki/Felidae") []))
        [Img.mk "cat.png" "60" "30"] []).children = [leafChildNode nm]) := by
  constructor
  · exact claim_C7_depth_zero.1 exFetchFelidae exFetch0 exTableFelidae 0
  · exact claim_C7_depth_zero.2 exFetch0 exTableFelidae 0
      [contentNode "" 1 0 "Felidae"
        (some (Anchor.mk "Felidae" (some "/wiki/Felidae") []))
        [Img.mk "cat.png" "60" "30"] []] rfl
      (contentNode "" 1 0 "Felidae"
        (some (Anchor.mk "Felidae" (some "/wiki/Felidae") []))
        [Img.mk "cat.png" "60" "30"] []) (List.mem_cons_self _ _)
      (contentNode "" 1 0 "Felidae"
        (some (Anchor.mk "Felidae" (some "/wiki/Felidae") []))
        [Img.mk "cat.png" "60" "30"] []) (self_mem_allNodes _) rfl

theorem wfRowsB_cons (seen : Bool) (row : Row) (rest : List Row) :
    wfRowsB seen (row :: rest)
      = (wfRowB seen row && wfRowsB (seenAfter seen row) rest) := by
  cases row with
  | mk classes style ctext cl =>
    rw [wfRowsB.eq_def]
    unfold wfRowB seenAfter
    simp only []
    split_ifs with h1 h2
    · cases cl with
      | none => rfl
      | some c => cases c with
        | table ct => rfl
        | content lt a i => rfl
    · rfl
    · simp

theorem wfRowB_true_of (seen : Bool) (row : Row)
    (h : wfRowB seen row = true) : wfRowB true row = true := by
  cases row with
  | mk classes style ctext cl =>
    unfold wfRowB at h ⊢
    simp only [] at h ⊢
    split_ifs with h1 h2
    · simpa [h1] using h
    · rfl
    · rfl

theorem wfRowsB_true_of (rows : List Row) :
    ∀ seen, wfRowsB seen rows = true → wfRowsB true rows = true := by
  induction rows with
  | nil => intro seen h; exact h
  | cons row rest ih =>
    intro seen h
    rw [wfRowsB_cons] at h ⊢
    rw [Bool.and_eq_true] at h
    obtain ⟨h1, h2⟩ := h
    have h3 := ih _ h2
    have h4 : wfRowsB (seenAfter true row) rest = true := by
      cases row with
      | mk classes style ctext cl =>
        unfold seenAfter
        simp only []
        split_ifs with hm
        · unfold seenAfter at h2
          simpa [hm] using h2
        · exact h3
    rw [wfRowB_true_of seen row h1, h4]
    rfl

theorem processRefRow_label (classes : List String) (style : Option String)
    (ctext : String) (cl : Option LeafCell) (rc : Nat) (acc : List PNode)
    (hmem : "clade-label" ∈ classes) (hwf : wfCellB cl = true) :
    processRefRow (.mk classes style ctext cl) rc acc
      = refLabelNode style ctext cl rc :: acc := by
  rw [processRefRow.eq_def]
  simp only [if_pos hmem]
  cases cl with
  | none => exact absurd hwf (by simp [wfCellB])
  | some c => cases c with
    | table ct => rfl
    | content lt a i => rfl

theorem processRefRow_seen (row : Row) (rc : Nat) (acc : List PNode)
    (hwf : wfRowB (!acc.isEmpty) row = true) :
    (!(processRefRow row rc acc).isEmpty) = seenAfter (!acc.isEmpty) row := by
  cases row with
  | mk classes style ctext cl =>
    unfold wfRowB at hwf
    rw [processRefRow.eq_def]
    unfold seenAfter
    simp only [] at hwf ⊢
    split_ifs at hwf ⊢ with h1 h2
    · cases cl with
      | none => exact absurd hwf (by simp [wfCellB])
      | some c => cases c with
        | table ct => simp
        | content lt a i => simp
    · cases acc with
      | nil => simp at hwf
      | cons c tl => simp
    · rfl

theorem psize_addInfo (n : PNode) (s : String) :
    psize (n.addInfo s) = psize n := by
  cases n with
  | mk nm sp i d l m cs => rfl

theorem preNames_addInfo (n : PNode) (s : String) :
    preNames (n.addInfo s) = preNames n := by
  cases n with
  | mk nm sp i d l m cs => rfl

theorem preNamesList_append (l1 l2 : List PNode) :
    preNames.preNamesList (l1 ++ l2)
      = preNames.preNamesList l1 ++ preNames.preNamesList l2 := by
  induction l1 with
  | nil => simp [preNames.preNamesList]
  | cons c cs ih => simp [preNames.preNamesList, ih]

theorem psizeList_reverse (l : List PNode) :
    psize.psizeList l.reverse = psize.psizeList l := by
  induction l with
  | nil => rfl
  | cons c cs ih =>
    rw [List.reverse_cons, psizeList_append, ih]
    simp [psize.psizeList]
    omega

theorem labelRowsRows_cons (r : Row) (rest : List Row) :
    labelRowsRows (r :: rest) = labelRowsRows [r] + labelRowsRows rest := by
  cases r with
  | mk classes style ctext cl =>
    rw [labelRowsRows.eq_def]
    conv_rhs => rw [labelRowsRows.eq_def]
    simp [labelRowsRows]

theorem namedLeafRows_cons (r : Row) (rest : List Row) :
    namedLeafRows (r :: rest) = namedLeafRows [r] + namedLeafRows rest := by
  cases r with
  | mk classes style ctext cl =>
    rw [namedLeafRows.eq_def]
    conv_rhs => rw [namedLeafRows.eq_def]
    simp [namedLeafRows]

theorem labelCountRows_cons (r : Row) (rest : List Row) :
    labelCountRows (r :: rest) = labelCountRows [r] + labelCountRows rest := by
  cases r with
  | mk classes style ctext cl =>
    simp [labelCountRows]

theorem docNamesRows_cons (r : Row) (rest : List Row) :
    docNamesRows (r :: rest) = docNamesRows [r] ++ docNamesRows rest := by
  cases r with
  | mk classes style ctext cl =>
    rw [docNamesRows.eq_def]
    conv_rhs => rw [docNamesRows.eq_def]
    simp [docNamesRows]

theorem go_simulates (fetch : String → List Table)
    (deeper : Table → Nat → Except BErr (List PNode)) :
    ∀ (t : Table) (rc : Nat), SIMtable fetch deeper t rc := by
  intro t0 rc0
  induction t0, rc0 using buildTableGo.induct fetch deeper false
    (motive_2 := SIMrows fetch deeper)
    (motive_3 := SIMrow fetch deeper)
    (motive_4 := SIMlabel fetch deeper) with
  | case1 rc =>
    unfold SIMtable
    intro hwf
    rw [buildTableGo.eq_def, buildRefTable.eq_def]
  | case2 rc rows e herr ih =>
    unfold SIMtable
    unfold SIMrows at ih
    intro hwf
    unfold wfTableB at hwf
    exact absurd (ih (by simpa using hwf)) (by simp [herr])
  | case3 rc rows roots hok ih =>
    unfold SIMtable
    unfold SIMrows at ih
    intro hwf
    unfold wfTableB at hwf
    have h1 := ih (by simpa using hwf)
    rw [hok] at h1
    injection h1 with he
    rw [buildTableGo.eq_def]
    simp only []
    rw [hok]
    rw [buildRefTable.eq_def]
    simp only []
    rw [← he]
  | case4 rc acc classes style ctext cladeleaf hmem ih =>
    unfold SIMrow
    unfold SIMlabel at ih
    intro hwf
    unfold wfRowB at hwf
    simp only [] at hwf
    rw [if_pos hmem] at hwf
    rw [processRowGo.eq_def]
    simp only []
    rw [if_pos hmem, ih hwf,
      processRefRow_label classes style ctext cladeleaf rc acc hmem hwf]
    rfl
  | case5 rc classes style ctext cladeleaf hn hmem =>
    unfold SIMrow
    intro hwf
    unfold wfRowB at hwf
    simp only [] at hwf
    rw [if_neg hn, if_pos hmem] at hwf
    simp at hwf
  | case6 rc classes style ctext cladeleaf hn hmem c cs =>
    unfold SIMrow
    intro hwf
    rw [processRowGo.eq_def, processRefRow.eq_def]
    simp only []
    rw [if_neg hn, if_pos hmem, if_neg hn, if_pos hmem]
  | case7 rc acc classes style ctext cladeleaf hn1 hn2 =>
    unfold SIMrow
    intro hwf
    rw [processRowGo.eq_def, processRefRow.eq_def]
    simp only []
    rw [if_neg hn1, if_neg hn2, if_neg hn1, if_neg hn2]
  | case8 style ctext rc =>
    unfold SIMlabel
    intro hwf
    simp [wfCellB] at hwf
  | case9 style ctext rc ct e herr ih =>
    unfold SIMlabel
    unfold SIMtable at ih
    intro hwf
    unfold wfCellB at hwf
    exact absurd (ih hwf) (by simp [herr])
  | case10 style ctext rc ct roots hok ih =>
    unfold SIMlabel
    unfold SIMtable at ih
    intro hwf
    unfold wfCellB at hwf
    have h1 := ih hwf
    rw [hok] at h1
    injection h1 with he
    rw [processLabelRow.eq_def]
    simp only []
    rw [hok]
    simp only []
    unfold refLabelNode
    simp only []
    rw [← he]
  | case11 style ctext rc ltext anchors imgs =>
    unfold SIMlabel
    intro hwf
    rw [processLabelRow.eq_def]
    simp only []
    unfold refLabelNode
    simp only []
    exact processLeafGo_false fetch deeper _ _ rc _ _ imgs
  | case12 rc acc =>
    unfold SIMrows
    intro hwf
    rw [buildRowsGo.eq_def, buildRefRows.eq_def]
  | case13 rc acc row rest e herr ih =>
    unfold SIMrows
    unfold SIMrow at ih
    intro hwf
    rw [wfRowsB_cons, Bool.and_eq_true] at hwf
    obtain ⟨h1, h2⟩ := hwf
    exact absurd (ih h1) (by simp [herr])
  | case14 rc acc row rest acc1 hok ih1 ih2 =>
    unfold SIMrows
    unfold SIMrow at ih1
    unfold SIMrows at ih2
    intro hwf
    rw [wfRowsB_cons, Bool.and_eq_true] at hwf
    obtain ⟨h1, h2⟩ := hwf
    have h3 := ih1 h1
    rw [hok] at h3
    injection h3 with he
    rw [buildRowsGo.eq_def]
    simp only []
    rw [hok]
    simp only []
    rw [buildRefRows.eq_def]
    simp only []
    rw [← processRefRow_seen row rc acc h1, ← he] at h2
    rw [← he]
    exact ih2 h2

theorem seenAfter_true (row : Row) : seenAfter true row = true := by
  cases row with
  | mk classes style ctext cl =>
    unfold seenAfter
    simp only []
    split_ifs <;> rfl

theorem labelRowsRows_nil : labelRowsRows [] = 0 := rfl

theorem namedLeafRows_nil : namedLeafRows [] = 0 := rfl

theorem labelCountRows_nil : labelCountRows [] = 0 := rfl

theorem docNamesRows_nil : docNamesRows [] = [] := rfl

theorem psizeList_nil : psize.psizeList [] = 0 := rfl

theorem preNamesList_nil : preNames.preNamesList [] = [] := rfl

theorem labelRowsTable_some (rows : List Row) :
    labelRowsTable (.mk (some rows)) = labelRowsRows rows := rfl

theorem namedLeafTable_some (rows : List Row) :
    namedLeafTable (.mk (some rows)) = namedLeafRows rows := rfl

theorem labelCountTable_some (rows : List Row) :
    labelCountTable (.mk (some rows)) = labelCountRows rows := rfl

theorem docNamesTable_some (rows : List Row) :
    docNamesTable (.mk (some rows)) = docNamesRows rows := rfl

theorem labelRowsRows_other (classes : List String) (style : Option String)
    (ctext : String) (cl : Option LeafCell) (h : "clade-label" ∉ classes) :
    labelRowsRows [Row.mk classes style ctext cl] = 0 := by
  rw [labelRowsRows.eq_def]
  simp only []
  rw [if_neg h]
  rfl

theorem namedLeafRows_other (classes : List String) (style : Option String)
    (ctext : String) (cl : Option LeafCell) (h : "clade-label" ∉ classes) :
    namedLeafRows [Row.mk classes style ctext cl] = 0 := by
  rw [namedLeafRows.eq_def]
  simp only []
  rw [if_neg h]
  rfl

theorem labelCountRows_other (classes : List String) (style : Option String)
    (ctext : String) (cl : Option LeafCell) (h : "clade-label" ∉ classes) :
    labelCountRows [Row.mk classes style ctext cl] = 0 := by
  simp [labelCountRows, Row.classes, h]

theorem docNamesRows_other (classes : List String) (style : Option String)
    (ctext : String) (cl : Option LeafCell) (h : "clade-label" ∉ classes) :
    docNamesRows [Row.mk classes style ctext cl] = [] := by
  rw [docNamesRows.eq_def]
  simp only []
  rw [if_neg h]
  rfl

theorem labelCountRows_labelRow (classes : List String) (style : Option String)
    (ctext : String) (cl : Option LeafCell) (h : "clade-label" ∈ classes) :
    labelCountRows [Row.mk classes style ctext cl] = 1 := by
  simp [labelCountRows, Row.classes, h]

theorem labelRowsRows_tableRow (classes : List String) (style : Option String)
    (ctext : String) (ct : Table) (h : "clade-label" ∈ classes) :
    labelRowsRows [Row.mk classes style ctext (some (.table ct))]
      = 1 + labelRowsTable ct := by
  rw [labelRowsRows.eq_def]
  simp only []
  rw [if_pos h]
  rfl

theorem namedLeafRows_tableRow (classes : List String) (style : Option String)
    (ctext : String) (ct : Table) (h : "clade-label" ∈ classes) :
    namedLeafRows [Row.mk classes style ctext (some (.table ct))]
      = namedLeafTable ct := by
  rw [namedLeafRows.eq_def]
  simp only []
  rw [if_pos h]
  rfl

theorem docNamesRows_tableRow (classes : List String) (style : Option String)
    (ctext : String) (ct : Table) (h : "clade-label" ∈ classes) :
    docNamesRows [Row.mk classes style ctext (some (.table ct))]
      = pyStrip ctext :: docNamesTable ct := by
  rw [docNamesRows.eq_def]
  simp only []
  rw [if_pos h, docNamesRows_nil]
  simp

theorem labelRowsRows_contentRow (classes : List String) (style : Option String)
    (ctext : String) (ltext : String) (anchors : List Anchor) (imgs : List Img)
    (h : "clade-label" ∈ classes) :
    labelRowsRows [Row.mk classes style ctext
      (some (.content ltext anchors imgs))] = 1 := by
  rw [labelRowsRows.eq_def]
  simp only []
  rw [if_pos h]
  rfl

theorem namedLeafRows_contentRow (classes : List String) (style : Option String)
    (ctext : String) (ltext : String) (anchors : List Anchor) (imgs : List Img)
    (h : "clade-label" ∈ classes) :
    namedLeafRows [Row.mk classes style ctext
      (some (.content ltext anchors imgs))]
      = if pyStrip ctext = "" then 0 else 1 := by
  rw [namedLeafRows.eq_def]
  simp only []
  rw [if_pos h, namedLeafRows_nil]
  simp

theorem docNamesRows_contentRow (classes : List String) (style : Option String)
    (ctext : String) (ltext : String) (anchors : List Anchor) (imgs : List Img)
    (h : "clade-label" ∈ classes) :
    docNamesRows [Row.mk classes style ctext
      (some (.content ltext anchors imgs))]
      = if pyStrip ctext = "" then [pyStrip ltext]
        else [pyStrip ctext, pyStrip ltext] := by
  rw [docNamesRows.eq_def]
  simp only []
  rw [if_pos h, docNamesRows_nil]
  by_cases hc : pyStrip ctext = "" <;> simp [hc]

theorem buildRef_counts : ∀ (t : Table) (rc : Nat), REFtable t rc := by
  intro t0 rc0
  induction t0, rc0 using buildRefTable.induct
    (motive_2 := REFrows) (motive_3 := REFrow) with
  | case1 rc =>
    unfold REFtable
    intro hwf
    exact ⟨rfl, rfl, rfl⟩
  | case2 rows rc ih =>
    unfold REFtable
    unfold REFrows at ih
    intro hwf
    have hrows : wfRowsB true rows = true :=
      wfRowsB_true_of rows false (by simpa [wfTableB] using hwf)
    obtain ⟨hp, hl, hn⟩ := ih hrows
    rw [buildRefTable.eq_def]
    simp only []
    refine ⟨?_, ?_, ?_⟩
    · rw [psizeList_reverse, hp, psizeList_nil, labelRowsTable_some,
        namedLeafTable_some]
      omega
    · rw [List.length_reverse, hl, labelCountTable_some]
      simp
    · rw [hn, docNamesTable_some]
      simp [preNames.preNamesList]
  | case3 classes style ctext rc acc hmem =>
    unfold REFrow
    intro hwf
    unfold wfRowB at hwf
    simp only [] at hwf
    rw [if_pos hmem] at hwf
    simp [wfCellB] at hwf
  | case4 classes style ctext rc acc hmem ct ih =>
    unfold REFrow
    unfold REFtable at ih
    intro hwf
    unfold wfRowB at hwf
    simp only [] at hwf
    rw [if_pos hmem] at hwf
    unfold wfCellB at hwf
    simp only [] at hwf
    obtain ⟨hp, hl, hn⟩ := ih hwf
    rw [processRefRow.eq_def]
    simp only []
    rw [if_pos hmem]
    refine ⟨?_, ?_, ?_⟩
    · rw [labelRowsRows_tableRow classes style ctext ct hmem,
        namedLeafRows_tableRow classes style ctext ct hmem]
      simp only [psize.psizeList, psize]
      rw [hp]
      omega
    · rw [labelCountRows_labelRow classes style ctext _ hmem]
      simp
      omega
    · rw [List.reverse_cons, preNamesList_append,
        docNamesRows_tableRow classes style ctext ct hmem]
      simp only [preNames.preNamesList, preNames]
      rw [hn]
      simp
  | case5 classes style ctext rc acc hmem ltext anchors imgs =>
    unfold REFrow
    intro hwf
    rw [processRefRow.eq_def]
    simp only []
    rw [if_pos hmem]
    refine ⟨?_, ?_, ?_⟩
    · rw [labelRowsRows_contentRow classes style ctext ltext anchors imgs hmem,
        namedLeafRows_contentRow classes style ctext ltext anchors imgs hmem]
      simp only [psize.psizeList, contentNode, psize]
      by_cases hc : pyStrip ctext = "" <;>
        simp [hc, psize.psizeList, leafChildNode, psize]
    · rw [labelCountRows_labelRow classes style ctext _ hmem]
      simp
      omega
    · rw [List.reverse_cons, preNamesList_append,
        docNamesRows_contentRow classes style ctext ltext anchors imgs hmem]
      simp only [preNames.preNamesList, contentNode, preNames]
      by_cases hc : pyStrip ctext = "" <;>
        simp [hc, preNames.preNamesList, leafChildNode, preNames]
  | case6 classes style ctext cladeleaf rc hn1 hn2 =>
    unfold REFrow
    intro hwf
    rw [processRefRow.eq_def]
    simp only []
    rw [if_neg hn1, if_pos hn2]
    refine ⟨?_, ?_, ?_⟩
    · rw [labelRowsRows_other classes style ctext cladeleaf hn1,
        namedLeafRows_other classes style ctext cladeleaf hn1]
      simp
    · rw [labelCountRows_other classes style ctext cladeleaf hn1]
      simp
    · rw [docNamesRows_other classes style ctext cladeleaf hn1]
      simp
  | case7 classes style ctext cladeleaf rc hn1 hn2 c cs =>
    unfold REFrow
    intro hwf
    rw [processRefRow.eq_def]
    simp only []
    rw [if_neg hn1, if_pos hn2]
    refine ⟨?_, ?_, ?_⟩
    · rw [labelRowsRows_other classes style ctext cladeleaf hn1,
        namedLeafRows_other classes style ctext cladeleaf hn1]
      simp only [psize.psizeList, psize_addInfo]
      omega
    · rw [labelCountRows_other classes style ctext cladeleaf hn1]
      simp
    · rw [docNamesRows_other classes style ctext cladeleaf hn1]
      rw [List.reverse_cons, List.reverse_cons, preNamesList_append,
        preNamesList_append]
      simp only [preNames.preNamesList, preNames_addInfo]
      simp
  | case8 classes style ctext cladeleaf rc acc hn1 hn2 =>
    unfold REFrow
    intro hwf
    rw [processRefRow.eq_def]
    simp only []
    rw [if_neg hn1, if_neg hn2]
    refine ⟨?_, ?_, ?_⟩
    · rw [labelRowsRows_other classes style ctext cladeleaf hn1,
        namedLeafRows_other classes style ctext cladeleaf hn1]
      simp
    · rw [labelCountRows_other classes style ctext cladeleaf hn1]
      simp
    · rw [docNamesRows_other classes style ctext cladeleaf hn1]
      simp
  | case9 rc acc =>
    unfold REFrows
    intro hwf
    rw [buildRefRows.eq_def]
    simp only []
    refine ⟨?_, ?_, ?_⟩
    · rw [labelRowsRows_nil, namedLeafRows_nil]
      simp
    · rw [labelCountRows_nil]
      simp
    · rw [docNamesRows_nil]
      simp
  | case10 row rest rc acc ih1 ih2 =>
    unfold REFrows
    unfold REFrow at ih1
    unfold REFrows at ih2
    intro hwf
    rw [wfRowsB_cons, Bool.and_eq_true] at hwf
    obtain ⟨h1, h2⟩ := hwf
    rw [seenAfter_true] at h2
    obtain ⟨hp1, hl1, hn1⟩ := ih1 h1
    obtain ⟨hp2, hl2, hn2⟩ := ih2 h2
    rw [buildRefRows.eq_def]
    simp only []
    refine ⟨?_, ?_, ?_⟩
    · rw [labelRowsRows_cons, namedLeafRows_cons, hp2, hp1]
      omega
    · rw [labelCountRows_cons, hl2, hl1]
      omega
    · rw [docNamesRows_cons, hn2, hn1, List.append_assoc]

/-- Claim C9, counterexample to the original statement: `exTableYX` is a
well-formed single-table input (one label row, trimmed label `Y`, leaf
text `X`), yet the built root has 2 nodes — the row node plus the
implicitly created leaf child — while the table has only 1 label row, so
"subtree size = number of label rows" fails. -/
theorem claim_C9_counterexample :
    wellFormedTable exTableYX = true ∧
    build_tree exFetch0 0 exTableYX 0 = .ok [exNodeYX] ∧
    psize exNodeYX = 2 ∧ labelRowsTable exTableYX = 1 ∧
    ¬(psize exNodeYX = labelRowsTable exTableYX) :=
  ⟨by decide, by rfl, by decide, by decide, by decide⟩

/-- Claim C9, as amended: for every well-formed single-table input
(without cross-page stitching), `build` returns exactly one root node,
the node count of that root's subtree equals the number of label rows
(nested tables included) plus the number of implicitly created leaf
children (one per label row with non-empty trimmed text and a true-leaf
cell), and the preorder traversal of the root lists the node names in the
document order of their rows. -/
theorem claim_C9_amended (fetch : String → List Table) (t : Table)
    (hwf : wellFormedTable t = true) :
    ∃ root, build_tree fetch 0 t 0 = .ok [root] ∧
      psize root = labelRowsTable t + namedLeafTable t ∧
      preNames root = docNamesTable t := by
  cases t with
  | mk tb =>
    cases tb with
    | none => simp [wellFormedTable] at hwf
    | some rows =>
      unfold wellFormedTable at hwf
      simp only [] at hwf
      rw [Bool.and_eq_true] at hwf
      obtain ⟨hrows, hcount⟩ := hwf
      have hcount1 : labelCountRows rows = 1 := of_decide_eq_true hcount
      have hwtb : wfTableB (Table.mk (some rows)) = true := by
        rw [wfTableB.eq_def]
        exact hrows
      have hsim := go_simulates fetch (fun _ _ => Except.ok [])
        (Table.mk (some rows)) 0
      unfold SIMtable at hsim
      have hbuild := hsim hwtb
      have hcounts := buildRef_counts (Table.mk (some rows)) 0
      unfold REFtable at hcounts
      obtain ⟨hp, hl, hn⟩ := hcounts hwtb
      rw [labelCountTable_some, hcount1] at hl
      obtain ⟨root, hroot⟩ := List.length_eq_one.mp hl
      refine ⟨root, ?_, ?_, ?_⟩
      · show buildTableGo fetch (fun _ _ => Except.ok []) false
          (Table.mk (some rows)) 0 = Except.ok [root]
        rw [hbuild, hroot]
      · rw [hroot] at hp
        have hone : psize.psizeList [root] = psize root := by
          simp [psize.psizeList]
        rw [hone] at hp
        exact hp
      · rw [hroot] at hn
        have hone : preNames.preNamesList [root] = preNames root := by
          simp [preNames.preNamesList]
        rw [hone] at hn
        exact hn

/-- Witness for C9 (amended): `exTableWF` is a well-formed single-table
input — root label `Root` over a nested table with label row `A` (leaf
`B`), an annotation row, and an unlabeled leaf row `C`; it has 3 label
rows and 1 implicitly created leaf child, and the build yields one root
of 4 nodes named `Root, A, B, C` in document order. -/
theorem claim_C9_witness :
    wellFormedTable exTableWF = true ∧
    labelRowsTable exTableWF = 3 ∧ namedLeafTable exTableWF = 1 ∧
    docNamesTable exTableWF = [ "Root", "A", "B", "C"] ∧
    ∃ root, build_tree exFetch0 0 exTableWF 0 = .ok [root] ∧
      psize root = labelRowsTable exTableWF + namedLeafTable exTableWF ∧
      preNames root = docNamesTable exTableWF :=
  ⟨by decide, by decide, by decide, by decide,
   claim_C9_amended exFetch0 exTableWF (by decide)⟩

theorem allNodesList_cons (c : PNode) (cs : List PNode) :
    PNode.allNodes.allNodesList (c :: cs)
      = c.allNodes ++ PNode.allNodes.allNodesList cs := rfl

theorem listsShape_of_builtOK (n : PNode) (h : builtOK n) : listsShape n := by
  intro m hm
  rcases (h m hm).2 with h1 | ⟨us, szs, h2, _⟩
  · exact Or.inl h1
  · exact Or.inr ⟨us, szs, h2⟩

theorem flatten_writes : ∀ n : PNode, FLnode n := by
  intro n0
  induction n0 using flatSpec.induct (motive_2 := FLlist) with
  | case1 nm s i d l m cs ih =>
    unfold FLnode
    unfold FLlist at ih
    intro hls
    have hcs := ih (by
      intro x hx
      exact hls x (by rw [allNodes_shape]; exact List.mem_cons_of_mem _ hx))
    rw [nhxFlattenNode.eq_def]
    simp only []
    rw [hcs]
    simp only []
    rw [flatSpec.eq_def]
    simp only []
    have hm := hls _ (self_mem_allNodes (PNode.mk nm s i d l m cs))
    simp only [PNode.media] at hm
    rcases hm with hm | ⟨us, szs, hm⟩ <;> rw [hm]
  | case2 =>
    unfold FLlist
    intro hls
    rw [nhxFlattenList.eq_def, flatSpecList.eq_def]
  | case3 c cs ih1 ih2 =>
    unfold FLlist
    unfold FLnode at ih1
    unfold FLlist at ih2
    intro hls
    rw [allNodesList_cons] at hls
    have h1 := ih1 (by
      intro x hx
      exact hls x (List.mem_append_left _ hx))
    have h2 := ih2 (by
      intro x hx
      exact hls x (List.mem_append_right _ hx))
    rw [nhxFlattenList.eq_def]
    simp only []
    rw [h1]
    simp only []
    rw [h2]
    simp only []
    conv_rhs => rw [flatSpecList.eq_def]

theorem flatSpec_flat : ∀ n : PNode, FFnode n := by
  intro n0
  induction n0 using flatSpec.induct (motive_2 := FFlist) with
  | case1 nm s i d l m cs ih =>
    unfold FFnode
    unfold FFlist at ih
    intro hls x hx
    have hcs := ih (by
      intro y hy
      exact hls y (by rw [allNodes_shape]; exact List.mem_cons_of_mem _ hy))
    rw [flatSpec.eq_def] at hx
    simp only [] at hx
    rw [allNodes_shape] at hx
    rcases List.mem_cons.mp hx with he | hx2
    · subst he
      simp only [PNode.media]
      have hm := hls _ (self_mem_allNodes (PNode.mk nm s i d l m cs))
      simp only [PNode.media] at hm
      rcases hm with hm | ⟨us, szs, hm⟩ <;> rw [hm]
      · exact Or.inl rfl
      · exact Or.inr ⟨_, _, rfl⟩
    · exact hcs x (by simpa [PNode.children] using hx2)
  | case2 =>
    unfold FFlist
    intro hls x hx
    rw [flatSpecList.eq_def] at hx
    cases hx
  | case3 c cs ih1 ih2 =>
    unfold FFlist
    unfold FFnode at ih1
    unfold FFlist at ih2
    intro hls x hx
    rw [allNodesList_cons] at hls
    rw [flatSpecList.eq_def] at hx
    simp only [] at hx
    rw [allNodesList_cons] at hx
    rcases List.mem_append.mp hx with hx1 | hx2
    · exact ih1 (by
        intro y hy
        exact hls y (List.mem_append_left _ hy)) x hx1
    · exact ih2 (by
        intro y hy
        exact hls y (List.mem_append_right _ hy)) x hx2

theorem second_write_dichotomy : ∀ n : PNode, T2node n := by
  intro n0
  induction n0 using flatSpec.induct (motive_2 := T2list) with
  | case1 nm s i d l m cs ih =>
    unfold T2node
    unfold T2list at ih
    intro hfs
    have hcs := ih (by
      intro x hx
      exact hfs x (by rw [allNodes_shape]; exact List.mem_cons_of_mem _ hx))
    rw [nhxFlattenNode.eq_def]
    simp only []
    rcases hcs with herr | ⟨cs1, hok⟩
    · rw [herr]
      exact Or.inl rfl
    · rw [hok]
      simp only []
      have hm := hfs _ (self_mem_allNodes (PNode.mk nm s i d l m cs))
      simp only [PNode.media] at hm
      rcases hm with hm | ⟨us, szs, hm⟩
      · rw [hm]
        simp only []
        exact Or.inr ⟨_, rfl⟩
      · rw [hm]
        simp only []
        by_cases hz : szs = ""
        · rw [if_pos hz]
          exact Or.inr ⟨_, rfl⟩
        · rw [if_neg hz]
          exact Or.inl rfl
  | case2 =>
    unfold T2list
    intro hfs
    exact Or.inr ⟨[], rfl⟩
  | case3 c cs ih1 ih2 =>
    unfold T2list
    unfold T2node at ih1
    unfold T2list at ih2
    intro hfs
    rw [allNodesList_cons] at hfs
    have h1 := ih1 (by
      intro x hx
      exact hfs x (List.mem_append_left _ hx))
    have h2 := ih2 (by
      intro x hx
      exact hfs x (List.mem_append_right _ hx))
    rw [nhxFlattenList.eq_def]
    simp only []
    rcases h1 with herr | ⟨c1, hok⟩
    · rw [herr]
      exact Or.inl rfl
    · rw [hok]
      simp only []
      rcases h2 with herr2 | ⟨cs1, hok2⟩
      · rw [herr2]
        exact Or.inl rfl
      · rw [hok2]
        exact Or.inr ⟨_, rfl⟩

theorem flat_nonempty_no_ok (m : PNode) (us szs : String)
    (hm : m.media = some (.flat us szs)) (hne : szs ≠ "") (n1 : PNode)
    (hok : nhxFlattenNode m = .ok n1) : False := by
  cases m with
  | mk nm s i d l md cs =>
    simp only [PNode.media] at hm
    subst hm
    rw [nhxFlattenNode.eq_def] at hok
    simp only [] at hok
    cases hl : nhxFlattenList cs with
    | error e =>
      rw [hl] at hok
      simp only [] at hok
      injection hok
    | ok cs1 =>
      rw [hl] at hok
      simp only [] at hok
      rw [if_neg hne] at hok
      injection hok

/-- Claim C10: the annotated (nhx) output path mutates the tree in
place.  For every root of a `build_tree` result: the write performs
exactly the `flatSpec` mutation — each node carrying an image feature
has its URL list replaced by the single space-joined string and its
(width, height) list by the single string of `x`-separated size tokens;
after the write no node holds the list-of-triples representation any
more (every remaining image feature is a pair of flattened strings); and
a second nhx write of the same object operates on those strings — on any
node whose flattened size string is non-empty it raises a TypeError. -/
theorem claim_C10_flatten (fetch : String → List Table) (recurs : Nat)
    (t : Table) (rc : Nat) (nodes : List PNode)
    (h : build_tree fetch recurs t rc = .ok nodes) (r : PNode)
    (hr : r ∈ nodes) :
    nhxFlattenNode r = .ok (flatSpec r) ∧
    (∀ m ∈ (flatSpec r).allNodes, isListsMedia m.media = false) ∧
    (∀ m ∈ (flatSpec r).allNodes,
      m.media = none ∨ ∃ us szs, m.media = some (.flat us szs)) ∧
    (∀ m ∈ (flatSpec r).allNodes, ∀ us szs,
      m.media = some (.flat us szs) → szs ≠ "" →
        nhxFlattenNode m = .error .typeError) := by
  have hbo := build_tree_builtOK fetch recurs t rc nodes h r hr
  have hls := listsShape_of_builtOK r hbo
  have hff := flatSpec_flat r
  unfold FFnode at hff
  have hshape := hff hls
  have hfw := flatten_writes r
  unfold FLnode at hfw
  refine ⟨hfw hls, ?_, hshape, ?_⟩
  · intro m hm
    rcases hshape m hm with h1 | ⟨us, szs, h2⟩
    · rw [h1]
      rfl
    · rw [h2]
      rfl
  · intro m hm us szs hmf hne
    have hsub : ∀ x ∈ m.allNodes,
        x.media = none ∨ ∃ u1 s1, x.media = some (.flat u1 s1) := by
      intro x hx
      exact hshape x
        (allNodes_trans (psize (flatSpec r)) (flatSpec r) (Nat.le_refl _)
          m hm x hx)
    have hd := second_write_dichotomy m
    unfold T2node at hd
    rcases hd hsub with herr | ⟨n1, hok⟩
    · exact herr
    · exact False.elim (flat_nonempty_no_ok m us szs hmf hne n1 hok)

/-- Witness for C10: on the single-row table `exTableYX`, the first nhx
write flattens the image feature of the root node to the joined strings
`img1.png` / `50x40`, the mutated tree carries no list-form feature, and
a second write of that object would hit the non-empty flattened size
string. -/
theorem claim_C10_witness :
    build_tree exFetch0 0 exTableYX 0 = .ok [exNodeYX] ∧
    exNodeYX ∈ [exNodeYX] ∧
    flatSpec exNodeYX = PNode.mk "Y" 1 [] (some 0) (some "/wiki/X")
      (some (.flat "img1.png" "50x40")) [leafChildNode "X"] ∧
    (nhxFlattenNode exNodeYX = .ok (flatSpec exNodeYX) ∧
     (∀ m ∈ (flatSpec exNodeYX).allNodes, isListsMedia m.media = false) ∧
     (∀ m ∈ (flatSpec exNodeYX).allNodes,
       m.media = none ∨ ∃ us szs, m.media = some (.flat us szs)) ∧
     (∀ m ∈ (flatSpec exNodeYX).allNodes, ∀ us szs,
       m.media = some (.flat us szs) → szs ≠ "" →
         nhxFlattenNode m = .error .typeError)) :=
  ⟨rfl, by simp, rfl,
   claim_C10_flatten exFetch0 0 exTableYX 0 [exNodeYX] rfl exNodeYX (by simp)⟩

theorem stripLit_append (lit r : List Char) : stripLit lit (lit ++ r) = some r := by
  induction lit with
  | nil => rfl
  | cons c cs ih =>
    rw [List.cons_append, stripLit.eq_def]
    simp only []
    simpa using ih

theorem parseValue_append (v : List Char) (d : Char) (r : List Char)
    (hv : ∀ c ∈ v, isValueStop c = false) (hd : isValueStop d = true) :
    parseValue (v ++ d :: r) = (v, d :: r) := by
  unfold parseValue
  rw [takeWhile_append_stop _ v d r (by intro c hc; simp [hv c hc]) (by simp [hd]),
    dropWhile_append_stop _ v d r (by intro c hc; simp [hv c hc]) (by simp [hd])]

theorem one_ne_halfRat : ¬((1 : Rat) = halfRat) := by decide

theorem parseSupportVal_sup (s : Rat) (hs : s = 1 ∨ s = halfRat) :
    parseSupportVal (supStr s) = some s := by
  rcases hs with hs | hs <;> subst hs <;> unfold supStr
  · rw [if_neg one_ne_halfRat]
    rfl
  · rw [if_pos rfl]
    rfl

/-- A quoted name is read back: the name must not contain a quote. -/
theorem parseName_quoted (n : String) (r : List Char)
    (hq : needsQuote n = true) (hn : n.toList.contains '\'' = false) :
    parseName (serName n ++ r) = some (n, r) := by
  have h1 : ∀ c ∈ n.toList, (fun c => decide (c ≠ '\'')) c = true := by
    intro c hc
    simp only [decide_eq_true_eq]
    intro hcq
    subst hcq
    simp [List.contains] at hn
    exact hn hc
  unfold serName
  rw [if_pos hq]
  simp only [List.cons_append, List.append_assoc, List.singleton_append]
  rw [parseName.eq_def]
  simp only [List.nil_append]
  rw [takeWhile_append_stop _ n.toList '\'' r h1 (by simp),
    dropWhile_append_stop _ n.toList '\'' r h1 (by simp)]
  simp only []
  rfl

theorem parseName_nonquote (l : List Char) (hl : l.head? ≠ some '\'') :
    parseName l = some (String.mk (l.takeWhile fun c => !structChars.contains c),
      l.dropWhile fun c => !structChars.contains c) := by
  cases l with
  | nil => rfl
  | cons c cs =>
    have hc : ¬(c = '\'') := by
      intro he
      exact hl (by rw [he]; rfl)
    rw [parseName.eq_def]
    split
    next rest heq =>
      exfalso
      injection heq with e1 e2
      exact hc e1
    next => rfl

theorem string_mk_toList (s : String) : String.mk s.toList = s := rfl

theorem splitBarAux_sep (v : List Char) (rest : List Char)
    (hv : '|' ∉ v) :
    ∀ cur, splitBarAux (v ++ '|' :: rest) cur
      = (cur.reverse ++ v) :: splitBarAux rest [] := by
  induction v with
  | nil =>
    intro cur
    rw [List.nil_append, splitBarAux.eq_def]
    simp
  | cons c cs ih =>
    intro cur
    have hc : ¬(c = '|') := fun he => hv (he ▸ List.mem_cons_self _ _)
    rw [List.cons_append, splitBarAux.eq_def]
    simp only []
    rw [if_neg hc, ih (fun hm => hv (List.mem_cons_of_mem _ hm))]
    simp

theorem splitBarAux_nosep (v : List Char) (hv : '|' ∉ v) :
    ∀ cur, splitBarAux v cur = [cur.reverse ++ v] := by
  induction v with
  | nil =>
    intro cur
    rw [splitBarAux.eq_def]
    simp
  | cons c cs ih =>
    intro cur
    have hc : ¬(c = '|') := fun he => hv (he ▸ List.mem_cons_self _ _)
    rw [splitBarAux.eq_def]
    simp only []
    rw [if_neg hc, ih (fun hm => hv (List.mem_cons_of_mem _ hm))]
    simp

theorem annOK_no_bar (s : String) (h : annOK s = true) : '|' ∉ s.toList := by
  unfold annOK at h
  rw [Bool.and_eq_true] at h
  intro hm
  have := List.all_eq_true.mp h.2 '|' hm
  simp at this

theorem annOK_ne_empty (s : String) (h : annOK s = true) : s.toList ≠ [] := by
  unfold annOK at h
  rw [Bool.and_eq_true] at h
  intro he
  have h1 := h.1
  cases s with
  | mk data =>
    simp only [String.toList] at he
    subst he
    revert h1
    decide

theorem splitBar_inv (info : List String) (h : info.all annOK = true) :
    splitBarVal (joinBarL (info.map String.toList)) = info := by
  induction info with
  | nil => rfl
  | cons x xs ih =>
    have hx : annOK x = true := by
      rw [List.all_cons, Bool.and_eq_true] at h
      exact h.1
    have hxs : xs.all annOK = true := by
      rw [List.all_cons, Bool.and_eq_true] at h
      exact h.2
    cases xs with
    | nil =>
      show splitBarVal (joinBarL [x.toList]) = [x]
      rw [joinBarL.eq_def]
      simp only []
      unfold splitBarVal
      rw [if_neg (by simpa using annOK_ne_empty x hx)]
      rw [splitBarAux_nosep x.toList (annOK_no_bar x hx) []]
      simp [string_mk_toList]
    | cons y ys =>
      show splitBarVal (joinBarL (x.toList :: (y :: ys).map String.toList)) = x :: y :: ys
      simp only [List.map_cons]
      rw [joinBarL.eq_def]
      simp only []
      unfold splitBarVal
      rw [if_neg ?hne]
      rw [splitBarAux_sep x.toList _ (annOK_no_bar x hx) []]
      case hne =>
        intro hemp
        rcases hlx : x.toList with _ | ⟨c, cs⟩
        · exact annOK_ne_empty x hx hlx
        · rw [hlx] at hemp
          simp at hemp
      simp only [List.reverse_nil, List.nil_append, string_mk_toList]
      have hrec := ih hxs
      simp only [List.map_cons] at hrec
      unfold splitBarVal at hrec
      have hy : annOK y = true := by
        rw [List.all_cons, Bool.and_eq_true] at hxs
        exact hxs.1
      rw [if_neg ?hne2] at hrec
      case hne2 =>
        rw [joinBarL.eq_def]
        cases ys with
        | nil =>
          simp only [List.map_cons, List.map_nil]
          simpa using annOK_ne_empty y hy
        | cons z zs =>
          simp only [List.map_cons]
          intro hemp
          rcases hly : y.toList with _ | ⟨c, cs⟩
          · exact annOK_ne_empty y hy hly
          · rw [hly] at hemp
            simp at hemp
      rw [List.map_cons, string_mk_toList, hrec]

theorem parseValue_append_head (v w : List Char)
    (hv : ∀ c ∈ v, isValueStop c = false)
    (hw : ∃ d r, w = d :: r ∧ isValueStop d = true) :
    parseValue (v ++ w) = (v, w) := by
  obtain ⟨d, r, he, hd⟩ := hw
  subst he
  exact parseValue_append v d r hv hd

theorem supStr_no_stop (s : Rat) : ∀ c ∈ supStr s, isValueStop c = false := by
  unfold supStr
  split_ifs <;> decide

theorem valOK_no_stop (v : String) (h : valOK v = true) :
    ∀ c ∈ v.toList, isValueStop c = false := by
  unfold valOK at h
  intro c hc
  simpa using List.all_eq_true.mp h c hc

theorem annOK_no_stop (x : String) (h : annOK x = true) :
    ∀ c ∈ x.toList, isValueStop c = false := by
  unfold annOK at h
  rw [Bool.and_eq_true] at h
  intro c hc
  have := List.all_eq_true.mp h.2 c hc
  simp only [Bool.not_eq_true', Bool.or_eq_false_iff] at this
  exact this.1

theorem joinBar_no_stop (info : List String) (h : info.all annOK = true) :
    ∀ c ∈ joinBarL (info.map String.toList), isValueStop c = false := by
  induction info with
  | nil =>
    intro c hc
    cases hc
  | cons x xs ih =>
    have hx : annOK x = true := by
      rw [List.all_cons, Bool.and_eq_true] at h
      exact h.1
    have hxs : xs.all annOK = true := by
      rw [List.all_cons, Bool.and_eq_true] at h
      exact h.2
    cases xs with
    | nil =>
      intro c hc
      exact annOK_no_stop x hx c (by simpa using hc)
    | cons y ys =>
      intro c hc
      simp only [List.map_cons] at hc
      rw [joinBarL.eq_def] at hc
      simp only [] at hc
      rcases List.mem_append.mp hc with hc1 | hc2
      · exact annOK_no_stop x hx c hc1
      · rcases List.mem_cons.mp hc2 with he | hc3
        · subst he
          rfl
        · exact ih hxs c (by simpa using hc3)

theorem stripLit_link_imgs (x : List Char) :
    stripLit ( ":link=").toList (( ":imgs=").toList ++ x) = none := by rfl

theorem stripLit_link_rbracket (x : List Char) :
    stripLit ( ":link=").toList (( "]").toList ++ x) = none := by rfl

theorem stripLit_imgs_rbracket (x : List Char) :
    stripLit ( ":imgs=").toList (( "]").toList ++ x) = none := by rfl

theorem parseValue_lit_info (v x : List Char)
    (hv : ∀ c ∈ v, isValueStop c = false) :
    parseValue (v ++ (( ":info=").toList ++ x)) = (v, ( ":info=").toList ++ x) :=
  parseValue_append_head v _ hv ⟨':', _, rfl, rfl⟩

theorem parseValue_lit_link (v x : List Char)
    (hv : ∀ c ∈ v, isValueStop c = false) :
    parseValue (v ++ (( ":link=").toList ++ x)) = (v, ( ":link=").toList ++ x) :=
  parseValue_append_head v _ hv ⟨':', _, rfl, rfl⟩

theorem parseValue_lit_imgs (v x : List Char)
    (hv : ∀ c ∈ v, isValueStop c = false) :
    parseValue (v ++ (( ":imgs=").toList ++ x)) = (v, ( ":imgs=").toList ++ x) :=
  parseValue_append_head v _ hv ⟨':', _, rfl, rfl⟩

theorem parseValue_lit_imgsizes (v x : List Char)
    (hv : ∀ c ∈ v, isValueStop c = false) :
    parseValue (v ++ (( ":imgsizes=").toList ++ x))
      = (v, ( ":imgsizes=").toList ++ x) :=
  parseValue_append_head v _ hv ⟨':', _, rfl, rfl⟩

theorem parseValue_lit_rbracket (v x : List Char)
    (hv : ∀ c ∈ v, isValueStop c = false) :
    parseValue (v ++ (( "]").toList ++ x)) = (v, ( "]").toList ++ x) :=
  parseValue_append_head v _ hv ⟨']', _, rfl, rfl⟩

theorem parseNHX_ser (s : Rat) (info : List String) (link : Option String)
    (m : Option Media) (rest : List Char)
    (hs : s = 1 ∨ s = halfRat) (hi : info.all annOK = true)
    (hl : ∀ lv, link = some lv → valOK lv = true)
    (hm : ∀ x, m = some x → ∃ us szs, x = .flat us szs
      ∧ valOK us = true ∧ valOK szs = true) :
    parseNHX (serFields s info link m ++ rest)
      = some (s, info, link, m, rest) := by
  rcases link with _ | lv <;> rcases m with _ | mm
  · -- link none, media none
    unfold serFields
    simp only [List.append_assoc, List.nil_append, List.append_nil]
    unfold parseNHX
    rw [stripLit_append]
    simp only []
    rw [parseValue_lit_info (supStr s) _ (supStr_no_stop s)]
    simp only []
    rw [parseSupportVal_sup s hs]
    simp only []
    rw [stripLit_append]
    simp only []
    rw [parseValue_lit_rbracket (joinBarL (info.map String.toList)) _
      (joinBar_no_stop info hi)]
    simp only []
    rw [stripLit_link_rbracket]
    simp only []
    rw [stripLit_imgs_rbracket]
    simp only []
    rw [stripLit_append]
    simp only []
    rw [splitBar_inv info hi]
  · -- link none, media some
    obtain ⟨us, szs, hmm, hus, hszs⟩ := hm mm rfl
    subst hmm
    unfold serFields
    simp only [List.append_assoc, List.nil_append, List.append_nil]
    unfold parseNHX
    rw [stripLit_append]
    simp only []
    rw [parseValue_lit_info (supStr s) _ (supStr_no_stop s)]
    simp only []
    rw [parseSupportVal_sup s hs]
    simp only []
    rw [stripLit_append]
    simp only []
    rw [parseValue_lit_imgs (joinBarL (info.map String.toList)) _
      (joinBar_no_stop info hi)]
    simp only []
    rw [stripLit_link_imgs]
    simp only []
    rw [stripLit_append]
    simp only []
    rw [parseValue_lit_imgsizes us.toList _ (valOK_no_stop us hus)]
    simp only []
    rw [stripLit_append]
    simp only []
    rw [parseValue_lit_rbracket szs.toList _ (valOK_no_stop szs hszs)]
    simp only []
    rw [stripLit_append]
    simp only []
    rw [splitBar_inv info hi, string_mk_toList, string_mk_toList]
  · -- link some, media none
    have hlv : valOK lv = true := hl lv rfl
    unfold serFields
    simp only [List.append_assoc, List.nil_append, List.append_nil]
    unfold parseNHX
    rw [stripLit_append]
    simp only []
    rw [parseValue_lit_info (supStr s) _ (supStr_no_stop s)]
    simp only []
    rw [parseSupportVal_sup s hs]
    simp only []
    rw [stripLit_append]
    simp only []
    rw [parseValue_lit_link (joinBarL (info.map String.toList)) _
      (joinBar_no_stop info hi)]
    simp only []
    rw [stripLit_append]
    simp only []
    rw [parseValue_lit_rbracket lv.toList _ (valOK_no_stop lv hlv)]
    simp only []
    rw [stripLit_imgs_rbracket]
    simp only []
    rw [stripLit_append]
    simp only []
    rw [splitBar_inv info hi, string_mk_toList]
  · -- link some, media some
    have hlv : valOK lv = true := hl lv rfl
    obtain ⟨us, szs, hmm, hus, hszs⟩ := hm mm rfl
    subst hmm
    unfold serFields
    simp only [List.append_assoc, List.nil_append, List.append_nil]
    unfold parseNHX
    rw [stripLit_append]
    simp only []
    rw [parseValue_lit_info (supStr s) _ (supStr_no_stop s)]
    simp only []
    rw [parseSupportVal_sup s hs]
    simp only []
    rw [stripLit_append]
    simp only []
    rw [parseValue_lit_link (joinBarL (info.map String.toList)) _
      (joinBar_no_stop info hi)]
    simp only []
    rw [stripLit_append]
    simp only []
    rw [parseValue_lit_imgs lv.toList _ (valOK_no_stop lv hlv)]
    simp only []
    rw [stripLit_append]
    simp only []
    rw [parseValue_lit_imgsizes us.toList _ (valOK_no_stop us hus)]
    simp only []
    rw [stripLit_append]
    simp only []
    rw [parseValue_lit_rbracket szs.toList _ (valOK_no_stop szs hszs)]
    simp only []
    rw [stripLit_append]
    simp only []
    rw [splitBar_inv info hi, string_mk_toList, string_mk_toList,
      string_mk_toList]

theorem digit_not_stop (c : Char) (h : c.isDigit = true) :
    isValueStop c = false := by
  by_contra hs
  simp only [Bool.not_eq_false] at hs
  unfold isValueStop at hs
  rw [Bool.or_eq_true] at hs
  rcases hs with hs | hs <;> rw [decide_eq_true_eq] at hs <;> subst hs <;>
    simp [Char.isDigit] at h

theorem valOK_of_chars (v : String)
    (h : ∀ c ∈ v.toList, isValueStop c = false) : valOK v = true := by
  unfold valOK
  rw [List.all_eq_true]
  intro c hc
  simp [h c hc]

theorem joinSpace_chars (l : List String)
    (h : ∀ x ∈ l, ∀ c ∈ x.toList, isValueStop c = false) :
    ∀ c ∈ (joinSpace l).toList, isValueStop c = false := by
  induction l with
  | nil => intro c hc; cases hc
  | cons x xs ih =>
    cases xs with
    | nil =>
      intro c hc
      exact h x (List.mem_cons_self _ _) c (by
        rw [joinSpace.eq_def] at hc
        simpa using hc)
    | cons y ys =>
      intro c hc
      rw [joinSpace.eq_def] at hc
      simp only [] at hc
      rw [string_toList_append, string_toList_append] at hc
      rcases List.mem_append.mp hc with hc1 | hc2
      · rcases List.mem_append.mp hc1 with hc3 | hc4
        · exact h x (List.mem_cons_self _ _) c hc3
        · have : c = ' ' := by simpa using hc4
          subst this
          rfl
      · exact ih (fun z hz => h z (List.mem_cons_of_mem _ hz)) c hc2

theorem urlOK_chars (x : String) (h : urlOK x = true) :
    ∀ c ∈ x.toList, isValueStop c = false := by
  unfold urlOK at h
  rw [Bool.and_eq_true] at h
  intro c hc
  have := List.all_eq_true.mp h.2 c hc
  simp only [Bool.not_eq_true', Bool.or_eq_false_iff] at this
  exact this.1

theorem sizeTok_chars (p : String × String) (h : szOK p = true) :
    ∀ c ∈ (sizeTok p).toList, isValueStop c = false := by
  unfold szOK at h
  rw [Bool.and_eq_true] at h
  unfold sizeTok
  intro c hc
  rw [string_toList_append, string_toList_append] at hc
  have h1 := h.1
  have h2 := h.2
  unfold strIsDigitL at h1 h2
  rw [Bool.and_eq_true] at h1 h2
  rcases List.mem_append.mp hc with hc1 | hc2
  · rcases List.mem_append.mp hc1 with hc3 | hc4
    · exact digit_not_stop c (List.all_eq_true.mp h1.2 c hc3)
    · have : c = 'x' := by simpa using hc4
      subst this
      rfl
  · exact digit_not_stop c (List.all_eq_true.mp h2.2 c hc2)

theorem joined_urls_valOK (us : List String) (h : us.all urlOK = true) :
    valOK (joinSpace us) = true :=
  valOK_of_chars _ (joinSpace_chars us fun x hx =>
    urlOK_chars x (List.all_eq_true.mp h x hx))

theorem joined_sizes_valOK (szs : List (String × String))
    (h : szs.all szOK = true) :
    valOK (joinSpace (szs.map sizeTok)) = true := by
  refine valOK_of_chars _ (joinSpace_chars _ ?_)
  intro x hx
  obtain ⟨p, hp, he⟩ := List.mem_map.mp hx
  subst he
  exact sizeTok_chars p (List.all_eq_true.mp h p hp)

theorem nhxRoundOK_parts (n : String) (s : Rat) (i : List String)
    (d : Option Nat) (l : Option String) (m : Option Media) (cs : List PNode)
    (h : nhxRoundOK (.mk n s i d l m cs) = true) :
    n.toList.contains '\'' = false ∧ (s = 1 ∨ s = halfRat) ∧
    i.all annOK = true ∧
    (∀ lv, l = some lv → valOK lv = true) ∧
    (∀ x, m = some x → ∃ us szs, x = .lists us szs ∧ us.all urlOK = true ∧
      szs.all szOK = true ∧ us.length = szs.length) ∧
    nhxRoundOKList cs = true := by
  rw [nhxRoundOK.eq_def] at h
  simp only [] at h
  rw [Bool.and_eq_true, Bool.and_eq_true, Bool.and_eq_true, Bool.and_eq_true,
    Bool.and_eq_true] at h
  obtain ⟨⟨⟨⟨⟨h1, h2⟩, h3⟩, h4⟩, h5⟩, h6⟩ := h
  refine ⟨by simpa using h1, ?_, h3, ?_, ?_, h6⟩
  · rw [Bool.or_eq_true, decide_eq_true_eq, decide_eq_true_eq] at h2
    exact h2
  · intro lv hlv
    subst hlv
    exact h4
  · intro x hx
    subst hx
    cases x with
    | lists us szs =>
      rw [Bool.and_eq_true, Bool.and_eq_true] at h5
      exact ⟨us, szs, rfl, h5.1.1, h5.1.2, by
        have := h5.2
        rwa [decide_eq_true_eq] at this⟩
    | flat us szs => exact Bool.noConfusion h5
    | parsed us szs => exact Bool.noConfusion h5

theorem serName_head_ne (n : String) (x : List Char) :
    ∀ r, ¬(serName n ++ (( "[&&NHX:support=").toList ++ x) = '(' :: r) := by
  intro r he
  unfold serName at he
  by_cases hq : needsQuote n
  · rw [if_pos hq] at he
    injection he with he1 he2
    exact absurd he1 (by decide)
  · rw [if_neg hq] at he
    cases hl : n.toList with
    | nil =>
      rw [hl] at he
      injection he with he1 he2
      exact absurd he1 (by decide)
    | cons c cs =>
      rw [hl] at he
      rw [List.cons_append] at he
      injection he with he1 he2
      subst he1
      have : needsQuote n = true := by
        unfold needsQuote
        refine List.any_eq_true.mpr ⟨'(', ?_, by rfl⟩
        rw [hl]
        exact List.mem_cons_self _ _
      exact hq this

theorem parseNodeF_succ_cons (f : Nat) (c : Char) (cs : List Char)
    (hc : ¬(c = '(')) :
    parseNodeF (f + 1) (c :: cs) =
      match parseName (c :: cs) with
      | none => none
      | some (nm, r2) =>
        match parseNHX r2 with
        | none => none
        | some (sup, info, link, media, r3) =>
          some (.mk nm sup info none link media [], r3) := by
  rw [parseNodeF.eq_def]
  simp only []
  split
  next rest heq =>
    exfalso
    injection heq with e1 e2
    exact hc e1
  next => rfl

theorem parseNodeF_succ_default (f : Nat) (l : List Char)
    (hl : ∀ r, ¬(l = '(' :: r)) :
    parseNodeF (f + 1) l =
      match parseName l with
      | none => none
      | some (nm, r2) =>
        match parseNHX r2 with
        | none => none
        | some (sup, info, link, media, r3) =>
          some (.mk nm sup info none link media [], r3) := by
  cases l with
  | nil => rfl
  | cons c cs =>
    exact parseNodeF_succ_cons f c cs fun he => hl cs (by rw [he])

theorem parseName_ser (n : String) (x : List Char)
    (hn : n.toList.contains '\'' = false) :
    parseName (serName n ++ (( "[&&NHX:support=").toList ++ x))
      = some (n, ( "[&&NHX:support=").toList ++ x) := by
  by_cases hq : needsQuote n
  · exact parseName_quoted n _ hq hn
  · have hnc : ∀ c ∈ n.toList, (fun c => !structChars.contains c) c = true := by
      intro c hc
      by_contra hcc
      simp only [Bool.not_eq_true, Bool.not_eq_false] at hcc
      have : needsQuote n = true := by
        unfold needsQuote
        exact List.any_eq_true.mpr ⟨c, hc, by simpa using hcc⟩
      rw [this] at hq
      exact hq rfl
    have hne : (serName n ++ (( "[&&NHX:support=").toList ++ x)).head?
        ≠ some '\'' := by
      unfold serName
      rw [if_neg (by simp [hq])]
      cases hl : n.toList with
      | nil =>
        intro he
        injection he with he1
        exact absurd he1 (by decide)
      | cons c cs =>
        rw [List.cons_append]
        intro he
        injection he with he1
        have hc := hnc c (by rw [hl]; exact List.mem_cons_self _ _)
        rw [he1] at hc
        exact Bool.noConfusion hc
    rw [parseName_nonquote _ hne]
    unfold serName
    rw [if_neg (by simp [hq])]
    show some (String.mk ((n.toList ++ ('[' :: (( "&&NHX:support=").toList ++ x))).takeWhile
        fun c => !structChars.contains c),
      (n.toList ++ ('[' :: (( "&&NHX:support=").toList ++ x))).dropWhile
        fun c => !structChars.contains c) = _
    rw [takeWhile_append_stop _ n.toList '[' _ hnc (by rfl),
      dropWhile_append_stop _ n.toList '[' _ hnc (by rfl)]
    rfl

theorem serFields_shape (s : Rat) (i : List String) (l : Option String)
    (m : Option Media) :
    ∃ y, serFields s i l m = ( "[&&NHX:support=").toList ++ y := by
  unfold serFields
  simp only [List.append_assoc]
  exact ⟨_, rfl⟩

theorem parse_ser_leaf (n : String) (s : Rat) (i : List String)
    (l : Option String) (m1 : Option Media) (f : Nat) (rest : List Char)
    (hn : n.toList.contains '\'' = false) (hs : s = 1 ∨ s = halfRat)
    (hi : i.all annOK = true) (hl : ∀ lv, l = some lv → valOK lv = true)
    (hm1 : ∀ x, m1 = some x → ∃ us szs, x = .flat us szs
      ∧ valOK us = true ∧ valOK szs = true) :
    parseNodeF (f + 1) (serName n ++ (serFields s i l m1 ++ rest))
      = some (.mk n s i none l m1 [], rest) := by
  obtain ⟨y, hy⟩ := serFields_shape s i l m1
  rw [hy, List.append_assoc]
  rw [parseNodeF_succ_default f _ (serName_head_ne n _)]
  rw [parseName_ser n _ hn]
  simp only []
  rw [← List.append_assoc, ← hy]
  rw [parseNHX_ser s i l m1 rest hs hi hl hm1]

theorem parse_ser_parent (n : String) (s : Rat) (i : List String)
    (l : Option String) (m1 : Option Media) (f : Nat) (rest : List Char)
    (A : List Char) (csP : List PNode)
    (hn : n.toList.contains '\'' = false) (hs : s = 1 ∨ s = halfRat)
    (hi : i.all annOK = true) (hl : ∀ lv, l = some lv → valOK lv = true)
    (hm1 : ∀ x, m1 = some x → ∃ us szs, x = .flat us szs
      ∧ valOK us = true ∧ valOK szs = true)
    (hA : parseChildrenF f (A ++ ')' :: (serName n ++ (serFields s i l m1 ++ rest)))
      = some (csP, serName n ++ (serFields s i l m1 ++ rest))) :
    parseNodeF (f + 1)
        ('(' :: (A ++ ')' :: (serName n ++ (serFields s i l m1 ++ rest))))
      = some (.mk n s i none l m1 csP, rest) := by
  rw [parseNodeF.eq_def]
  simp only []
  rw [hA]
  simp only []
  obtain ⟨y, hy⟩ := serFields_shape s i l m1
  rw [hy, List.append_assoc]
  rw [parseName_ser n _ hn]
  simp only []
  rw [← List.append_assoc, ← hy]
  rw [parseNHX_ser s i l m1 rest hs hi hl hm1]

theorem parse_ser : ∀ t : PNode, PARnode t := by
  intro t0
  induction t0 using flatSpec.induct (motive_2 := PARlist) with
  | case1 n s i d l m cs ih =>
    unfold PARnode
    unfold PARlist at ih
    intro hok fuel rest hfuel
    obtain ⟨hn, hs, hi, hl, hm, hcs⟩ := nhxRoundOK_parts n s i d l m cs hok
    rw [show serFuel (PNode.mk n s i d l m cs) = 1 + serFuelList cs from rfl]
      at hfuel
    cases fuel with
    | zero => omega
    | succ f =>
      rcases m with _ | mm
      · have hm1 : ∀ x, (none : Option Media) = some x →
            ∃ us szs, x = Media.flat us szs
              ∧ valOK us = true ∧ valOK szs = true :=
          fun x hx => Option.noConfusion hx
        cases cs with
        | nil =>
          rw [flatSpec.eq_def, pexpNode.eq_def]
          simp only []
          rw [serNode.eq_def]
          simp only []
          rw [if_pos (by rw [flatSpecList.eq_def]; rfl), List.nil_append,
            List.append_assoc]
          rw [parse_ser_leaf n s i l none f rest hn hs hi hl hm1]
          rw [pexpList.eq_def]
        | cons c cs1 =>
          rw [flatSpec.eq_def, pexpNode.eq_def]
          simp only []
          rw [serNode.eq_def]
          simp only []
          rw [if_neg (by
            rw [flatSpecList.eq_def]
            simp only []
            simp)]
          simp only [List.cons_append, List.append_assoc,
            List.singleton_append, List.nil_append]
          rw [parse_ser_parent n s i l none f rest _ _ hn hs hi hl hm1
            (ih hcs (by simp) f _ (by omega))]
      · obtain ⟨us, szs, hmm, hus, hszs, hlen⟩ := hm mm rfl
        subst hmm
        have hm1 : ∀ x,
            some (Media.flat (joinSpace us) (joinSpace (szs.map sizeTok)))
              = some x →
            ∃ u1 s1, x = Media.flat u1 s1
              ∧ valOK u1 = true ∧ valOK s1 = true := by
          intro x hx
          injection hx with hx1
          exact ⟨_, _, hx1.symm, joined_urls_valOK us hus,
            joined_sizes_valOK szs hszs⟩
        cases cs with
        | nil =>
          rw [flatSpec.eq_def, pexpNode.eq_def]
          simp only []
          rw [serNode.eq_def]
          simp only []
          rw [if_pos (by rw [flatSpecList.eq_def]; rfl), List.nil_append,
            List.append_assoc]
          rw [parse_ser_leaf n s i l _ f rest hn hs hi hl hm1]
          rw [pexpList.eq_def]
        | cons c cs1 =>
          rw [flatSpec.eq_def, pexpNode.eq_def]
          simp only []
          rw [serNode.eq_def]
          simp only []
          rw [if_neg (by
            rw [flatSpecList.eq_def]
            simp only []
            simp)]
          simp only [List.cons_append, List.append_assoc,
            List.singleton_append, List.nil_append]
          rw [parse_ser_parent n s i l _ f rest _ _ hn hs hi hl hm1
            (ih hcs (by simp) f _ (by omega))]
  | case2 =>
    unfold PARlist
    intro hok hne
    exact absurd rfl hne
  | case3 c cs1 ih1 ih2 =>
    unfold PARlist
    unfold PARnode at ih1
    unfold PARlist at ih2
    intro hok hne fuel rest hfuel
    have hparts : nhxRoundOK c = true ∧ nhxRoundOKList cs1 = true := by
      rw [nhxRoundOKList.eq_def] at hok
      simp only [] at hok
      rw [Bool.and_eq_true] at hok
      exact hok
    rw [show serFuelList (c :: cs1) = 1 + serFuel c + serFuelList cs1 from rfl]
      at hfuel
    cases fuel with
    | zero => omega
    | succ f =>
      rw [flatSpecList.eq_def, pexpList.eq_def]
      simp only []
      cases cs1 with
      | nil =>
        rw [flatSpecList.eq_def]
        simp only []
        rw [serChildren.eq_def]
        simp only []
        rw [parseChildrenF.eq_def]
        simp only []
        rw [ih1 hparts.1 f (')' :: rest) (by omega)]
        simp only []
        rw [pexpList.eq_def]
      | cons c2 cs2 =>
        rw [flatSpecList.eq_def]
        simp only []
        rw [serChildren.eq_def]
        simp only []
        simp only [List.cons_append, List.append_assoc]
        rw [parseChildrenF.eq_def]
        simp only []
        rw [ih1 hparts.1 f _ (by omega)]
        simp only []
        have h2 := ih2 hparts.2 (by simp) f rest (by omega)
        rw [flatSpecList.eq_def] at h2
        simp only [] at h2
        rw [pexpList.eq_def] at h2
        simp only [] at h2
        rw [h2]
        simp only []
        conv_rhs => rw [pexpList.eq_def]

theorem serFields_len (s : Rat) (i : List String) (l : Option String)
    (m : Option Media) : 1 ≤ (serFields s i l m).length := by
  unfold serFields
  simp [List.length_append]

theorem serNode_len (x : PNode) : 1 ≤ (serNode x).length := by
  cases x with
  | mk n s i d l m cs =>
    rw [serNode.eq_def]
    simp only []
    have := serFields_len s i l m
    simp [List.length_append]
    omega

theorem serFuel_bound : ∀ t : PNode, FBnode t := by
  intro t0
  induction t0 using flatSpec.induct (motive_2 := FBlist) with
  | case1 n s i d l m cs ih =>
    unfold FBnode
    unfold FBlist at ih
    rw [show serFuel (PNode.mk n s i d l m cs) = 1 + serFuelList cs from rfl]
    cases cs with
    | nil =>
      rw [show serFuelList ([] : List PNode) = 0 from rfl]
      have := serNode_len (flatSpec (PNode.mk n s i d l none []))
      have h2 := serNode_len (flatSpec (PNode.mk n s i d l m []))
      omega
    | cons c cs1 =>
      rw [flatSpec.eq_def]
      simp only []
      rw [serNode.eq_def]
      simp only []
      rw [if_neg (by
        rw [flatSpecList.eq_def]
        simp only []
        simp)]
      have h1 := ih (by simp)
      simp [List.length_append]
      omega
  | case2 =>
    unfold FBlist
    intro hne
    exact absurd rfl hne
  | case3 c cs1 ih1 ih2 =>
    unfold FBlist
    unfold FBnode at ih1
    unfold FBlist at ih2
    intro hne
    rw [show serFuelList (c :: cs1) = 1 + serFuel c + serFuelList cs1 from rfl]
    rw [flatSpecList.eq_def]
    simp only []
    cases cs1 with
    | nil =>
      rw [flatSpecList.eq_def]
      simp only []
      rw [serChildren.eq_def]
      simp only []
      rw [show serFuelList ([] : List PNode) = 0 from rfl]
      have := serNode_len (flatSpec c)
      omega
    | cons c2 cs2 =>
      rw [flatSpecList.eq_def]
      simp only []
      rw [serChildren.eq_def]
      simp only []
      have h2 := ih2 (by simp)
      rw [flatSpecList.eq_def] at h2
      simp only [] at h2
      simp only [List.length_append, List.length_cons] at h2 ⊢
      omega

theorem parseTree_ser (t : PNode) (h : nhxRoundOK t = true) :
    parseTree (serTree (flatSpec t)) = some (pexpNode t) := by
  unfold parseTree serTree
  have hlen : serFuel t ≤ (serNode (flatSpec t) ++ [';']).length := by
    have := serFuel_bound t
    unfold FBnode at this
    simp [List.length_append]
    omega
  have hp := parse_ser t
  unfold PARnode at hp
  rw [hp h _ [';'] hlen]
  simp

theorem digit_ne_x (c : Char) (h : c.isDigit = true) : ¬(c = 'x') := by
  intro he
  subst he
  exact absurd h (by decide)

theorem digit_not_ws (c : Char) (h : c.isDigit = true) :
    c.isWhitespace = false := by
  by_contra hw
  simp only [Bool.not_eq_false] at hw
  simp only [Char.isWhitespace, Bool.or_eq_true, decide_eq_true_eq] at hw
  obtain ((hw | hw) | hw) | hw := hw <;> subst hw <;> exact absurd h (by decide)

theorem wsSplitAux_sep (rest : List Char) :
    ∀ (c : Char) (cs : List Char), (∀ x ∈ c :: cs, x.isWhitespace = false) →
    ∀ cur, wsSplitAux ((c :: cs) ++ ' ' :: rest) cur
      = (cur.reverse ++ c :: cs) :: wsSplitAux rest [] := by
  intro c cs
  induction cs generalizing c with
  | nil =>
    intro hv cur
    rw [List.cons_append, List.nil_append, wsSplitAux.eq_def]
    simp only []
    rw [if_neg (by simp [hv c (List.mem_cons_self _ _)])]
    rw [wsSplitAux.eq_def]
    simp only []
    rw [if_pos (by decide), if_neg (by simp)]
    simp
  | cons c2 cs2 ih =>
    intro hv cur
    rw [List.cons_append, wsSplitAux.eq_def]
    simp only []
    rw [if_neg (by simp [hv c (List.mem_cons_self _ _)])]
    rw [ih c2 (fun x hx => hv x (List.mem_cons_of_mem _ hx)) (c :: cur)]
    simp

theorem wsSplitAux_last :
    ∀ (c : Char) (cs : List Char), (∀ x ∈ c :: cs, x.isWhitespace = false) →
    ∀ cur, wsSplitAux (c :: cs) cur = [cur.reverse ++ c :: cs] := by
  intro c cs
  induction cs generalizing c with
  | nil =>
    intro hv cur
    rw [wsSplitAux.eq_def]
    simp only []
    rw [if_neg (by simp [hv c (List.mem_cons_self _ _)])]
    rw [wsSplitAux.eq_def]
    simp only []
    rw [if_neg (by simp)]
    simp
  | cons c2 cs2 ih =>
    intro hv cur
    rw [wsSplitAux.eq_def]
    simp only []
    rw [if_neg (by simp [hv c (List.mem_cons_self _ _)])]
    rw [ih c2 (fun x hx => hv x (List.mem_cons_of_mem _ hx)) (c :: cur)]
    simp

theorem pySplitWs_joinSpace (l : List String)
    (h : ∀ x ∈ l, x.toList ≠ [] ∧ ∀ c ∈ x.toList, c.isWhitespace = false) :
    pySplitWs (joinSpace l) = l := by
  induction l with
  | nil => rfl
  | cons x xs ih =>
    obtain ⟨hxne, hxws⟩ := h x (List.mem_cons_self _ _)
    cases xs with
    | nil =>
      show pySplitWs (joinSpace [x]) = [x]
      rw [joinSpace.eq_def]
      simp only []
      unfold pySplitWs
      rcases hlx : x.toList with _ | ⟨c, cs⟩
      · exact absurd hlx hxne
      · rw [wsSplitAux_last c cs (by rw [← hlx]; exact hxws) []]
        simp [← hlx, string_mk_toList]
    | cons y ys =>
      show pySplitWs (joinSpace (x :: y :: ys)) = x :: y :: ys
      rw [joinSpace.eq_def]
      simp only []
      unfold pySplitWs
      rw [string_toList_append, string_toList_append]
      rcases hlx : x.toList with _ | ⟨c, cs⟩
      · exact absurd hlx hxne
      · rw [List.append_assoc]
        rw [show ( " ").toList ++ (joinSpace (y :: ys)).toList
          = ' ' :: (joinSpace (y :: ys)).toList from rfl]
        rw [wsSplitAux_sep _ c cs (by rw [← hlx]; exact hxws) []]
        have hrec := ih (fun z hz => h z (List.mem_cons_of_mem _ hz))
        unfold pySplitWs at hrec
        rw [List.map_cons]
        rw [hrec]
        simp [← hlx, string_mk_toList]

theorem parseSizeTok_tok (p : String × String) (h : szOK p = true) :
    parseSizeTok (sizeTok p) = .ok (natOfDigits p.1, natOfDigits p.2) := by
  have h1 := h
  unfold szOK at h1
  rw [Bool.and_eq_true] at h1
  have hd1 := h1.1
  have hd2 := h1.2
  unfold strIsDigitL at hd1 hd2
  rw [Bool.and_eq_true] at hd1 hd2
  have hnx : ∀ c ∈ p.1.toList, (fun c => decide (c ≠ 'x')) c = true := by
    intro c hc
    simp only [decide_eq_true_eq]
    exact digit_ne_x c (List.all_eq_true.mp hd1.2 c hc)
  unfold parseSizeTok
  rw [show (sizeTok p).toList = p.1.toList ++ 'x' :: p.2.toList by
    unfold sizeTok
    rw [string_toList_append, string_toList_append, List.append_assoc]
    rfl]
  rw [dropWhile_append_stop _ p.1.toList 'x' _ hnx (by simp),
    takeWhile_append_stop _ p.1.toList 'x' _ hnx (by simp)]
  simp only []
  rw [if_pos (by rw [Bool.and_eq_true]; exact ⟨h1.1, h1.2⟩)]
  rfl

theorem parseSizes_toks (szs : List (String × String))
    (h : szs.all szOK = true) :
    parseSizes (szs.map sizeTok)
      = .ok (szs.map fun p => (natOfDigits p.1, natOfDigits p.2)) := by
  induction szs with
  | nil => rfl
  | cons p ps ih =>
    rw [List.all_cons, Bool.and_eq_true] at h
    rw [List.map_cons, parseSizes.eq_def]
    simp only []
    rw [parseSizeTok_tok p h.1]
    simp only []
    rw [ih h.2]
    simp

theorem urlOK_props (x : String) (h : urlOK x = true) :
    x.toList ≠ [] ∧ ∀ c ∈ x.toList, c.isWhitespace = false := by
  unfold urlOK at h
  rw [Bool.and_eq_true] at h
  constructor
  · intro he
    have h1 := h.1
    cases x with
    | mk data =>
      simp only [String.toList] at he
      subst he
      revert h1
      decide
  · intro c hc
    have := List.all_eq_true.mp h.2 c hc
    simp only [Bool.not_eq_true', Bool.or_eq_false_iff] at this
    exact this.2

theorem sizeTok_props (p : String × String) (h : szOK p = true) :
    (sizeTok p).toList ≠ [] ∧ ∀ c ∈ (sizeTok p).toList, c.isWhitespace = false := by
  unfold szOK at h
  rw [Bool.and_eq_true] at h
  have hd1 := h.1
  have hd2 := h.2
  unfold strIsDigitL at hd1 hd2
  rw [Bool.and_eq_true] at hd1 hd2
  have hform : (sizeTok p).toList = p.1.toList ++ 'x' :: p.2.toList := by
    unfold sizeTok
    rw [string_toList_append, string_toList_append, List.append_assoc]
    rfl
  rw [hform]
  constructor
  · intro he
    cases hl : p.1.toList with
    | nil => rw [hl] at he; exact List.noConfusion he
    | cons a b => rw [hl] at he; exact List.noConfusion he
  · intro c hc
    rcases List.mem_append.mp hc with hc1 | hc2
    · exact digit_not_ws c (List.all_eq_true.mp hd1.2 c hc1)
    · rcases List.mem_cons.mp hc2 with he | hc3
      · subst he
        rfl
      · exact digit_not_ws c (List.all_eq_true.mp hd2.2 c hc3)

theorem joinSpace_cons_ne (u : String) (us : List String)
    (hu : u.toList ≠ []) : ¬(joinSpace (u :: us) = "") := by
  intro he
  cases us with
  | nil =>
    rw [joinSpace.eq_def] at he
    simp only [] at he
    subst he
    exact hu rfl
  | cons y ys =>
    rw [joinSpace.eq_def] at he
    simp only [] at he
    have := congrArg String.toList he
    rw [string_toList_append, string_toList_append] at this
    rcases hl : u.toList with _ | ⟨a, b⟩
    · exact hu hl
    · rw [hl] at this
      exact List.noConfusion this

theorem rec_equiv : ∀ t : PNode, RECnode t := by
  intro t0
  induction t0 using flatSpec.induct (motive_2 := REClist) with
  | case1 n s i d l m cs ih =>
    unfold RECnode
    unfold REClist at ih
    intro hok
    obtain ⟨hn, hs, hi, hl, hm, hcs⟩ := nhxRoundOK_parts n s i d l m cs hok
    obtain ⟨cs3, hrec, hequiv⟩ := ih hcs
    rw [pexpNode.eq_def]
    simp only []
    rcases m with _ | mm
    · refine ⟨PNode.mk n s i none l none cs3, ?_, ?_⟩
      · rw [reconstructNode.eq_def]
        simp only []
        rw [hrec]
      · rw [equivNode.eq_def]
        simp only []
        rw [hequiv]
        simp [mediaEquiv]
    · obtain ⟨us, szs, hmm, hus, hszs, hlen⟩ := hm mm rfl
      subst hmm
      cases us with
      | nil =>
        have hszs0 : szs = [] := List.length_eq_zero.mp (by rw [← hlen]; rfl)
        subst hszs0
        refine ⟨PNode.mk n s i none l (some (.flat "" "")) cs3, ?_, ?_⟩
        · rw [reconstructNode.eq_def]
          simp only []
          rw [hrec]
          simp only []
          rw [show joinSpace ([] : List String) = "" from rfl,
            show joinSpace (List.map sizeTok ([] : List (String × String)))
              = "" from rfl]
          rw [if_pos rfl]
        · rw [equivNode.eq_def]
          simp only []
          rw [hequiv]
          simp [mediaEquiv]
      | cons u us1 =>
        have huprops := urlOK_props u (by
          rw [List.all_cons, Bool.and_eq_true] at hus
          exact hus.1)
        refine ⟨PNode.mk n s i none l
          (some (.parsed (u :: us1)
            (szs.map fun p => (natOfDigits p.1, natOfDigits p.2)))) cs3,
          ?_, ?_⟩
        · rw [reconstructNode.eq_def]
          simp only []
          rw [hrec]
          simp only []
          rw [if_neg (joinSpace_cons_ne u us1 huprops.1)]
          rw [pySplitWs_joinSpace (szs.map sizeTok) (by
            intro x hx
            obtain ⟨p, hp, he⟩ := List.mem_map.mp hx
            subst he
            exact sizeTok_props p (List.all_eq_true.mp hszs p hp))]
          rw [parseSizes_toks szs hszs]
          simp only []
          rw [pySplitWs_joinSpace (u :: us1) (by
            intro x hx
            exact urlOK_props x (List.all_eq_true.mp hus x hx))]
        · rw [equivNode.eq_def]
          simp only []
          rw [hequiv]
          simp [mediaEquiv]
  | case2 =>
    unfold REClist
    intro hok
    exact ⟨[], rfl, rfl⟩
  | case3 c cs1 ih1 ih2 =>
    unfold REClist
    unfold RECnode at ih1
    unfold REClist at ih2
    intro hok
    have hparts : nhxRoundOK c = true ∧ nhxRoundOKList cs1 = true := by
      rw [nhxRoundOKList.eq_def] at hok
      simp only [] at hok
      rw [Bool.and_eq_true] at hok
      exact hok
    obtain ⟨c3, hr1, he1⟩ := ih1 hparts.1
    obtain ⟨cs3, hr2, he2⟩ := ih2 hparts.2
    refine ⟨c3 :: cs3, ?_, ?_⟩
    · rw [pexpList.eq_def]
      simp only []
      rw [reconstructList.eq_def]
      simp only []
      rw [hr1]
      simp only []
      rw [hr2]
    · rw [equivList.eq_def]
      simp only []
      rw [he1, he2]
      rfl

theorem roundOK_listsShape : ∀ t : PNode, LSHnode t := by
  intro t0
  induction t0 using flatSpec.induct (motive_2 := LSHlist) with
  | case1 n s i d l m cs ih =>
    unfold LSHnode
    unfold LSHlist at ih
    intro hok x hx
    obtain ⟨hn, hs, hi, hl, hm, hcs⟩ := nhxRoundOK_parts n s i d l m cs hok
    rw [allNodes_shape] at hx
    rcases List.mem_cons.mp hx with he | hx2
    · subst he
      simp only [PNode.media]
      rcases m with _ | mm
      · exact Or.inl rfl
      · obtain ⟨us, szs, hmm, _, _, _⟩ := hm mm rfl
        subst hmm
        exact Or.inr ⟨us, szs, rfl⟩
    · exact ih hcs x (by simpa [PNode.children] using hx2)
  | case2 =>
    unfold LSHlist
    intro hok x hx
    cases hx
  | case3 c cs1 ih1 ih2 =>
    unfold LSHlist
    unfold LSHnode at ih1
    unfold LSHlist at ih2
    intro hok x hx
    have hparts : nhxRoundOK c = true ∧ nhxRoundOKList cs1 = true := by
      rw [nhxRoundOKList.eq_def] at hok
      simp only [] at hok
      rw [Bool.and_eq_true] at hok
      exact hok
    rw [allNodesList_cons] at hx
    rcases List.mem_append.mp hx with hx1 | hx2
    · exact ih1 hparts.1 x hx1
    · exact ih2 hparts.2 x hx2

/-- Claim C8: round-trip of the annotated interchange format.  For every
tree satisfying the shape that `build_tree` guarantees together with the
quoting/escaping constraints of the format (`nhxRoundOK`): the nhx write
path first flattens the image features in place and serializes; parsing
the serialized text reconstructs a tree; the reload loop re-splits the
stored image string on whitespace and each size token at its `x`
delimiter into an integer pair; and the resulting tree is equivalent to
the original — same names, support values, annotation lists and link,
and image features equal as (url, width, height) triples. -/
theorem claim_C8_roundtrip (t : PNode) (h : nhxRoundOK t = true) :
    ∃ t1 t2 t3,
      nhxFlattenNode t = .ok t1 ∧
      parseTree (serTree t1) = some t2 ∧
      reconstructNode t2 = .ok t3 ∧
      equivNode t t3 = true := by
  have hfw := flatten_writes t
  unfold FLnode at hfw
  have hlsh := roundOK_listsShape t
  unfold LSHnode at hlsh
  have hre := rec_equiv t
  unfold RECnode at hre
  obtain ⟨t3, hrec, heq⟩ := hre h
  exact ⟨flatSpec t, pexpNode t, t3, hfw (hlsh h), parseTree_ser t h,
    hrec, heq⟩

/-- Witness for C8: the round-trip on the concrete built tree
`exNodeYX` (root `Y` with link and one image, implicit leaf child
`X`). -/
theorem claim_C8_witness :
    nhxRoundOK exNodeYX = true ∧
    ∃ t1 t2 t3,
      nhxFlattenNode exNodeYX = .ok t1 ∧
      parseTree (serTree t1) = some t2 ∧
      reconstructNode t2 = .ok t3 ∧
      equivNode exNodeYX t3 = true :=
  ⟨by decide, claim_C8_roundtrip exNodeYX (by decide)⟩
